import Mathlib

/-!
Verification development of deck (`cofy-x/deck`): a shallow embedding of

* `packages/daemon/pkg/toolbox/process/registry.go` (the reap registry),
* `packages/daemon/pkg/toolbox/process/execute.go` (the execute adapter),
* `packages/daemon/pkg/terminal/decoder.go` (the incremental UTF-8 decoder),
* `packages/daemon/pkg/common/spawn_tty.go` and `get_shell.go` (PTY core, shell resolver),
* `packages/computer-use/internal/provider/provider.go`, `browser.go` and `mouse.go`
  (the desktop supervisor),
* `packages/daemon/pkg/ssh/server.go` (SSH dispatch and the non-PTY exec path),
* `packages/daemon/pkg/terminal/server.go` and `pkg/toolbox/middlewares/auth.go`
  (token check, WebSocket input loop),
* `packages/daemon/cmd/daemon/main.go` (the zombie reaper),

followed by the theorems about them.  Definitions come first, theorems after.
-/

namespace Deck

/-! ## Reap registry (`registry.go`)

Every method of `ProcessRegistry` runs under the registry mutex, so a method is
one state transition.  The clock is explicit: each method that reads
`time.Now()` receives the reading as the argument `now`.  A reading is the
monotonic clock in nanoseconds, and `now.Sub(t)` is the difference. -/

/-- Clock reading in nanoseconds. -/
abbrev Time := Int

/-- Go `time.Duration`: nanoseconds. -/
abbrev Duration := Int

/-- Process id (Go `int`). -/
abbrev Pid := Int

/-- Go `syscall.WaitStatus` (a `uint32`). -/
abbrev WaitStatus := Nat

/-- Go `time.Second`. -/
def Second : Duration := 1000000000

/-- Go `time.Millisecond`. -/
def Millisecond : Duration := 1000000

/-- The smallest value of a Go `int`, a 64-bit two's complement integer here (as is `int64`,
the type under `time.Duration`). -/
def minInt : Int := -9223372036854775808

/-- The greatest value of a Go `int`. -/
def maxInt : Int := 9223372036854775807

/-- The value of a Go `int` or `int64` expression whose exact result is `n`: the result
wraps around into the range from `minInt` to `maxInt`. -/
def wrapInt (n : Int) : Int :=
  (n + 9223372036854775808) % 18446744073709551616 - 9223372036854775808

/-- Exit information of a reaped process (`type ExitStatus struct`). -/
structure ExitStatus where
  Status : WaitStatus
  CachedAt : Time
deriving DecidableEq, Repr

/-- A `chan ExitStatus` of capacity one: the content of its single slot. -/
abbrev Chan := Option ExitStatus

/-- The registry (`type ProcessRegistry struct`).  A Go map is a finite partial
function; `processes` is a set of PIDs, `exitCache` maps a PID to its cached
status, `waiters` maps a PID to its rendezvous channel (`none`: no channel). -/
@[ext]
structure ProcessRegistry where
  processes : Pid → Bool
  exitCache : Pid → Option ExitStatus
  waiters : Pid → Option Chan

/-- The global registry as initialised: three empty maps. -/
def registry : ProcessRegistry :=
  { processes := fun _ => false, exitCache := fun _ => none, waiters := fun _ => none }

/-- The TTL of a cached status: `30 * time.Second`. -/
def exitCacheTTL : Duration := 30 * Second

namespace ProcessRegistry

/-- `Register`: marks the PID, and makes a one-slot channel unless one exists. -/
def Register (r : ProcessRegistry) (pid : Pid) : ProcessRegistry :=
  let processes := Function.update r.processes pid true
  match r.waiters pid with
  | some _ => { r with processes := processes }
  | none => { r with processes := processes, waiters := Function.update r.waiters pid (some none) }

/-- `Unregister`: `delete(r.processes, pid)` and `delete(r.waiters, pid)`. -/
def Unregister (r : ProcessRegistry) (pid : Pid) : ProcessRegistry :=
  { r with
    processes := Function.update r.processes pid false
    waiters := Function.update r.waiters pid none }

/-- `IsRegistered`. -/
def IsRegistered (r : ProcessRegistry) (pid : Pid) : Bool :=
  r.processes pid

/-- `pruneExitCacheLocked`: every entry with `now.Sub(CachedAt) > exitCacheTTL`
is deleted from the cache. -/
def pruneExitCacheLocked (r : ProcessRegistry) (now : Time) : ProcessRegistry :=
  { r with
    exitCache := fun pid =>
      match r.exitCache pid with
      | some status => if now - status.CachedAt > exitCacheTTL then none else some status
      | none => none }

/-- The non-blocking send `select { case waiter <- v: default: }` on a one-slot
channel: the value is stored when the slot is free and dropped otherwise. -/
def trySend (c : Chan) (v : ExitStatus) : Chan :=
  match c with
  | none => some v
  | some old => some old

/-- `CacheExitStatus`: prune, store the status stamped with `now`, then deliver
it without blocking to the PID's channel when there is one. -/
def CacheExitStatus (r : ProcessRegistry) (pid : Pid) (status : WaitStatus) (now : Time) :
    ProcessRegistry :=
  let r1 := r.pruneExitCacheLocked now
  let r2 := { r1 with exitCache := Function.update r1.exitCache pid (some ⟨status, now⟩) }
  match r2.waiters pid with
  | some waiter =>
    { r2 with waiters := Function.update r2.waiters pid (some (trySend waiter ⟨status, now⟩)) }
  | none => r2

/-- `GetCachedExitStatus`: prune, then look the PID up; `(0, false)` when absent.
Returns the registry after the call and the method's result. -/
def GetCachedExitStatus (r : ProcessRegistry) (pid : Pid) (now : Time) :
    ProcessRegistry × (WaitStatus × Bool) :=
  let r1 := r.pruneExitCacheLocked now
  match r1.exitCache pid with
  | some status => (r1, (status.Status, true))
  | none => (r1, (0, false))

/-- `WaitForExitStatus`.  The blocking `select` on the channel and the timer is
resolved by `arrival`: the value, if any, that a sender hands to the empty
channel before the timer fires.  A value already in the slot is received at
once. -/
def WaitForExitStatus (r : ProcessRegistry) (pid : Pid) (timeout : Duration) (now : Time)
    (arrival : Option ExitStatus) : ProcessRegistry × (WaitStatus × Bool) :=
  if timeout ≤ 0 then r.GetCachedExitStatus pid now
  else
    match r.GetCachedExitStatus pid now with
    | (r1, (status, true)) => (r1, (status, true))
    | (r1, (_, false)) =>
      match r1.waiters pid with
      | none => (r1, (0, false))
      | some (some status) =>
        ({ r1 with waiters := Function.update r1.waiters pid (some none) }, (status.Status, true))
      | some none =>
        match arrival with
        | some status => (r1, (status.Status, true))
        | none => (r1, (0, false))

end ProcessRegistry

/-- One call on the registry, with the clock reading it makes (if any). -/
inductive Op where
  | register (pid : Pid)
  | unregister (pid : Pid)
  | cache (pid : Pid) (status : WaitStatus) (now : Time)
  | get (pid : Pid) (now : Time)
  | waitFor (pid : Pid) (timeout : Duration) (now : Time) (arrival : Option ExitStatus)
deriving DecidableEq

/-- The registry after one call. -/
def Op.apply (r : ProcessRegistry) : Op → ProcessRegistry
  | .register pid => r.Register pid
  | .unregister pid => r.Unregister pid
  | .cache pid status now => r.CacheExitStatus pid status now
  | .get pid now => (r.GetCachedExitStatus pid now).1
  | .waitFor pid timeout now arrival => (r.WaitForExitStatus pid timeout now arrival).1

/-- The clock reading of a call; `Register` and `Unregister` read no clock. -/
def Op.time : Op → Option Time
  | .register _ => none
  | .unregister _ => none
  | .cache _ _ now => some now
  | .get _ now => some now
  | .waitFor _ _ now _ => some now

/-- The registry after a sequence of calls, first call first. -/
def run (r : ProcessRegistry) (ops : List Op) : ProcessRegistry :=
  ops.foldl Op.apply r

/-- The calls read a clock that never goes back and has reached `t` already. -/
def clockFrom : Time → List Op → Prop
  | _, [] => True
  | t, op :: ops =>
    match op.time with
    | some u => t ≤ u ∧ clockFrom u ops
    | none => clockFrom t ops

/-- What a call stores in the cache for `pid`: only `CacheExitStatus(pid, _)` stores. -/
def Op.cached (pid : Pid) : Op → Option ExitStatus
  | .cache q status now => if q = pid then some ⟨status, now⟩ else none
  | _ => none

/-- The status and time of the most recent `CacheExitStatus` for `pid`. -/
def lastCached (pid : Pid) : List Op → Option ExitStatus
  | [] => none
  | op :: ops =>
    match lastCached pid ops with
    | some e => some e
    | none => op.cached pid

/-- The latest clock reading among the calls, `t` when there is none. -/
def lastTime (t : Time) : List Op → Time
  | [] => t
  | op :: ops =>
    match op.time with
    | some u => lastTime u ops
    | none => lastTime t ops

/-! ## Execute adapter (`execute.go`)

A Go string that is valid UTF-8 is the sequence of its code points: `range` over it yields
them in order and `WriteRune` appends one to a buffer.  Lean's `String` is that sequence, so
the embedding of `parseCommand` covers the valid UTF-8 command strings. -/

/-- The double quote character (U+0022). -/
def doubleQuote : Char := Char.ofNat 34

/-- The single quote character (U+0027). -/
def singleQuote : Char := Char.ofNat 39

/-- The zero rune, the value of `quoteChar` outside quotes. -/
def zeroRune : Char := Char.ofNat 0

/-- The local variables of `parseCommand`: `args`, `current`, `inQuotes`, `quoteChar`. -/
structure ParseState where
  args : List String
  current : List Char
  inQuotes : Bool
  quoteChar : Char
deriving DecidableEq, Repr

/-- The body of the `for _, r := range command` loop of `parseCommand`. -/
def parseStep (st : ParseState) (r : Char) : ParseState :=
  if r = doubleQuote ∨ r = singleQuote then
    if !st.inQuotes then
      { st with inQuotes := true, quoteChar := r }
    else if st.quoteChar = r then
      { st with inQuotes := false, quoteChar := zeroRune }
    else
      { st with current := st.current ++ [r] }
  else if r = ' ' ∧ !st.inQuotes then
    if st.current.length > 0 then
      { st with args := st.args ++ [String.mk st.current], current := [] }
    else
      st
  else
    { st with current := st.current ++ [r] }

/-- The end of `parseCommand`: a non-empty `current` is the last argument. -/
def parseFinish (st : ParseState) : List String :=
  if st.current.length > 0 then st.args ++ [String.mk st.current] else st.args

/-- `parseCommand`: splits a command string, handling quotes. -/
def parseCommand (command : String) : List String :=
  parseFinish (command.data.foldl parseStep ⟨[], [], false, zeroRune⟩)

/-- The pieces of a string between its space characters, the empty pieces left out: what
"splitting at spaces" means for a string without quotes. -/
def spaceFields (command : String) : List String :=
  ((command.data.splitOn ' ').filter (fun piece => piece ≠ [])).map String.mk

/-- The request body (`ExecuteRequest`): command, optional working directory, optional
timeout in seconds. -/
structure ExecuteRequest where
  Command : String
  Cwd : Option String
  Timeout : Option Int

/-- The error of `cmd.Wait()`, as far as `ExecuteCommand` looks at it: either an
`*exec.ExitError` with its exit code (its text is the process state, and it wraps no errno),
or another error with whether `errors.Is(err, syscall.ECHILD)` holds and its text. -/
inductive WaitError where
  | exitError (exitCode : Int)
  | other (isECHILD : Bool) (text : String)
deriving DecidableEq, Repr

/-- `isNoChildProcessError`. -/
def isNoChildProcessError : Option WaitError → Bool
  | none => false
  | some (.exitError _) => false
  | some (.other isECHILD text) =>
    if isECHILD then true
    else if text = "waitid: no child processes" ∨ text = "wait: no child processes" then true
    else false

/-- `getNoChildWaitTimeout`; `value` is the trimmed content of `DECK_EXECUTE_ECHILD_WAIT_MS`
and `atoi` is `strconv.Atoi` (`none` for an error; a number it returns is a Go `int`).  The
product `time.Duration(parsed) * time.Millisecond` is computed in `int64` and wraps. -/
def getNoChildWaitTimeout (value : String) (atoi : String → Option Int) : Duration :=
  if value = "" then 200 * Millisecond
  else
    match atoi value with
    | some parsed => if parsed ≥ 0 then wrapInt (parsed * Millisecond) else 1 * Second
    | none => 1 * Second

/-- Go `syscall.WaitStatus.ExitStatus` on Linux: `-1` unless the low seven bits are zero
(`Exited`), else bits 8 to 15. -/
def WaitStatus.ExitStatus (w : WaitStatus) : Int :=
  if w % 128 = 0 then ((w / 256 % 256 : Nat) : Int) else -1

/-- What `ExecuteCommand` sends: `c.AbortWithError(status, err)` or `c.JSON(status,
ExecuteResponse)`. -/
inductive Response where
  | abort (status : Nat) (message : String)
  | json (status : Nat) (ExitCode : Int) (Result : String)
deriving DecidableEq, Repr

/-- Everything one run of `ExecuteCommand` gets from outside: the outcome of `cmd.Start`, the
PID, the outcome of `cmd.Wait` with the state of the `timeoutReached` flag and of
`cmd.ProcessState` after it, the captured output, the calls other goroutines (the reaper) make
on the registry before the cache lookup (`reaped`) and between the lookup and
`WaitForExitStatus` (`between`), the clock readings of the two lookups, the environment
variable, and what arrives on the rendezvous channel during the wait window. -/
structure ExecuteEnv where
  startErr : Option String
  pid : Pid
  timeoutReached : Bool
  waitErr : Option WaitError
  processState : Option Int
  stdout : String
  stderr : String
  reaped : List Op
  between : List Op
  lookupTime : Time
  waitTime : Time
  waitMsValue : String
  atoi : String → Option Int
  arrival : Option ExitStatus

/-- The "Determine exit code" part of `ExecuteCommand`, from `cmd.Wait()` returning to the
response; `r` is the registry when `Wait` returns. -/
def determineExitCode (r : ProcessRegistry) (env : ExecuteEnv) : ProcessRegistry × Response :=
  let output := env.stdout ++ env.stderr
  match env.waitErr with
  | some err =>
    if env.timeoutReached then
      (r, .abort 408 "command execution timeout")
    else if isNoChildProcessError (some err) then
      match r.GetCachedExitStatus env.pid env.lookupTime with
      | (r1, (cachedStatus, true)) => (r1, .json 200 (WaitStatus.ExitStatus cachedStatus) output)
      | (r1, (_, false)) =>
        let waitTimeout := getNoChildWaitTimeout env.waitMsValue env.atoi
        match (run r1 env.between).WaitForExitStatus env.pid waitTimeout env.waitTime
          env.arrival with
        | (r2, (cachedStatus, true)) =>
          (r2, .json 200 (WaitStatus.ExitStatus cachedStatus) output)
        | (r2, (_, false)) => (r2, .json 200 (-1) output)
    else
      match err with
      | .exitError exitCode => (r, .json 200 exitCode output)
      | .other _ _ => (r, .json 200 (-1) output)
  | none =>
    match env.processState with
    | some exitCode => (r, .json 200 exitCode output)
    | none => (r, .json 200 (-1) output)

/-- `ExecuteCommand`; `request` is `none` when binding the JSON body failed, and `r` is the
registry at the moment the handler registers the PID.  Returns the registry after the handler
(the deferred `Unregister` included) and the response. -/
def ExecuteCommand (r : ProcessRegistry) (request : Option ExecuteRequest) (env : ExecuteEnv) :
    ProcessRegistry × Response :=
  match request with
  | none => (r, .abort 400 "command is required")
  | some request =>
    let cmdParts := parseCommand request.Command
    if cmdParts.length = 0 then
      (r, .abort 400 "empty command")
    else
      match env.startErr with
      | some err => (r, .abort 500 err)
      | none =>
        let r1 := run (r.Register env.pid) env.reaped
        let (r2, response) := determineExitCode r1 env
        (r2.Unregister env.pid, response)

/-- An example run of `ExecuteCommand` for PID 7 with output "out" and "err", the lookups made
one second after time 0, the environment variable unset. -/
def exampleEnv (timeoutReached : Bool) (waitErr : Option WaitError) (processState : Option Int)
    (reaped : List Op) (arrival : Option ExitStatus) : ExecuteEnv :=
  { startErr := none, pid := 7, timeoutReached := timeoutReached, waitErr := waitErr,
    processState := processState, stdout := "out", stderr := "err", reaped := reaped,
    between := [], lookupTime := Second, waitTime := Second, waitMsValue := "",
    atoi := fun _ => none, arrival := arrival }

/-! ## UTF-8 fragment decoder (`decoder.go`)

`UTF8Decoder.Write` is built on Go's `unicode/utf8`: `Valid`, `DecodeRune` and (through
`strings.Builder.WriteRune`) `AppendRune`.  These three are embedded first, table by table.
A Go `[]byte` or `string` is a list of bytes; a rune (Go `int32`) is a natural number, every
rune that occurs being a code point produced by `DecodeRune`. -/

/-- One byte. -/
abbrev Byte := Fin 256

/-- `utf8.RuneError`, the replacement character U+FFFD. -/
def RuneError : Nat := 0xFFFD

/-- `utf8.RuneSelf`: bytes below it are single-byte characters. -/
def RuneSelf : Nat := 0x80

/-- `utf8.UTFMax`: the longest encoding has four bytes. -/
def UTFMax : Nat := 4

/-- `utf8.MaxRune`. -/
def MaxRune : Nat := 0x10FFFF

def surrogateMin : Nat := 0xD800

def surrogateMax : Nat := 0xDFFF

def rune1Max : Nat := 0x7F

def rune2Max : Nat := 0x7FF

def rune3Max : Nat := 0xFFFF

def tx : Nat := 0x80

def t2 : Nat := 0xC0

def t3 : Nat := 0xE0

def t4 : Nat := 0xF0

def maskx : Nat := 0x3F

def mask2 : Nat := 0x1F

def mask3 : Nat := 0x0F

def mask4 : Nat := 0x07

/-- Lowest continuation byte. -/
def locb : Nat := 0x80

/-- Highest continuation byte. -/
def hicb : Nat := 0xBF

/-- Entry of `first` for an illegal first byte. -/
def xx : Nat := 0xF1

/-- Entry of `first` for an ASCII byte. -/
def as : Nat := 0xF0

def s1 : Nat := 0x02

def s2 : Nat := 0x13

def s3 : Nat := 0x03

def s4 : Nat := 0x23

def s5 : Nat := 0x34

def s6 : Nat := 0x04

def s7 : Nat := 0x44

/-- The table `first`: information about the first byte of an encoding (low three bits: the
size; high four bits: the index into `acceptRanges`). -/
def first (b : Nat) : Nat :=
  if b < 0x80 then as
  else if b < 0xC2 then xx
  else if b < 0xE0 then s1
  else if b = 0xE0 then s2
  else if b < 0xED then s3
  else if b = 0xED then s4
  else if b < 0xF0 then s3
  else if b = 0xF0 then s5
  else if b < 0xF4 then s6
  else if b = 0xF4 then s7
  else xx

/-- The range of valid values of the second byte (`type acceptRange struct`). -/
structure acceptRange where
  lo : Nat
  hi : Nat

/-- The table `acceptRanges` (sixteen entries, the last eleven zero). -/
def acceptRanges (i : Nat) : acceptRange :=
  match i with
  | 0 => ⟨locb, hicb⟩
  | 1 => ⟨0xA0, hicb⟩
  | 2 => ⟨locb, 0x9F⟩
  | 3 => ⟨0x90, hicb⟩
  | 4 => ⟨locb, 0x8F⟩
  | _ => ⟨0, 0⟩

/-- The byte `p[i]` as a number. -/
def byteAt (p : List Byte) (i : Nat) : Nat :=
  (p.getD i 0).val

/-- `utf8.DecodeRune`: the first rune of `p` and its width in bytes; `(RuneError, 0)` for the
empty input and `(RuneError, 1)` for an invalid or incomplete encoding. -/
def DecodeRune (p : List Byte) : Nat × Nat :=
  let n := p.length
  if n < 1 then (RuneError, 0)
  else
    let p0 := byteAt p 0
    let x := first p0
    if x ≥ as then
      -- `mask := rune(x) << 31 >> 31` is all ones when bit 0 of `x` is set (`x == xx`)
      if x % 2 = 1 then (RuneError, 1) else (p0, 1)
    else
      let sz := x &&& 7
      let accept := acceptRanges (x >>> 4)
      if n < sz then (RuneError, 1)
      else
        let b1 := byteAt p 1
        if b1 < accept.lo ∨ accept.hi < b1 then (RuneError, 1)
        else if sz ≤ 2 then (((p0 &&& mask2) <<< 6) ||| (b1 &&& maskx), 2)
        else
          let b2 := byteAt p 2
          if b2 < locb ∨ hicb < b2 then (RuneError, 1)
          else if sz ≤ 3 then
            (((p0 &&& mask3) <<< 12) ||| ((b1 &&& maskx) <<< 6) ||| (b2 &&& maskx), 3)
          else
            let b3 := byteAt p 3
            if b3 < locb ∨ hicb < b3 then (RuneError, 1)
            else
              (((p0 &&& mask4) <<< 18) ||| ((b1 &&& maskx) <<< 12) ||| ((b2 &&& maskx) <<< 6)
                ||| (b3 &&& maskx), 4)

/-- The loop of `utf8.Valid` on the rest `p[i:]` of the input; every iteration consumes at
least one byte, so `fuel = len(p[i:])` iterations are enough.  (The library first skips ASCII
bytes eight at a time; that shortcut returns what this loop returns and is left out.) -/
def validLoop : Nat → List Byte → Bool
  | 0, p => p.isEmpty
  | fuel + 1, p =>
    if p.length = 0 then true
    else
      let pi := byteAt p 0
      if pi < RuneSelf then validLoop fuel (p.drop 1)
      else
        let x := first pi
        if x = xx then false
        else
          let size := x &&& 7
          if size > p.length then false
          else
            let accept := acceptRanges (x >>> 4)
            let c1 := byteAt p 1
            if c1 < accept.lo ∨ accept.hi < c1 then false
            else if size = 2 then validLoop fuel (p.drop size)
            else
              let c2 := byteAt p 2
              if c2 < locb ∨ hicb < c2 then false
              else if size = 3 then validLoop fuel (p.drop size)
              else
                let c3 := byteAt p 3
                if c3 < locb ∨ hicb < c3 then false
                else validLoop fuel (p.drop size)

/-- `utf8.Valid`: whether `p` consists entirely of valid UTF-8 encoded runes. -/
def Valid (p : List Byte) : Bool :=
  validLoop p.length p

/-- The conversion `byte(n)`: the low eight bits. -/
def toByte (n : Nat) : Byte :=
  Fin.ofNat n

/-- `utf8.AppendRune` to the empty slice (what `strings.Builder.WriteRune` appends): the UTF-8
encoding of `r`, and the encoding of `RuneError` for a surrogate or a rune out of range. -/
def EncodeRune (r : Nat) : List Byte :=
  if r ≤ rune1Max then [toByte r]
  else if r ≤ rune2Max then
    [toByte (t2 ||| toByte (r >>> 6)), toByte (tx ||| (toByte r &&& maskx))]
  else if r < surrogateMin ∨ (surrogateMax < r ∧ r ≤ rune3Max) then
    [toByte (t3 ||| toByte (r >>> 12)), toByte (tx ||| (toByte (r >>> 6) &&& maskx)),
      toByte (tx ||| (toByte r &&& maskx))]
  else if r > rune3Max ∧ r ≤ MaxRune then
    [toByte (t4 ||| toByte (r >>> 18)), toByte (tx ||| (toByte (r >>> 12) &&& maskx)),
      toByte (tx ||| (toByte (r >>> 6) &&& maskx)), toByte (tx ||| (toByte r &&& maskx))]
  else [0xEF, 0xBF, 0xBD]

/-- The decoder (`type UTF8Decoder struct`): the bytes kept from the previous call. -/
structure UTF8Decoder where
  buffer : List Byte
deriving DecidableEq, Repr

/-- `NewUTF8Decoder`: an empty buffer. -/
def NewUTF8Decoder : UTF8Decoder :=
  { buffer := [] }

/-- The slow path loop of `Write` on the rest `fullData[i:]` with the builder's content;
returns the builder and the rest at the exit of the loop.  Every iteration that continues
consumes at least one byte. -/
def writeLoop : Nat → List Byte → List Byte → List Byte × List Byte
  | 0, rest, builder => (builder, rest)
  | fuel + 1, rest, builder =>
    if rest.length = 0 then (builder, rest)
    else
      let (r, size) := DecodeRune rest
      if r = RuneError ∧ rest.length < UTFMax then (builder, rest)
      else writeLoop fuel (rest.drop size) (builder ++ EncodeRune r)

/-- `UTF8Decoder.Write`: the decoder after the call and the returned string. -/
def UTF8Decoder.Write (d : UTF8Decoder) (data : List Byte) : UTF8Decoder × List Byte :=
  if data.length = 0 ∧ d.buffer.length = 0 then (d, [])
  else
    let fullData := if d.buffer.length > 0 then d.buffer ++ data else data
    if Valid fullData then ({ buffer := [] }, fullData)
    else
      let (builder, rest) := writeLoop fullData.length fullData []
      ({ buffer := rest }, builder)

/-- The chunks written in order to one decoder: the decoder at the end and the returned
strings. -/
def writeAll (d : UTF8Decoder) : List (List Byte) → UTF8Decoder × List (List Byte)
  | [] => (d, [])
  | data :: chunks =>
    let (d1, out) := d.Write data
    let (d2, outs) := writeAll d1 chunks
    (d2, out :: outs)

/-- The runes of a byte sequence, decoded one `DecodeRune` after the other; an undecodable
byte gives `RuneError` and is skipped alone. -/
def decodeLoop : Nat → List Byte → List Nat
  | 0, _ => []
  | fuel + 1, p =>
    if p.length = 0 then []
    else
      let (r, size) := DecodeRune p
      r :: decodeLoop fuel (p.drop size)

/-- The UTF-8 decoding of a byte sequence as a string: its runes, each undecodable byte
rendered as U+FFFD. -/
def decodeString (p : List Byte) : List Byte :=
  (decodeLoop p.length p).flatMap EncodeRune

/-- The result of `DecodeRune` in arithmetic form, as a function of the length `n` of the
input and of its first four bytes (zero where the input is shorter): the ranges of a
well-formed encoding of one, two, three or four bytes, and `(RuneError, 1)` outside them. -/
def decodeArith (n p0 b1 b2 b3 : Nat) : Nat × Nat :=
  if n < 1 then (RuneError, 0)
  else if p0 < 0x80 then (p0, 1)
  else if 0xC2 ≤ p0 ∧ p0 < 0xE0 ∧ 2 ≤ n ∧ 0x80 ≤ b1 ∧ b1 ≤ 0xBF then
    (p0 % 32 * 64 + b1 % 64, 2)
  else if 0xE0 ≤ p0 ∧ p0 < 0xF0 ∧ 3 ≤ n ∧ (if p0 = 0xE0 then 0xA0 else 0x80) ≤ b1 ∧
      b1 ≤ (if p0 = 0xED then 0x9F else 0xBF) ∧ 0x80 ≤ b2 ∧ b2 ≤ 0xBF then
    (p0 % 16 * 4096 + b1 % 64 * 64 + b2 % 64, 3)
  else if 0xF0 ≤ p0 ∧ p0 < 0xF5 ∧ 4 ≤ n ∧ (if p0 = 0xF0 then 0x90 else 0x80) ≤ b1 ∧
      b1 ≤ (if p0 = 0xF4 then 0x8F else 0xBF) ∧ 0x80 ≤ b2 ∧ b2 ≤ 0xBF ∧ 0x80 ≤ b3 ∧
      b3 ≤ 0xBF then
    (p0 % 8 * 262144 + b1 % 64 * 4096 + b2 % 64 * 64 + b3 % 64, 4)
  else (RuneError, 1)

/-- The result of `DecodeRune` on a first byte that announces `sz` bytes (2, 3 or 4) and
accepts second bytes from `lo` to `hi`. -/
def decodeSized (sz lo hi n p0 b1 b2 b3 : Nat) : Nat × Nat :=
  if sz = 2 ∧ 2 ≤ n ∧ lo ≤ b1 ∧ b1 ≤ hi then (p0 % 32 * 64 + b1 % 64, 2)
  else if sz = 3 ∧ 3 ≤ n ∧ lo ≤ b1 ∧ b1 ≤ hi ∧ 0x80 ≤ b2 ∧ b2 ≤ 0xBF then
    (p0 % 16 * 4096 + b1 % 64 * 64 + b2 % 64, 3)
  else if sz = 4 ∧ 4 ≤ n ∧ lo ≤ b1 ∧ b1 ≤ hi ∧ 0x80 ≤ b2 ∧ b2 ≤ 0xBF ∧ 0x80 ≤ b3 ∧
      b3 ≤ 0xBF then
    (p0 % 8 * 262144 + b1 % 64 * 4096 + b2 % 64 * 64 + b3 % 64, 4)
  else (RuneError, 1)

/-! ## PTY core (`spawn_tty.go`)

`SpawnTTY` is followed on its own goroutine: what it does to the shell process and to the PTY
master, in order, the deferred calls included, and what it returns.  The relays and the
watchdog run on other goroutines; of them only the outcome of the output relay and whether
the watchdog has closed the PTY master already reach this goroutine. -/

/-- A Go error as far as `SpawnTTY` looks at it: its text (`err.Error()`) and whether
`errors.Is(err, syscall.EIO)` holds. -/
structure GoError where
  text : String
  isEIO : Bool
deriving DecidableEq, Repr

/-- Go `strings.Contains(s, substr)`. -/
def containsStr (s substr : String) : Bool :=
  decide (substr.data <:+: s.data)

/-- The error `SpawnTTY` returns: `fmt.Errorf("[%s] failed to start pty: %w", sid, err)`,
`fmt.Errorf("[%s] pty io error: %w", sid, copyErr)`, or the error of `cmd.Wait()` itself. -/
inductive SpawnError where
  | startFailed (sid : String) (err : GoError)
  | ptyIoError (sid : String) (err : GoError)
  | wait (err : GoError)
deriving DecidableEq, Repr

/-- What the goroutine of `SpawnTTY` does, one entry per call: `pty.Start` (and whether it
succeeded), the output relay `io.Copy(opts.StdOut, f)`, `cmd.Wait()`, `close(done)`,
`cmd.Process.Kill()`, and the `f.Close()` inside `safeClose`. -/
inductive TTYAction where
  | ptyStart (ok : Bool)
  | relayOutput
  | wait
  | closeDone
  | kill
  | closePTY
deriving DecidableEq, Repr

/-- What one run of `SpawnTTY` gets from outside: the outcome of `pty.Start` and the PID of
the shell, the error of the output relay, the error of the first `cmd.Wait()`, and whether the
watchdog has run `safeClose` before the deferred `safeClose` does. -/
structure SpawnEnv where
  startErr : Option GoError
  pid : Nat
  copyErr : Option GoError
  waitErr : Option GoError
  watchdogClosed : Bool

/-- Step 8 of `SpawnTTY`, the EIO normalisation of the relay error. -/
def normalizeCopyErr (copyErr : Option GoError) : Option GoError :=
  match copyErr with
  | some err =>
    if err.isEIO || containsStr err.text "input/output error" then none else some err
  | none => none

/-- Step 9 of `SpawnTTY`, the normalisation of the error of `cmd.Wait()`. -/
def normalizeWaitErr (waitErr : Option GoError) : Option GoError :=
  match waitErr with
  | some err =>
    if containsStr err.text "already finished" ||
        containsStr err.text "Wait was already called" ||
        containsStr err.text "no child processes" then none
    else some err
  | none => none

/-- `SpawnTTY`: the calls made in order and the returned error (`none` for `nil`).  After a
successful start `cmd.Process` is set; the deferred calls run last, in the reverse order of
their `defer` statements: `close(done)`, the cleanup (`Kill` when `cmd.Process != nil`, then
`Wait`), `safeClose`. -/
def SpawnTTY (sid : String) (env : SpawnEnv) : List TTYAction × Option SpawnError :=
  match env.startErr with
  | some err => ([.ptyStart false], some (.startFailed sid err))
  | none =>
    let process : Option Nat := some env.pid
    let copyErr := normalizeCopyErr env.copyErr
    let waitErr := normalizeWaitErr env.waitErr
    let result : Option SpawnError :=
      match copyErr with
      | some err => some (.ptyIoError sid err)
      | none => waitErr.map SpawnError.wait
    let cleanup : List TTYAction := (if process.isSome then [.kill] else []) ++ [.wait]
    let safeClose : List TTYAction := if env.watchdogClosed then [] else [.closePTY]
    ([.ptyStart true, .relayOutput, .wait] ++ [.closeDone] ++ cleanup ++ safeClose, result)

/-- The relay ended the normal way: its error is nil, is EIO, or mentions "input/output
error". -/
def relayEndedNormally (copyErr : Option GoError) : Prop :=
  copyErr = none ∨
    ∃ err, copyErr = some err ∧ (err.isEIO = true ∨ containsStr err.text "input/output error" = true)

/-- The shell was waited for, here or by the reaper: the error of `Wait` is nil or mentions
"already finished", "Wait was already called" or "no child processes". -/
def waitEndedNormally (waitErr : Option GoError) : Prop :=
  waitErr = none ∨
    ∃ err, waitErr = some err ∧
      (containsStr err.text "already finished" = true ∨
        containsStr err.text "Wait was already called" = true ∨
        containsStr err.text "no child processes" = true)

/-! ## Shell resolver (`get_shell.go`)

The file system and the environment are read once: `stat` is what `statFunc` answers for a
path (`none` for an error), `shellEnv` is `os.Getenv("SHELL")` (empty when unset) and
`shellsFile` is what `readFileFunc(shellsFilePath)` returns (`none` for an error).  The
package variables `preferredShellPaths` and `fallbackShellPaths` are arguments of `GetShell`,
as the tests replace them. -/

/-- The value of `preferredShellPaths`. -/
def preferredShellPaths : List String :=
  ["/usr/bin/zsh", "/bin/zsh", "/usr/local/bin/zsh", "/opt/homebrew/bin/zsh"]

/-- The value of `fallbackShellPaths`. -/
def fallbackShellPaths : List String :=
  ["/usr/bin/bash", "/bin/bash", "/bin/sh"]

/-- What `isExecutable` reads of an `os.FileInfo`: `IsDir()` and `Mode().Perm()`. -/
structure FileInfo where
  isDir : Bool
  perm : Nat
deriving DecidableEq, Repr

/-- Go `filepath.Base` on a Unix path: the last element, trailing slashes removed; "." for
the empty path and "/" for a path of slashes only. -/
def Base (path : String) : String :=
  if path = "" then "."
  else
    let stripped := (path.data.reverse.dropWhile (fun c => c = '/')).reverse
    let last := (stripped.reverse.takeWhile (fun c => c ≠ '/')).reverse
    if last = [] then "/" else String.mk last

/-- `isExecutable`: the path exists, is no directory and has one of the execute bits. -/
def isExecutable (stat : String → Option FileInfo) (path : String) : Bool :=
  match stat path with
  | none => false
  | some info =>
    if info.isDir then false
    else decide (info.perm &&& 0o111 ≠ 0) && decide (Base path ≠ "")

/-- Go `unicode.IsSpace`. -/
def isSpace (c : Char) : Bool :=
  let n := c.toNat
  (0x09 ≤ n && n ≤ 0x0D) || n = 0x20 || n = 0x85 || n = 0xA0 || n = 0x1680 ||
    (0x2000 ≤ n && n ≤ 0x200A) || n = 0x2028 || n = 0x2029 || n = 0x202F || n = 0x205F ||
    n = 0x3000

/-- Go `strings.TrimSpace`: leading and trailing white space removed. -/
def TrimSpace (s : List Char) : List Char :=
  ((s.dropWhile isSpace).reverse.dropWhile isSpace).reverse

/-- The body of the loop of `readShellsFile`: the trimmed line is appended unless it is empty
or starts with `#`. -/
def readShellsStep (shells : List String) (line : List Char) : List String :=
  let line := TrimSpace line
  if line = [] ∨ line.head? = some '#' then shells else shells ++ [String.mk line]

/-- `readShellsFile`: nil on a read error, else the entries of the file (a file content that
is valid UTF-8, split at the newline characters). -/
def readShellsFile (shellsFile : Option String) : List String :=
  match shellsFile with
  | none => []
  | some data => (data.data.splitOn '\n').foldl readShellsStep []

/-- `containsShell`. -/
def containsShell (shells : List String) (target : String) : Bool :=
  shells.any (fun shellPath => shellPath = target)

/-- `GetShell`; each `for ... { if ... { return shellPath } }` is the first element of the
list that passes the test. -/
def GetShell (preferred fallback : List String) (stat : String → Option FileInfo)
    (shellEnv : String) (shellsFile : Option String) : String :=
  match preferred.find? (fun shellPath => isExecutable stat shellPath) with
  | some shellPath => shellPath
  | none =>
    if shellEnv ≠ "" ∧ isExecutable stat shellEnv = true then shellEnv
    else
      let shells := readShellsFile shellsFile
      let listed : Option String :=
        if shells.length > 0 then
          match preferred.find?
            (fun shellPath => containsShell shells shellPath && isExecutable stat shellPath) with
          | some shellPath => some shellPath
          | none =>
            match fallback.find?
              (fun shellPath => containsShell shells shellPath && isExecutable stat shellPath) with
            | some shellPath => some shellPath
            | none => shells.find? (fun shellPath => isExecutable stat shellPath)
        else none
      match listed with
      | some shellPath => shellPath
      | none =>
        match fallback.find? (fun shellPath => isExecutable stat shellPath) with
        | some shellPath => shellPath
        | none => "sh"

/-- The entries of a shells file in the words of the specification: the lines trimmed, the
blank lines and the lines starting with `#` left out, the order kept. -/
def shellEntries (data : String) : List String :=
  (((data.data.splitOn '\n').map TrimSpace).filter
    (fun line => decide (line ≠ []) && decide (line.head? ≠ some '#'))).map String.mk

/-- A file system for examples: the given paths are regular files with mode 0755. -/
def exampleStat (executables : List String) (path : String) : Option FileInfo :=
  if path ∈ executables then some ⟨false, 0o755⟩ else none

/-! ## Desktop supervisor (`provider.go`)

A record of the supervisor's map is its configuration; the runtime fields of a record follow
further down.  Ranging over the Go map yields the records in an order that is not fixed:
the functions that range over it take the records `ranged` in the order the loop met
them. -/

/-- The configuration of a record (`type Process struct`, without the runtime fields). -/
structure Process where
  Name : String
  Command : String
  Args : List String
  User : String
  Priority : Int
  Env : List (String × String)
  LogFile : String
  ErrFile : String
  AutoRestart : Bool
deriving DecidableEq, Repr

/-- What `initializeProcesses` reads from outside: the home and configuration directories, the
environment variables, and which of the noVNC launchers exist. -/
structure InitEnv where
  homeDir : String
  configDir : String
  VNC_RESOLUTION : String
  VNC_PORT : String
  NO_VNC_PORT : String
  DISPLAY : String
  VNC_USER : String
  DECK_SANDBOX_USER : String
  hasLaunchSh : Bool
  hasNovncProxy : Bool

/-- `filepath.Join(dir, name)` for a clean directory and a file name. -/
def joinPath (dir name : String) : String :=
  dir ++ "/" ++ name

/-- The value of an environment variable, or the default when it is empty. -/
def orDefault (value default : String) : String :=
  if value = "" then default else value

/-- `initializeProcesses`: the four entries put in the map, key and record. -/
def initializeProcesses (e : InitEnv) : List (String × Process) :=
  let vncResolution := orDefault e.VNC_RESOLUTION "1280x720"
  let vncPort := orDefault e.VNC_PORT "5901"
  let noVncPort := orDefault e.NO_VNC_PORT "6080"
  let display := orDefault e.DISPLAY ":0"
  let user := orDefault e.VNC_USER (orDefault e.DECK_SANDBOX_USER "deck")
  let novnc : String × List String :=
    if e.hasLaunchSh then
      ("/usr/share/novnc/utils/launch.sh", ["--vnc", "localhost:" ++ vncPort, "--listen", noVncPort])
    else if e.hasNovncProxy then
      ("/usr/share/novnc/utils/novnc_proxy",
        ["--vnc", "localhost:" ++ vncPort, "--listen", noVncPort])
    else ("websockify", ["--web=/usr/share/novnc/", noVncPort, "localhost:" ++ vncPort])
  [("xvfb",
      { Name := "xvfb", Command := "/usr/bin/Xvfb",
        Args := [display, "-screen", "0", vncResolution ++ "x24"], User := user,
        Priority := 100, AutoRestart := true, Env := [("DISPLAY", display)],
        LogFile := joinPath e.configDir "xvfb.log", ErrFile := joinPath e.configDir "xvfb.err" }),
    ("xfce4",
      { Name := "xfce4", Command := "/usr/bin/startxfce4", Args := [], User := user,
        Priority := 200, AutoRestart := true,
        Env := [("DISPLAY", display), ("HOME", e.homeDir), ("USER", user),
          ("XDG_RUNTIME_DIR", "/tmp/runtime-" ++ user)],
        LogFile := joinPath e.configDir "xfce4.log",
        ErrFile := joinPath e.configDir "xfce4.err" }),
    ("x11vnc",
      { Name := "x11vnc", Command := "/usr/bin/x11vnc",
        Args := ["-display", display, "-forever", "-shared", "-rfbport", vncPort],
        User := user, Priority := 300, AutoRestart := true, Env := [("DISPLAY", display)],
        LogFile := joinPath e.configDir "x11vnc.log",
        ErrFile := joinPath e.configDir "x11vnc.err" }),
    ("novnc",
      { Name := "novnc", Command := novnc.1, Args := novnc.2, User := user, Priority := 400,
        AutoRestart := true, Env := [("DISPLAY", display)],
        LogFile := joinPath e.configDir "novnc.log",
        ErrFile := joinPath e.configDir "novnc.err" })]

/-- The body of the inner loop of `getProcessesByPriority`: `processes[i]` and
`processes[j]` are exchanged when the first has the greater `Priority`. -/
def swapStep (processes : List Process) (i j : Nat) : List Process :=
  match processes[i]?, processes[j]? with
  | some pi, some pj =>
    if pi.Priority > pj.Priority then (processes.set i pj).set j pi else processes
  | _, _ => processes

/-- The inner loop `for j := i + 1; j < len(processes); j++`. -/
def innerLoop (processes : List Process) (i : Nat) : List Process :=
  (List.range' (i + 1) (processes.length - (i + 1))).foldl
    (fun processes j => swapStep processes i j) processes

/-- `getProcessesByPriority`: the records as ranged over, then the outer loop
`for i := 0; i < len(processes)-1; i++`. -/
def getProcessesByPriority (ranged : List Process) : List Process :=
  (List.range (ranged.length - 1)).foldl innerLoop ranged

/-- `startAllProcesses`: the records in the order in which `go c.startProcess(process)` is
called for them. -/
def startAllProcesses (ranged : List Process) : List Process :=
  getProcessesByPriority ranged

/-- `Stop`: the records in the order in which they are passed to `stopProcess`, that of the
loop `for i := len(processes) - 1; i >= 0; i--` over the records as ranged over. -/
def Stop (ranged : List Process) : List Process :=
  (List.range ranged.length).reverse.filterMap (fun i => ranged[i]?)

/-- The inner loop on `processes[i]` and the records after it: the record that ends at index
`i` and the records after it. -/
def exchange (x : Process) : List Process → Process × List Process
  | [] => (x, [])
  | y :: rest =>
    if x.Priority > y.Priority then ((exchange y rest).1, x :: (exchange y rest).2)
    else ((exchange x rest).1, y :: (exchange x rest).2)

/-- An environment for examples: every variable unset, no noVNC launcher installed. -/
def exampleInitEnv : InitEnv :=
  { homeDir := "/home/deck", configDir := "/home/deck/.deck/computeruse", VNC_RESOLUTION := "",
    VNC_PORT := "", NO_VNC_PORT := "", DISPLAY := "", VNC_USER := "", DECK_SANDBOX_USER := "",
    hasLaunchSh := false, hasNovncProxy := false }

/-- The records of a list in the order in which a range over the map meets them, given as
positions in the list. -/
def rangedAs (records : List Process) (order : List Nat) : List Process :=
  order.filterMap (fun i => records[i]?)

/-! ### The runtime state of a record

`startProcess`, `stopProcess` and `RestartProcess` run on several goroutines and share the
runtime fields of a record.  A record's runtime state is followed one event at a time: a
goroutine entering `startProcess`, a step of a goroutine inside the restart loop, the exit of
an OS process, a call of `stopProcess` or of `RestartProcess`. -/

/-- Where a goroutine that runs `startProcess` stands: at the head of the `for` loop, about to
build the command and call `Start`; inside `process.cmd.Wait()` for the OS process `pid`;
after `Start` failed or `Wait` returned, before the test of `AutoRestart`; inside
`time.Sleep`; returned. -/
inductive LoopPC where
  | top
  | waiting (pid : Nat)
  | after
  | sleeping
  | done
deriving DecidableEq, Repr

/-- The runtime state of one record: the `AutoRestart` setting, the `running` flag,
`process.cmd` (`none` for nil, else `cmd.Process`, `none` for nil or the PID), the OS processes
started for the record that have not exited, how many OS processes were started for it so far
(the next one gets this number as its PID), the goroutines that passed the entry check of
`startProcess` (`done` for a number not used yet) and how many there are. -/
structure Record where
  AutoRestart : Bool
  running : Bool
  cmd : Option (Option Nat)
  alive : List Nat
  launched : Nat
  loops : Nat → LoopPC
  spawned : Nat

/-- A record as `initializeProcesses` makes it: not running, no command, no goroutine. -/
def newRecord (autoRestart : Bool) : Record :=
  { AutoRestart := autoRestart, running := false, cmd := none, alive := [], launched := 0,
    loops := fun _ => .done, spawned := 0 }

/-- One event in the life of a record. -/
inductive Event where
  | startProcess
  | launch (g : Nat) (ok : Bool)
  | childExit (pid : Nat)
  | waitReturns (g : Nat)
  | checkRestart (g : Nat)
  | wake (g : Nat)
  | stopProcess
  | restartProcess
deriving DecidableEq, Repr

/-- The entry of `startProcess`, under the record's lock: return when `running` is set, else
set it and go to the loop. -/
def startProcessEntry (r : Record) : Record :=
  if r.running then r
  else
    { r with
      running := true
      loops := Function.update r.loops r.spawned .top
      spawned := r.spawned + 1 }

/-- The head of the loop of `startProcess` in goroutine `g`: a new command is put in
`process.cmd` and started; `ok` tells whether `Start` succeeds.  The loop tests neither
`running` nor a context here. -/
def launchStep (r : Record) (g : Nat) (ok : Bool) : Record :=
  match r.loops g with
  | .top =>
    if ok then
      { r with
        cmd := some (some r.launched)
        alive := r.alive ++ [r.launched]
        launched := r.launched + 1
        loops := Function.update r.loops g (.waiting r.launched) }
    else
      { r with cmd := some none, loops := Function.update r.loops g .after }
  | _ => r

/-- `process.cmd.Wait()` returns in goroutine `g` once its OS process has exited. -/
def waitReturnsStep (r : Record) (g : Nat) : Record :=
  match r.loops g with
  | .waiting pid =>
    if pid ∈ r.alive then r else { r with loops := Function.update r.loops g .after }
  | _ => r

/-- The end of an iteration in goroutine `g`: `if !process.AutoRestart { break }`, after which
`running` is cleared and the goroutine returns; else the goroutine sleeps. -/
def checkRestartStep (r : Record) (g : Nat) : Record :=
  match r.loops g with
  | .after =>
    if !r.AutoRestart then
      { r with running := false, loops := Function.update r.loops g .done }
    else
      { r with loops := Function.update r.loops g .sleeping }
  | _ => r

/-- The end of `time.Sleep` in goroutine `g`: back to the head of the loop. -/
def wakeStep (r : Record) (g : Nat) : Record :=
  match r.loops g with
  | .sleeping => { r with loops := Function.update r.loops g .top }
  | _ => r

/-- `stopProcess`: nothing unless `running` is set and `process.cmd.Process` is there; else
the process group of that PID is killed, the context cancelled, and `running` cleared. -/
def stopProcess (r : Record) : Record :=
  if !r.running then r
  else
    match r.cmd with
    | some (some pid) => { r with alive := r.alive.erase pid, running := false }
    | _ => r

/-- The record after one event; `RestartProcess` is `stopProcess` followed, a second later, by
`go c.startProcess(process)`. -/
def Record.step (r : Record) : Event → Record
  | .startProcess => startProcessEntry r
  | .launch g ok => launchStep r g ok
  | .childExit pid => { r with alive := r.alive.erase pid }
  | .waitReturns g => waitReturnsStep r g
  | .checkRestart g => checkRestartStep r g
  | .wake g => wakeStep r g
  | .stopProcess => stopProcess r
  | .restartProcess => startProcessEntry (stopProcess r)

/-- The record after a sequence of events, first event first. -/
def Record.run (r : Record) (events : List Event) : Record :=
  events.foldl Record.step r

/-- An event of a run without `stopProcess` and `RestartProcess`. -/
def Event.noStop : Event → Bool
  | .stopProcess => false
  | .restartProcess => false
  | _ => true

/-- A restart loop of the record is active: some goroutine is inside `startProcess`, past the
entry check and not yet returned. -/
def Record.loopActive (r : Record) : Prop :=
  ∃ g, r.loops g ≠ .done

/-- What holds of a record as long as nobody calls `stopProcess`: goroutine numbers not used
yet are free, at most one goroutine is inside the loop, `running` tells whether one is, and
every live OS process is the one that goroutine waits for. -/
def Record.Inv (r : Record) : Prop :=
  (∀ g, r.spawned ≤ g → r.loops g = .done) ∧
  (∀ g g', r.loops g ≠ .done → r.loops g' ≠ .done → g = g') ∧
  (r.running = true ↔ r.loopActive) ∧
  (∀ pid ∈ r.alive, ∃ g, r.loops g = .waiting pid)

/-! ### The status of the desktop (`GetStatus`)

The status map `map[string]api.ProcessStatus` is given by its entries, one for each name. -/

/-- `api.ProcessStatus`. -/
structure ProcessStatus where
  Running : Bool
  Priority : Int
  AutoRestart : Bool
  Pid : Option Int
deriving DecidableEq, Repr

/-- The index expression `processStatus[processName]` with its `exists` result. -/
def statusOf (processStatus : List (String × ProcessStatus)) (processName : String) :
    Option ProcessStatus :=
  (processStatus.find? (fun entry => entry.1 = processName)).map Prod.snd

/-- The value of `requiredProcesses` in `GetStatus`. -/
def requiredProcesses : List String :=
  ["xvfb", "xfce4", "x11vnc", "novnc"]

/-- `GetStatus`, from what `GetProcessStatus` returned: the `Status` of the response and the
error. -/
def GetStatus (processStatus : List (String × ProcessStatus)) (err : Option String) :
    String × Option String :=
  match err with
  | some err => ("error", some err)
  | none =>
    let allRunning := requiredProcesses.all (fun processName =>
      match statusOf processStatus processName with
      | some status => status.Running
      | none => false)
    if allRunning then ("active", none)
    else
      let anyRunning := processStatus.any (fun entry => entry.2.Running)
      if anyRunning then ("partial", none) else ("inactive", none)

/-! ### The browser (`browser.go`)

The supervisor's map `c.processes` holds pointers to records: an entry of the map is the
configuration of a record together with its runtime state, and a call that changes a record
through its pointer changes the entry. -/

/-- The value of `ChromeProcessName`. -/
def ChromeProcessName : String := "google-chrome"

/-- `api.BrowserOpenRequest`. -/
structure BrowserOpenRequest where
  Url : String
  Incognito : Bool
  RemoteDebug : Bool
deriving DecidableEq, Repr

/-- The map `c.processes`. -/
abbrev Processes := String → Option (Process × Record)

/-- The map after `initializeProcesses`, every record in its initial runtime state. -/
def Processes.ofEntries (entries : List (String × Process)) : Processes :=
  fun name =>
    (entries.find? (fun entry => entry.1 = name)).map
      (fun entry => (entry.2, newRecord entry.2.AutoRestart))

/-- An event in the life of the record stored under `name`. -/
def Processes.stepAt (processes : Processes) (name : String) (event : Event) : Processes :=
  match processes name with
  | some (process, record) => Function.update processes name (some (process, record.step event))
  | none => processes

/-- The argument list `OpenBrowser` builds. -/
def browserArgs (req : BrowserOpenRequest) : List String :=
  ["--no-sandbox", "--test-type", "--disable-dev-shm-usage", "--disable-gpu", "--no-first-run",
    "--no-default-browser-check", "--disable-notifications", "--disable-infobars",
    "--disable-extensions", "--disable-popup-blocking", "--password-store=basic",
    "--disable-features=Translate", "--disable-hang-monitor", "--mute-audio",
    "--start-maximized", "--window-size=1280,720"] ++
    (if req.Incognito then ["--incognito"] else []) ++
    (if req.RemoteDebug then
      ["--remote-debugging-port=9222", "--remote-debugging-address=0.0.0.0"] else []) ++
    (if req.Url ≠ "" then [req.Url] else [])

/-- `OpenBrowser`, up to its return: a browser record that exists is stopped and deleted from
the map, then a new record is stored; `go c.startProcess(p)` starts its goroutine, whose steps
are later events of the record.  `vncUser` and `display` are the environment variables
`VNC_USER` and `DISPLAY`. -/
def OpenBrowser (processes : Processes) (configDir vncUser display : String)
    (req : BrowserOpenRequest) : Processes :=
  let processes :=
    match processes ChromeProcessName with
    | some _ => Function.update processes ChromeProcessName none
    | none => processes
  let user := orDefault vncUser "deck"
  let display := orDefault display ":0"
  Function.update processes ChromeProcessName
    (some
      ({ Name := ChromeProcessName, Command := "/usr/bin/google-chrome", Args := browserArgs req,
         User := user, Priority := 900, AutoRestart := false,
         Env := [("DISPLAY", display), ("HOME", joinPath "/home" user), ("USER", user)],
         LogFile := joinPath configDir "chrome.log", ErrFile := joinPath configDir "chrome.err" },
        newRecord false))

/-- `CloseBrowser`: nothing without a browser record; else `stopProcess` on the record. -/
def CloseBrowser (processes : Processes) : Processes :=
  match processes ChromeProcessName with
  | none => processes
  | some (process, record) =>
    Function.update processes ChromeProcessName (some (process, stopProcess record))

/-- A supervisor with its four initial records in which the browser was opened on a page and
has started: the goroutine of `startProcess` has launched OS process 0 and waits for it. -/
def exampleBrowserOpen : Processes :=
  ((OpenBrowser (Processes.ofEntries (initializeProcesses exampleInitEnv))
      exampleInitEnv.configDir "" "" ⟨"https://example.com", false, false⟩).stepAt
    ChromeProcessName Event.startProcess).stepAt ChromeProcessName (Event.launch 0 true)

/-! ## SSH front-end (`ssh/server.go`) -/

/-- Where the session handler sends a session: `s.sftpHandler`, `s.handlePty`,
`s.handleNonPty`, or `session.Exit(code)` without a handler. -/
inductive SessionRoute where
  | sftp
  | pty
  | nonPty
  | exit (code : Int)
deriving DecidableEq, Repr

/-- The `Handler` of the SSH server, as a function of `session.Subsystem()`, of the third
result of `session.Pty()` and of `session.RawCommand()`. -/
def Handler (subsystem : String) (isPty : Bool) (rawCommand : String) : SessionRoute :=
  if subsystem = "" then
    if rawCommand = "" ∧ isPty then .pty else .nonPty
  else if subsystem = "sftp" then .sftp
  else .exit 1

/-! ### The non-PTY exec path (`handleNonPty`) -/

/-- The error of `cmd.Wait()` as `handleNonPty` looks at it: its text, and for an
`*exec.ExitError` the value of `ExitCode()`. -/
structure SessionWaitError where
  text : String
  exitCode : Option Int
deriving DecidableEq, Repr

/-- What one run of `handleNonPty` gets from outside: the errors of `cmd.StdinPipe()`,
`cmd.Start()` and `cmd.Wait()`. -/
structure NonPtyEnv where
  stdinPipeErr : Option String
  startErr : Option String
  waitErr : Option SessionWaitError

/-- `handleNonPty`: the code passed to `session.Exit`, `none` when it returns without calling
`session.Exit`. -/
def handleNonPty (env : NonPtyEnv) : Option Int :=
  match env.stdinPipeErr with
  | some _ => none
  | none =>
    match env.startErr with
    | some _ => some 1
    | none =>
      let err : Option SessionWaitError :=
        match env.waitErr with
        | some err =>
          if containsStr err.text "already finished" ||
              containsStr err.text "Wait was already called" ||
              containsStr err.text "no child processes" then none
          else some err
        | none => none
      match err with
      | some err =>
        match err.exitCode with
        | some exitCode => some exitCode
        | none => some 1
      | none => some 0

/-- The text of a `Wait` error mentions "already finished", "Wait was already called" or "no
child processes": the reaper got to the child first. -/
def mentionsReaped (text : String) : Prop :=
  containsStr text "already finished" = true ∨
    containsStr text "Wait was already called" = true ∨
    containsStr text "no child processes" = true

/-- The decimal digits of a number, most significant first (Go `itoa.Itoa` on a number that is
not negative); `fuel` bounds the number of digits. -/
def itoaDigits : Nat → Nat → List Char
  | 0, _ => []
  | fuel + 1, n =>
    if n < 10 then [Nat.digitChar n] else itoaDigits fuel (n / 10) ++ [Nat.digitChar (n % 10)]

/-- The text of an `*exec.ExitError` for a child that exited with `code`
(`ProcessState.String()`): "exit status " and the code in decimal. -/
def exitStatusText (code : Nat) : String :=
  String.mk ("exit status ".data ++ itoaDigits (code + 1) code)

/-- The `Wait` error of a child that exited with a code other than 0. -/
def exitedWith (code : Nat) : SessionWaitError :=
  { text := exitStatusText code, exitCode := some (code : Int) }

/-! ## Token check (`terminal/server.go`, `middlewares/auth.go`)

`expectedToken` is the value of the environment variable `DECK_DAEMON_TOKEN` (empty when
unset) and `token` the value of the request header `X-Deck-Token` (empty when absent). -/

/-- The value of `common_consts.EnvDeckDaemonToken`. -/
def EnvDeckDaemonToken : String := "DECK_DAEMON_TOKEN"

/-- The value of `common_consts.DaemonAuthHeader`. -/
def DaemonAuthHeader : String := "X-Deck-Token"

/-- What the handler returned by `AuthMiddleware` does with a request: `c.Next()`, or
`c.AbortWithStatusJSON(status, gin.H{"error": message})`. -/
inductive AuthResult where
  | next
  | abort (status : Nat) (message : String)
deriving DecidableEq, Repr

/-- `http.StatusUnauthorized`. -/
def StatusUnauthorized : Nat := 401

/-- The handler returned by `AuthMiddleware`. -/
def AuthMiddleware (expectedToken clientToken : String) : AuthResult :=
  if expectedToken = "" then .next
  else if clientToken = "" then .abort StatusUnauthorized "Missing authorization token"
  else if clientToken ≠ expectedToken then
    .abort StatusUnauthorized "Invalid authorization token"
  else .next

/-- What `handleWebSocket` does with a request, in order: `http.Error(w, message, status)`,
`upgrader.Upgrade` (and whether it succeeded), the start of the two relay goroutines, and
`common.SpawnTTY`. -/
inductive WSAction where
  | httpError (status : Nat) (message : String)
  | upgrade (ok : Bool)
  | startLoops
  | spawnTTY
deriving DecidableEq, Repr

/-- `handleWebSocket` as far as the start of the shell; `upgradeOk` tells whether
`upgrader.Upgrade` succeeds. -/
def handleWebSocket (expectedToken token : String) (upgradeOk : Bool) : List WSAction :=
  if expectedToken ≠ "" ∧ token ≠ expectedToken then [.httpError StatusUnauthorized "Unauthorized"]
  else if !upgradeOk then [.upgrade false]
  else [.upgrade true, .startLoops, .spawnTTY]

/-! ## Mouse (`mouse.go`)

The amount of a scroll request is a Go `int`; its arithmetic wraps (`wrapInt`). -/

/-- `api.MouseScrollRequest` (the embedded `Position` gives `X` and `Y`). -/
structure MouseScrollRequest where
  X : Int
  Y : Int
  Direction : String
  Amount : Int
deriving DecidableEq, Repr

/-- The errors of `normalizeScrollDelta`: "scroll request is required", "scroll direction is
required", and "invalid scroll direction ..., expected 'up' or 'down'" with the direction of
the request. -/
inductive ScrollError where
  | requestRequired
  | directionRequired
  | invalidDirection (direction : String)
deriving DecidableEq, Repr

/-- Go `strings.ToLower`: every rune is replaced by `unicode.ToLower` of it, which on ASCII
adds 32 to the letters `A` to `Z`; `lower` is `unicode.ToLower` on the other runes. -/
def ToLower (lower : Char → Char) (s : List Char) : List Char :=
  s.map (fun c => if c.toNat < 128 then c.toLower else lower c)

/-- `normalizeScrollDelta`; `none` is the nil request. -/
def normalizeScrollDelta (lower : Char → Char) (req : Option MouseScrollRequest) :
    Int × Option ScrollError :=
  match req with
  | none => (0, some .requestRequired)
  | some req =>
    let direction := String.mk (ToLower lower (TrimSpace req.Direction.data))
    if direction = "" then (0, some .directionRequired)
    else
      let amount := req.Amount
      let amount := if amount = 0 then 3 else amount
      let amount := if amount < 0 then wrapInt (-amount) else amount
      if direction = "up" then (amount, none)
      else if direction = "down" then (wrapInt (-amount), none)
      else (0, some (.invalidDirection req.Direction))

/-! ## Zombie reaper (`cmd/daemon/main.go`)

The goroutine of `StartZombieReaper` is followed through its calls of `syscall.Wait4`: what
the kernel answers to the call number `i` is `wait4 i`, and `clock i` is the clock reading of
the `CacheExitStatus` that follows it.  Every call is made with `WNOHANG`: it does not block,
and a call that does not block is not interrupted, so the kernel does not answer it with
EINTR (`waitpid(2)`: EINTR only when `WNOHANG` was not set). -/

/-- The value of `syscall.EINTR`. -/
def EINTR : Nat := 4

/-- The value of `syscall.ECHILD`. -/
def ECHILD : Nat := 10

/-- What `syscall.Wait4(-1, &wstatus, syscall.WNOHANG, nil)` returns: an error (an errno), or
a PID with the wait status. -/
inductive Wait4Result where
  | failed (errno : Nat)
  | returned (pid : Int) (wstatus : WaitStatus)
deriving DecidableEq, Repr

/-- The reaper between two calls of `Wait4`: the registry, the number of calls of `Wait4` made
so far, and the errno of every warning "Wait4 error while reaping processes" logged. -/
structure ReaperState where
  registry : ProcessRegistry
  calls : Nat
  warnings : List Nat

/-- The inner loop `for { ... }` of the reaper, run for one SIGCHLD; `none` when the fuel does
not suffice. -/
def reapLoop (wait4 : Nat → Wait4Result) (clock : Nat → Time) :
    Nat → ReaperState → Option ReaperState
  | 0, _ => none
  | fuel + 1, s =>
    match wait4 s.calls with
    | .failed errno =>
      if errno = ECHILD then some { s with calls := s.calls + 1 }
      else some { s with calls := s.calls + 1, warnings := s.warnings ++ [errno] }
    | .returned pid wstatus =>
      if pid ≤ 0 then some { s with calls := s.calls + 1 }
      else
        reapLoop wait4 clock fuel
          { s with
            registry := s.registry.CacheExitStatus pid wstatus (clock s.calls)
            calls := s.calls + 1 }

/-- The outer loop `for range sigCh` of the reaper over the next `signals` signals, the inner
loop run with `fuel` for each. -/
def StartZombieReaper (wait4 : Nat → Wait4Result) (clock : Nat → Time) (fuel : Nat) :
    Nat → ReaperState → Option ReaperState
  | 0, s => some s
  | signals + 1, s =>
    match reapLoop wait4 clock fuel s with
    | some s1 => StartZombieReaper wait4 clock fuel signals s1
    | none => none

/-- The reaper at its start: the empty registry, no call made. -/
def newReaper : ReaperState :=
  { registry := registry, calls := 0, warnings := [] }

/-- The inner loop as the specification words it: a `Wait4` that fails with EINTR is made
again for the same SIGCHLD; any other error, ECHILD among them, and a returned PID that is
not positive end the loop; a reaped child is cached. -/
def reapLoopSpec (wait4 : Nat → Wait4Result) (clock : Nat → Time) :
    Nat → ReaperState → Option ReaperState
  | 0, _ => none
  | fuel + 1, s =>
    match wait4 s.calls with
    | .failed errno =>
      if errno = EINTR then reapLoopSpec wait4 clock fuel { s with calls := s.calls + 1 }
      else if errno = ECHILD then some { s with calls := s.calls + 1 }
      else some { s with calls := s.calls + 1, warnings := s.warnings ++ [errno] }
    | .returned pid wstatus =>
      if pid ≤ 0 then some { s with calls := s.calls + 1 }
      else
        reapLoopSpec wait4 clock fuel
          { s with
            registry := s.registry.CacheExitStatus pid wstatus (clock s.calls)
            calls := s.calls + 1 }

/-- A kernel that honours `WNOHANG`: no call of `Wait4` is answered with EINTR. -/
def honoursWNOHANG (wait4 : Nat → Wait4Result) : Prop :=
  ∀ i, wait4 i ≠ .failed EINTR

/-- A kernel with two children: the first `Wait4` reaps PID 7 (status 1792, exit code 7), the
second finds the other child still running (PID 0), the third reaps it as PID 9 (status 0),
and every later one fails with ECHILD. -/
def twoChildren (i : Nat) : Wait4Result :=
  if i = 0 then .returned 7 1792 else if i = 1 then .returned 0 0
  else if i = 2 then .returned 9 0 else .failed ECHILD

/-- `DecodesTo z c o`: when `c` followed by `z` is decoded rune by rune, a decoding step ends
exactly at the end of `c`, and `o` is the text decoded up to there. -/
inductive DecodesTo (z : List Byte) : List Byte → List Byte → Prop where
  | nil : DecodesTo z [] []
  | step (pre c o : List Byte) (r : Nat) : pre ≠ [] →
      DecodeRune (pre ++ (c ++ z)) = (r, pre.length) → DecodesTo z c o →
      DecodesTo z (pre ++ c) (EncodeRune r ++ o)

/-! ## WebSocket input loop (`terminal/server.go`)

The input loop hands every text frame to `json.Unmarshal(p, &size)` with `size` a
`windowSize`.  `Unmarshal` is given here as Go's `encoding/json` has it: first the scanner
checks the whole input (`checkValid`), then the value is decoded into the struct. -/

namespace json

/-- The codes a scanner step returns (`scanContinue` ... `scanError`). -/
inductive ScanOp where
  | scanContinue
  | scanBeginLiteral
  | scanBeginObject
  | scanObjectKey
  | scanObjectValue
  | scanEndObject
  | scanBeginArray
  | scanArrayValue
  | scanEndArray
  | scanSkipSpace
  | scanEnd
  | scanError
deriving DecidableEq, Repr

/-- The entries of the scanner's parse stack (`parseObjectKey`, `parseObjectValue`,
`parseArrayValue`). -/
inductive ParseMode where
  | parseObjectKey
  | parseObjectValue
  | parseArrayValue
deriving DecidableEq, Repr

/-- The step functions of the scanner: the value of the field `step`. -/
inductive StepFn where
  | stateBeginValueOrEmpty
  | stateBeginValue
  | stateBeginStringOrEmpty
  | stateBeginString
  | stateEndValue
  | stateEndTop
  | stateInString
  | stateInStringEsc
  | stateInStringEscU
  | stateInStringEscU1
  | stateInStringEscU12
  | stateInStringEscU123
  | stateNeg
  | state1
  | state0
  | stateDot
  | stateDot0
  | stateE
  | stateESign
  | stateE0
  | stateT
  | stateTr
  | stateTru
  | stateF
  | stateFa
  | stateFal
  | stateFals
  | stateN
  | stateNu
  | stateNul
  | stateError
deriving DecidableEq, Repr

/-- The scanner (`type scanner struct`): the next step function, whether the top-level value
has ended, the parse stack (its top is the head of the list), and whether an error was met. -/
structure scanner where
  step : StepFn
  endTop : Bool
  parseState : List ParseMode
  err : Bool
deriving DecidableEq, Repr

/-- The value of `maxNestingDepth`. -/
def maxNestingDepth : Nat := 10000

/-- `scanner.reset`. -/
def reset : scanner :=
  { step := .stateBeginValue, endTop := false, parseState := [], err := false }

/-- `scanner.error`: the error is recorded and every later step returns `scanError`. -/
def error (s : scanner) : scanner × ScanOp :=
  ({ s with step := .stateError, err := true }, .scanError)

/-- `isSpace`: space, tab, carriage return, newline. -/
def isSpace (c : Byte) : Bool :=
  c.val = 32 || c.val = 9 || c.val = 13 || c.val = 10

/-- A decimal digit. -/
def isDigit (c : Byte) : Bool :=
  48 ≤ c.val && c.val ≤ 57

/-- A hexadecimal digit, as the `\u` escape states test it. -/
def isHex (c : Byte) : Bool :=
  (48 ≤ c.val && c.val ≤ 57) || (97 ≤ c.val && c.val ≤ 102) || (65 ≤ c.val && c.val ≤ 70)

/-- `scanner.pushParseState`. -/
def pushParseState (s : scanner) (newParseState : ParseMode) (successState : ScanOp) :
    scanner × ScanOp :=
  let s := { s with parseState := newParseState :: s.parseState }
  if s.parseState.length ≤ maxNestingDepth then (s, successState) else error s

/-- `scanner.popParseState`. -/
def popParseState (s : scanner) : scanner :=
  let rest := s.parseState.drop 1
  if rest.length = 0 then { s with parseState := rest, step := .stateEndTop, endTop := true }
  else { s with parseState := rest, step := .stateEndValue }

/-- `stateEndTop`: after the top-level value only white space may follow. -/
def stateEndTop (s : scanner) (c : Byte) : scanner × ScanOp :=
  if !isSpace c then ((error s).1, .scanEnd) else (s, .scanEnd)

/-- `stateEndValue`: after a value, such as after reading the closing quote of a string. -/
def stateEndValue (s : scanner) (c : Byte) : scanner × ScanOp :=
  match s.parseState with
  | [] => stateEndTop { s with step := .stateEndTop, endTop := true } c
  | ps :: rest =>
    if isSpace c then ({ s with step := .stateEndValue }, .scanSkipSpace)
    else
      match ps with
      | .parseObjectKey =>
        if c.val = 58 then
          ({ s with parseState := .parseObjectValue :: rest, step := .stateBeginValue },
            .scanObjectKey)
        else error s
      | .parseObjectValue =>
        if c.val = 44 then
          ({ s with parseState := .parseObjectKey :: rest, step := .stateBeginString },
            .scanObjectValue)
        else if c.val = 125 then (popParseState s, .scanEndObject)
        else error s
      | .parseArrayValue =>
        if c.val = 44 then ({ s with step := .stateBeginValue }, .scanArrayValue)
        else if c.val = 93 then (popParseState s, .scanEndArray)
        else error s

/-- `stateBeginValue`: at the beginning of the input or of a value. -/
def stateBeginValue (s : scanner) (c : Byte) : scanner × ScanOp :=
  if isSpace c then (s, .scanSkipSpace)
  else if c.val = 123 then
    pushParseState { s with step := .stateBeginStringOrEmpty } .parseObjectKey .scanBeginObject
  else if c.val = 91 then
    pushParseState { s with step := .stateBeginValueOrEmpty } .parseArrayValue .scanBeginArray
  else if c.val = 34 then ({ s with step := .stateInString }, .scanBeginLiteral)
  else if c.val = 45 then ({ s with step := .stateNeg }, .scanBeginLiteral)
  else if c.val = 48 then ({ s with step := .state0 }, .scanBeginLiteral)
  else if c.val = 116 then ({ s with step := .stateT }, .scanBeginLiteral)
  else if c.val = 102 then ({ s with step := .stateF }, .scanBeginLiteral)
  else if c.val = 110 then ({ s with step := .stateN }, .scanBeginLiteral)
  else if 49 ≤ c.val ∧ c.val ≤ 57 then ({ s with step := .state1 }, .scanBeginLiteral)
  else error s

/-- `stateBeginString`: after a comma in an object, before the next key. -/
def stateBeginString (s : scanner) (c : Byte) : scanner × ScanOp :=
  if isSpace c then (s, .scanSkipSpace)
  else if c.val = 34 then ({ s with step := .stateInString }, .scanBeginLiteral)
  else error s

/-- `state0`: after the digit 0, or after the digits of an integer. -/
def state0 (s : scanner) (c : Byte) : scanner × ScanOp :=
  if c.val = 46 then ({ s with step := .stateDot }, .scanContinue)
  else if c.val = 101 ∨ c.val = 69 then ({ s with step := .stateE }, .scanContinue)
  else stateEndValue s c

/-- `stateESign`: after the sign of an exponent. -/
def stateESign (s : scanner) (c : Byte) : scanner × ScanOp :=
  if isDigit c then ({ s with step := .stateE0 }, .scanContinue) else error s

/-- One step of a scanner state that reads a fixed letter of `true`, `false` or `null`. -/
def expectLetter (s : scanner) (c : Byte) (letter : Nat) (next : StepFn) : scanner × ScanOp :=
  if c.val = letter then ({ s with step := next }, .scanContinue) else error s

/-- One step of a scanner state that reads a hexadecimal digit of a `\u` escape. -/
def expectHex (s : scanner) (c : Byte) (next : StepFn) : scanner × ScanOp :=
  if isHex c then ({ s with step := next }, .scanContinue) else error s

/-- The call `s.step(s, c)`: the scanner after the byte and the code returned. -/
def scanner.next (s : scanner) (c : Byte) : scanner × ScanOp :=
  match s.step with
  | .stateBeginValueOrEmpty =>
    if isSpace c then (s, .scanSkipSpace)
    else if c.val = 93 then stateEndValue s c
    else stateBeginValue s c
  | .stateBeginValue => stateBeginValue s c
  | .stateBeginStringOrEmpty =>
    if isSpace c then (s, .scanSkipSpace)
    else if c.val = 125 then
      stateEndValue { s with parseState := .parseObjectValue :: s.parseState.drop 1 } c
    else stateBeginString s c
  | .stateBeginString => stateBeginString s c
  | .stateEndValue => stateEndValue s c
  | .stateEndTop => stateEndTop s c
  | .stateInString =>
    if c.val = 34 then ({ s with step := .stateEndValue }, .scanContinue)
    else if c.val = 92 then ({ s with step := .stateInStringEsc }, .scanContinue)
    else if c.val < 32 then error s
    else (s, .scanContinue)
  | .stateInStringEsc =>
    if c.val = 98 ∨ c.val = 102 ∨ c.val = 110 ∨ c.val = 114 ∨ c.val = 116 ∨ c.val = 92 ∨
        c.val = 47 ∨ c.val = 34 then ({ s with step := .stateInString }, .scanContinue)
    else if c.val = 117 then ({ s with step := .stateInStringEscU }, .scanContinue)
    else error s
  | .stateInStringEscU => expectHex s c .stateInStringEscU1
  | .stateInStringEscU1 => expectHex s c .stateInStringEscU12
  | .stateInStringEscU12 => expectHex s c .stateInStringEscU123
  | .stateInStringEscU123 => expectHex s c .stateInString
  | .stateNeg =>
    if c.val = 48 then ({ s with step := .state0 }, .scanContinue)
    else if 49 ≤ c.val ∧ c.val ≤ 57 then ({ s with step := .state1 }, .scanContinue)
    else error s
  | .state1 => if isDigit c then ({ s with step := .state1 }, .scanContinue) else state0 s c
  | .state0 => state0 s c
  | .stateDot => if isDigit c then ({ s with step := .stateDot0 }, .scanContinue) else error s
  | .stateDot0 =>
    if isDigit c then (s, .scanContinue)
    else if c.val = 101 ∨ c.val = 69 then ({ s with step := .stateE }, .scanContinue)
    else stateEndValue s c
  | .stateE =>
    if c.val = 43 ∨ c.val = 45 then ({ s with step := .stateESign }, .scanContinue)
    else stateESign s c
  | .stateESign => stateESign s c
  | .stateE0 => if isDigit c then (s, .scanContinue) else stateEndValue s c
  | .stateT => expectLetter s c 114 .stateTr
  | .stateTr => expectLetter s c 117 .stateTru
  | .stateTru => expectLetter s c 101 .stateEndValue
  | .stateF => expectLetter s c 97 .stateFa
  | .stateFa => expectLetter s c 108 .stateFal
  | .stateFal => expectLetter s c 115 .stateFals
  | .stateFals => expectLetter s c 101 .stateEndValue
  | .stateN => expectLetter s c 117 .stateNu
  | .stateNu => expectLetter s c 108 .stateNul
  | .stateNul => expectLetter s c 108 .stateEndValue
  | .stateError => (s, .scanError)

/-- `scanner.eof`: whether the input may end here (`scanEnd`) or not (`scanError`). -/
def eof (s : scanner) : ScanOp :=
  if s.err then .scanError
  else if s.endTop then .scanEnd
  else if ((s.next 32).1).endTop then .scanEnd
  else .scanError

/-- The loop of `checkValid`: `none` as soon as a step returns `scanError`. -/
def checkValidLoop (s : scanner) : List Byte → Option scanner
  | [] => some s
  | c :: data =>
    match s.next c with
    | (_, .scanError) => none
    | (s1, _) => checkValidLoop s1 data

/-- `checkValid`: whether the input is one JSON value (the returned error is nil). -/
def checkValid (data : List Byte) : Bool :=
  match checkValidLoop reset data with
  | none => false
  | some s => decide (eof s ≠ .scanError)

/-- A byte of the input as the decoder meets it: the byte, the code the scanner returns for
it, and the depth of the parse stack after it. -/
structure Tok where
  c : Byte
  op : ScanOp
  depth : Nat
deriving DecidableEq, Repr

/-- The bytes of the input with the codes of a scanner that starts in state `s`. -/
def scanAll (s : scanner) : List Byte → List Tok
  | [] => []
  | c :: data => ⟨c, (s.next c).2, (s.next c).1.parseState.length⟩ :: scanAll (s.next c).1 data

end json

/-- The target of the decoding (`type windowSize struct`): two `uint16` fields, with the JSON
names "rows" and "cols". -/
structure windowSize where
  Rows : Nat
  Cols : Nat
deriving DecidableEq, Repr

namespace json

/-- The fields of `windowSize`. -/
inductive Field where
  | Rows
  | Cols
deriving DecidableEq, Repr

/-- The four hexadecimal digits of a `\u` escape as a number (`getu4`, after the scanner has
checked the digits). -/
def hexValue (c : Byte) : Nat :=
  if c.val ≤ 57 then c.val - 48 else if c.val ≤ 70 then c.val - 55 else c.val - 87

/-- The runes of a quoted string (`unquoteBytes` followed by the reading of the result as
UTF-8): `s` is what stands between the quotes.  An escape gives its character, a `\u` escape
its code point, a surrogate pair of two `\u` escapes one code point and a lone surrogate
U+FFFD; another byte below 0x80 is itself, and the other bytes are decoded as UTF-8. -/
def unquoteLoop : Nat → List Byte → List Nat
  | 0, _ => []
  | _ + 1, [] => []
  | fuel + 1, c :: rest =>
    if c.val = 92 then
      match rest with
      | [] => []
      | e :: rest1 =>
        if e.val = 117 then
          let rr := (rest1.take 4).foldl (fun n h => n * 16 + hexValue h) 0
          let rest2 := rest1.drop 4
          if 0xD800 ≤ rr ∧ rr < 0xE000 then
            let rr1 :=
              if (rest2.take 2).map Fin.val = [92, 117] ∧ 6 ≤ rest2.length then
                some (((rest2.drop 2).take 4).foldl (fun n h => n * 16 + hexValue h) 0)
              else none
            match rr1 with
            | some low =>
              if rr < 0xDC00 ∧ 0xDC00 ≤ low ∧ low < 0xE000 then
                ((rr - 0xD800) * 1024 + (low - 0xDC00) + 0x10000)
                  :: unquoteLoop fuel (rest2.drop 6)
              else RuneError :: unquoteLoop fuel rest2
            | none => RuneError :: unquoteLoop fuel rest2
          else rr :: unquoteLoop fuel rest2
        else
          let r :=
            if e.val = 98 then 8 else if e.val = 102 then 12 else if e.val = 110 then 10
            else if e.val = 114 then 13 else if e.val = 116 then 9 else e.val
          r :: unquoteLoop fuel rest1
    else if c.val < RuneSelf then c.val :: unquoteLoop fuel rest
    else (DecodeRune (c :: rest)).1 :: unquoteLoop fuel ((c :: rest).drop (DecodeRune (c :: rest)).2)

/-- The runes of the key whose literal, quotes included, is `item`. -/
def unquote (item : List Byte) : List Nat :=
  unquoteLoop item.length ((item.drop 1).take (item.length - 2))

/-- `foldRune`: the smallest rune of the same simple case folding.  The lower case ASCII
letters fold to upper case, U+017F to `S` and U+212A to `K`; no other rune folds to an ASCII
letter, and the other runes are left as they are here. -/
def foldRune (r : Nat) : Nat :=
  if 97 ≤ r ∧ r ≤ 122 then r - 32 else if r = 0x17F then 83 else if r = 0x212A then 75 else r

/-- The field a key names: the field whose folded name ("ROWS", "COLS") is the folded key
(`fields.byExactName`, then `fields.byFoldedName`). -/
def findField (key : List Nat) : Option Field :=
  if key.map foldRune = [82, 79, 87, 83] then some .Rows
  else if key.map foldRune = [67, 79, 76, 83] then some .Cols
  else none

/-- `strconv.ParseUint(s, 10, 64)` on a literal: its value when it is made of decimal digits
only and the value is below 2^64. -/
def ParseUint (item : List Byte) : Option Nat :=
  if item = [] then none
  else if item.all isDigit then
    let n := item.foldl (fun n c => n * 10 + (c.val - 48)) 0
    if n < 18446744073709551616 then some n else none
  else none

/-- Where the decoder stands in `d.unmarshal`, `d.value` and `d.object` for a `windowSize`:
before the top-level value; after the start of a top-level literal; in `d.skip()` over a
top-level array; in `d.object` before a key, inside a key, before the colon, before the
value, inside a literal value, in `d.skip()` over an array or object value, after a value;
after the closing brace. -/
inductive Mode where
  | top
  | topLiteral
  | skipTop
  | key
  | inKey (item : List Byte)
  | colon (field : Option Field)
  | value (field : Option Field)
  | inLiteral (field : Option Field) (item : List Byte)
  | skip
  | next
  | done
deriving DecidableEq, Repr

/-- The decoder (`type decodeState struct`) as far as a `windowSize` needs it: where it
stands, the struct being filled, and whether `d.savedError` is set. -/
structure decodeState where
  mode : Mode
  size : windowSize
  savedError : Bool
deriving DecidableEq, Repr

/-- `d.saveError`. -/
def saveError (d : decodeState) : decodeState :=
  { d with savedError := true }

/-- `d.literalStore` into a `uint16` field: `null` changes nothing; `true`, `false` and a
string are type errors; a number is stored when `ParseUint` accepts it and it fits sixteen
bits, and is a type error otherwise.  Without a field the literal is only read. -/
def literalStore (d : decodeState) (field : Option Field) (item : List Byte) : decodeState :=
  match field, item with
  | none, _ => d
  | some _, [] => saveError d
  | some field, c :: _ =>
    if c.val = 110 then d
    else if c.val = 116 ∨ c.val = 102 ∨ c.val = 34 then saveError d
    else
      match ParseUint item with
      | some n =>
        if n < 65536 then
          match field with
          | .Rows => { d with size := { d.size with Rows := n } }
          | .Cols => { d with size := { d.size with Cols := n } }
        else saveError d
      | none => saveError d

/-- After a key: white space, then the colon. -/
def colonStep (d : decodeState) (field : Option Field) (t : Tok) : decodeState :=
  if t.op = .scanObjectKey then { d with mode := .value field }
  else { d with mode := .colon field }

/-- After a value: white space, then a comma or the closing brace. -/
def nextStep (d : decodeState) (t : Tok) : decodeState :=
  if t.op = .scanEndObject then { d with mode := .done }
  else if t.op = .scanObjectValue then { d with mode := .key }
  else { d with mode := .next }

/-- The decoder after one more byte of the input. -/
def decodeStep (d : decodeState) (t : Tok) : decodeState :=
  match d.mode with
  | .top =>
    if t.op = .scanBeginObject then { d with mode := .key }
    else if t.op = .scanBeginArray then { saveError d with mode := .skipTop }
    else if t.op = .scanBeginLiteral then
      if t.c.val = 110 then { d with mode := .topLiteral }
      else { saveError d with mode := .topLiteral }
    else d
  | .topLiteral => d
  | .skipTop => if t.depth = 0 then { d with mode := .done } else d
  | .key =>
    if t.op = .scanEndObject then { d with mode := .done }
    else if t.op = .scanBeginLiteral then { d with mode := .inKey [t.c] }
    else d
  | .inKey item =>
    if t.op = .scanContinue then { d with mode := .inKey (item ++ [t.c]) }
    else colonStep d (findField (unquote item)) t
  | .colon field => colonStep d field t
  | .value field =>
    if t.op = .scanBeginLiteral then { d with mode := .inLiteral field [t.c] }
    else if t.op = .scanBeginArray ∨ t.op = .scanBeginObject then
      if field.isSome then { saveError d with mode := .skip } else { d with mode := .skip }
    else d
  | .inLiteral field item =>
    if t.op = .scanContinue then { d with mode := .inLiteral field (item ++ [t.c]) }
    else nextStep (literalStore d field item) t
  | .skip => if t.depth ≤ 1 then { d with mode := .next } else d
  | .next => nextStep d t
  | .done => d

/-- `json.Unmarshal(data, &size)` for a `windowSize`: `none` for an error, else the struct
after the call. -/
def Unmarshal (data : List Byte) (size : windowSize) : Option windowSize :=
  if !checkValid data then none
  else
    let d := (scanAll reset data).foldl decodeStep ⟨.top, size, false⟩
    if d.savedError then none else some d.size

end json

/-- The bytes of a text made of ASCII characters. -/
def ascii (s : String) : List Byte :=
  s.data.map (fun c => toByte c.toNat)

/-- The value of `websocket.TextMessage`. -/
def TextMessage : Nat := 1

/-- The value of `websocket.BinaryMessage`. -/
def BinaryMessage : Nat := 2

/-- Go `common.TTYSize`. -/
structure TTYSize where
  Height : Int
  Width : Int
deriving DecidableEq, Repr

/-- What the input loop does with a frame: it offers a size to `sizeCh` (which takes it when
its slot is free) and goes on with the next frame, or it writes bytes to the stdin pipe. -/
inductive FrameAction where
  | resize (size : TTYSize)
  | stdin (p : List Byte)
deriving DecidableEq, Repr

/-- The body of the input loop of `handleWebSocket` for the frame `(messageType, p)` that
`conn.ReadMessage()` returned. -/
def inputFrame (messageType : Nat) (p : List Byte) : FrameAction :=
  if messageType = TextMessage then
    match json.Unmarshal p ⟨0, 0⟩ with
    | some size => .resize ⟨(size.Rows : Int), (size.Cols : Int)⟩
    | none => .stdin p
  else .stdin p

/-- A JSON number that is a natural number in decimal: digits only, and no zero in front of
another digit. -/
def isUintLiteral (item : List Byte) : Bool :=
  match item with
  | [] => false
  | c :: rest => json.isDigit c && rest.all json.isDigit && (decide (c.val ≠ 48) || rest.isEmpty)

/-- The number a sequence of decimal digits denotes. -/
def literalValue (item : List Byte) : Nat :=
  item.foldl (fun n c => n * 10 + (c.val - 48)) 0

/-- The resize message for the number literals `rows` and `cols`: the JSON object with the
members "rows" and "cols". -/
def resizeMessage (rows cols : List Byte) : List Byte :=
  ascii "\x7b\"rows\":" ++ rows ++ ascii ",\"cols\":" ++ cols ++ ascii "\x7d"

namespace json

/-- The scanner after the bytes `data`, no step having returned an error. -/
def advance (s : scanner) (data : List Byte) : scanner :=
  data.foldl (fun s c => (s.next c).1) s

/-- The scanner before the value of a member of the top-level object. -/
def beforeValue : scanner :=
  ⟨.stateBeginValue, false, [.parseObjectValue], false⟩

/-- The scanner inside a number that is the value of a member of the top-level object: after
the single digit 0 (`zero`), or after a first digit other than 0 and more digits. -/
def inNumber (zero : Bool) : scanner :=
  ⟨if zero then .state0 else .state1, false, [.parseObjectValue], false⟩

/-- The bytes of a number that is the value of a member of the top-level object, with the
codes of the scanner. -/
def numberToks (item : List Byte) : List Tok :=
  match item with
  | [] => []
  | c :: rest => ⟨c, .scanBeginLiteral, 1⟩ :: rest.map (fun c => ⟨c, .scanContinue, 1⟩)

end json

/-- A run of `ExecuteCommand` for PID 7 in which `Wait` reports "wait: no child processes",
nothing is cached, the status 1792 arrives on the channel, and
`DECK_EXECUTE_ECHILD_WAIT_MS` is set to `waitMs`, which `strconv.Atoi` reads as `parsed`. -/
def arrivalEnv (waitMs : String) (parsed : Int) : ExecuteEnv :=
  { startErr := none, pid := 7, timeoutReached := false,
    waitErr := some (WaitError.other false "wait: no child processes"),
    processState := none, stdout := "out", stderr := "err", reaped := [], between := [],
    lookupTime := Second, waitTime := Second, waitMsValue := waitMs,
    atoi := fun _ => some parsed, arrival := some ⟨1792, Second⟩ }

/-! ## Size objects

The scanner and the decoder are run side by side (`feedAll`), byte by byte, and the class of
the size objects is described: the JSON objects whose members are named "rows" or "cols" and
hold `null` or an unsigned decimal integer, with any white space between the tokens. -/

namespace json

/-- The scanner and the decoder together over one byte of the input: `none` when the scanner
returns `scanError`. -/
def feed (st : scanner × decodeState) (c : Byte) : Option (scanner × decodeState) :=
  match st.1.next c with
  | (_, .scanError) => none
  | (s1, op) => some (s1, decodeStep st.2 ⟨c, op, s1.parseState.length⟩)

/-- The scanner and the decoder together over the bytes `data`. -/
def feedAll (st : scanner × decodeState) : List Byte → Option (scanner × decodeState)
  | [] => some st
  | c :: data =>
    match feed st c with
    | none => none
    | some st1 => feedAll st1 data

/-- The scanner before the first key of the top-level object, after the opening brace. -/
def beforeFirstKey : scanner :=
  ⟨.stateBeginStringOrEmpty, false, [.parseObjectKey], false⟩

/-- The scanner before a later key of the top-level object, after a comma. -/
def beforeKey : scanner :=
  ⟨.stateBeginString, false, [.parseObjectKey], false⟩

/-- The scanner after a key of the top-level object. -/
def afterKey : scanner :=
  ⟨.stateEndValue, false, [.parseObjectKey], false⟩

/-- The scanner after a value of the top-level object: after `null`, or after a number and
white space. -/
def afterValue : scanner :=
  ⟨.stateEndValue, false, [.parseObjectValue], false⟩

/-- The scanner after the top-level value `null`. -/
def afterTopLiteral : scanner :=
  ⟨.stateEndValue, false, [], false⟩

/-- The scanner after the end of the top-level value. -/
def ended : scanner :=
  ⟨.stateEndTop, true, [], false⟩

end json

/-- White space of JSON: spaces, tabs, carriage returns and newlines only. -/
def isWhite (ws : List Byte) : Bool :=
  ws.all json.isSpace

/-- The value of a member of a size object: `null`, or a natural number in decimal. -/
inductive SizeValue where
  | null
  | number (digits : List Byte)
deriving DecidableEq, Repr

/-- The bytes of the value of a member. -/
def SizeValue.bytes : SizeValue → List Byte
  | .null => ascii "null"
  | .number digits => digits

/-- The value is written as JSON has it: a number has digits only and no zero in front of
another digit. -/
def SizeValue.wellFormed : SizeValue → Bool
  | .null => true
  | .number digits => isUintLiteral digits

/-- A member of a size object: its name, "rows" or "cols", its value, and the white space
before the name, before the colon, after the colon and after the value. -/
structure SizeMember where
  field : json.Field
  value : SizeValue
  space1 : List Byte
  space2 : List Byte
  space3 : List Byte
  space4 : List Byte
deriving DecidableEq, Repr

/-- The name of a member, in quotes. -/
def keyBytes : json.Field → List Byte
  | .Rows => ascii "\"rows\""
  | .Cols => ascii "\"cols\""

/-- The bytes of a member: name, colon and value, with the white space around them. -/
def SizeMember.render (m : SizeMember) : List Byte :=
  m.space1 ++ (keyBytes m.field ++ (m.space2 ++ (58 :: (m.space3 ++ (m.value.bytes ++ m.space4)))))

/-- The member is written as JSON has it. -/
def SizeMember.wellFormed (m : SizeMember) : Bool :=
  isWhite m.space1 && isWhite m.space2 && isWhite m.space3 && isWhite m.space4 &&
    m.value.wellFormed

/-- The members after the first, each after a comma, and the closing brace. -/
def renderRest : List SizeMember → List Byte
  | [] => [125]
  | m :: ms => 44 :: (m.render ++ renderRest ms)

/-- A size object: a JSON object whose members are named "rows" or "cols" and hold `null` or
a natural number in decimal, in any number and order; `lead` and `trail` are the white space
around the object and `inner` the white space inside an object without members. -/
def sizeObject (lead inner : List Byte) (members : List SizeMember) (trail : List Byte) :
    List Byte :=
  lead ++ (123 :: ((match members with
    | [] => inner ++ [125]
    | m :: ms => m.render ++ renderRest ms) ++ trail))

/-- What a member does to the struct being filled and to the error flag of the decoder:
`null` leaves both, a number below 65536 is the new value of its field, and a greater number
sets the flag. -/
def assign (acc : windowSize × Bool) (m : SizeMember) : windowSize × Bool :=
  match m.value with
  | .null => acc
  | .number digits =>
    if literalValue digits < 65536 then
      match m.field with
      | .Rows => ({ acc.1 with Rows := literalValue digits }, acc.2)
      | .Cols => ({ acc.1 with Cols := literalValue digits }, acc.2)
    else (acc.1, true)

/-- The numbers the members give for a field, in the order of the members. -/
def numbersOf (field : json.Field) (members : List SizeMember) : List Nat :=
  members.filterMap (fun m =>
    match m.value with
    | .number digits => if m.field = field then some (literalValue digits) else none
    | .null => none)

/-- Every number of the members is below 65536. -/
def fitsUint16 (members : List SizeMember) : Bool :=
  members.all (fun m =>
    match m.value with
    | .number digits => decide (literalValue digits < 65536)
    | .null => true)

/-- The size a size object denotes: for each field the last number given for it, 0 when there
is none; no size when one of the numbers is 65536 or more. -/
def sizeOf (members : List SizeMember) : Option windowSize :=
  if fitsUint16 members then
    some ⟨(numbersOf .Rows members).getLast?.getD 0, (numbersOf .Cols members).getLast?.getD 0⟩
  else none

/-! ## Theorems: reap registry -/

namespace ProcessRegistry

theorem pruneExitCacheLocked_exitCache_keep (r : ProcessRegistry) (now : Time) (pid : Pid)
    (e : ExitStatus) (h : r.exitCache pid = some e) (hfresh : now - e.CachedAt ≤ exitCacheTTL) :
    (r.pruneExitCacheLocked now).exitCache pid = some e := by
  have hnot : ¬ (now - e.CachedAt > exitCacheTTL) := not_lt.mpr hfresh
  simp [pruneExitCacheLocked, h, hnot]

theorem pruneExitCacheLocked_exitCache_drop (r : ProcessRegistry) (now : Time) (pid : Pid)
    (e : ExitStatus) (h : r.exitCache pid = some e) (hold : now - e.CachedAt > exitCacheTTL) :
    (r.pruneExitCacheLocked now).exitCache pid = none := by
  simp [pruneExitCacheLocked, h, hold]

theorem pruneExitCacheLocked_exitCache_none (r : ProcessRegistry) (now : Time) (pid : Pid)
    (h : r.exitCache pid = none) :
    (r.pruneExitCacheLocked now).exitCache pid = none := by
  simp [pruneExitCacheLocked, h]

theorem Register_exitCache (r : ProcessRegistry) (pid : Pid) :
    (r.Register pid).exitCache = r.exitCache := by
  unfold Register
  cases r.waiters pid <;> rfl

theorem Unregister_exitCache (r : ProcessRegistry) (pid : Pid) :
    (r.Unregister pid).exitCache = r.exitCache := rfl

theorem CacheExitStatus_exitCache (r : ProcessRegistry) (pid : Pid) (status : WaitStatus)
    (now : Time) :
    (r.CacheExitStatus pid status now).exitCache =
      Function.update (r.pruneExitCacheLocked now).exitCache pid (some ⟨status, now⟩) := by
  unfold CacheExitStatus
  simp only
  split <;> rfl

theorem GetCachedExitStatus_exitCache (r : ProcessRegistry) (pid : Pid) (now : Time) :
    (r.GetCachedExitStatus pid now).1.exitCache = (r.pruneExitCacheLocked now).exitCache := by
  unfold GetCachedExitStatus
  simp only
  split <;> rfl

theorem GetCachedExitStatus_snd (r : ProcessRegistry) (pid : Pid) (now : Time) :
    (r.GetCachedExitStatus pid now).2 =
      match (r.pruneExitCacheLocked now).exitCache pid with
      | some status => (status.Status, true)
      | none => (0, false) := by
  unfold GetCachedExitStatus
  simp only
  split <;> simp_all

theorem WaitForExitStatus_exitCache (r : ProcessRegistry) (pid : Pid) (timeout : Duration)
    (now : Time) (arrival : Option ExitStatus) :
    (r.WaitForExitStatus pid timeout now arrival).1.exitCache =
      (r.pruneExitCacheLocked now).exitCache := by
  have hget := GetCachedExitStatus_exitCache r pid now
  unfold WaitForExitStatus
  split
  · exact hget
  · split
    · next r1 status heq => rw [heq] at hget; exact hget
    · next r1 status heq =>
      rw [heq] at hget
      simp only at hget
      split
      · exact hget
      · exact hget
      · split <;> exact hget

/-- When the cache holds a status for the PID after pruning, `WaitForExitStatus` with a
positive timeout serves it on the fast path. -/
theorem WaitForExitStatus_fast (r : ProcessRegistry) (pid : Pid) (timeout : Duration)
    (now : Time) (arrival : Option ExitStatus) (e : ExitStatus)
    (h : (r.pruneExitCacheLocked now).exitCache pid = some e) :
    (r.WaitForExitStatus pid timeout now arrival).2 = (e.Status, true) := by
  have hget : r.GetCachedExitStatus pid now = (r.pruneExitCacheLocked now, (e.Status, true)) := by
    unfold GetCachedExitStatus
    simp only [h]
  unfold WaitForExitStatus
  rw [hget]
  split <;> rfl

theorem GetCachedExitStatus_fst (r : ProcessRegistry) (pid : Pid) (now : Time) :
    (r.GetCachedExitStatus pid now).1 = r.pruneExitCacheLocked now := by
  unfold GetCachedExitStatus
  simp only
  split <;> rfl

/-- `WaitForExitStatus` leaves the registered set alone, and creates no channel. -/
theorem WaitForExitStatus_unregistered (r : ProcessRegistry) (pid p : Pid) (timeout : Duration)
    (now : Time) (arrival : Option ExitStatus) :
    (r.WaitForExitStatus pid timeout now arrival).1.processes = r.processes ∧
    (r.waiters p = none → (r.WaitForExitStatus pid timeout now arrival).1.waiters p = none) := by
  have hget := GetCachedExitStatus_fst r pid now
  unfold WaitForExitStatus
  split
  · rw [hget]; exact ⟨rfl, fun h => h⟩
  · split
    · next r1 status heq =>
      rw [heq] at hget
      simp only at hget
      subst hget
      exact ⟨rfl, fun h => h⟩
    · next r1 status heq =>
      rw [heq] at hget
      simp only at hget
      subst hget
      split
      · exact ⟨rfl, fun h => h⟩
      · next c hc =>
        refine ⟨rfl, fun h => ?_⟩
        have hne : p ≠ pid := by
          intro hEq
          subst hEq
          have hc2 : r.waiters p = some (some c) := hc
          rw [h] at hc2
          exact Option.noConfusion hc2
        simpa [Function.update_noteq hne] using h
      · split <;> exact ⟨rfl, fun h => h⟩

end ProcessRegistry

theorem Op.apply_exitCache_keep (r : ProcessRegistry) (op : Op) (P : Pid) (e : ExitStatus)
    (h : r.exitCache P = some e)
    (hno : ∀ status now, op ≠ Op.cache P status now)
    (hfresh : ∀ u, op.time = some u → u - e.CachedAt ≤ exitCacheTTL) :
    (op.apply r).exitCache P = some e := by
  cases op with
  | register pid => simpa [Op.apply, ProcessRegistry.Register_exitCache] using h
  | unregister pid => simpa [Op.apply, ProcessRegistry.Unregister_exitCache] using h
  | cache pid status now =>
    have hne : P ≠ pid := by
      intro hEq
      exact hno status now (by rw [hEq])
    have hk := ProcessRegistry.pruneExitCacheLocked_exitCache_keep r now P e h (hfresh now rfl)
    simp [Op.apply, ProcessRegistry.CacheExitStatus_exitCache, Function.update_noteq hne, hk]
  | get pid now =>
    have hk := ProcessRegistry.pruneExitCacheLocked_exitCache_keep r now P e h (hfresh now rfl)
    simp [Op.apply, ProcessRegistry.GetCachedExitStatus_exitCache, hk]
  | waitFor pid timeout now arrival =>
    have hk := ProcessRegistry.pruneExitCacheLocked_exitCache_keep r now P e h (hfresh now rfl)
    simp [Op.apply, ProcessRegistry.WaitForExitStatus_exitCache, hk]

theorem run_exitCache_keep (ops : List Op) (r : ProcessRegistry) (P : Pid) (e : ExitStatus)
    (h : r.exitCache P = some e)
    (hno : ∀ op ∈ ops, ∀ status now, op ≠ Op.cache P status now)
    (hfresh : ∀ op ∈ ops, ∀ u, op.time = some u → u - e.CachedAt ≤ exitCacheTTL) :
    (run r ops).exitCache P = some e := by
  induction ops generalizing r with
  | nil => exact h
  | cons op ops ih =>
    have hstep := Op.apply_exitCache_keep r op P e h
      (hno op (List.mem_cons_self _ _)) (hfresh op (List.mem_cons_self _ _))
    exact ih (op.apply r) hstep
      (fun o ho => hno o (List.mem_cons_of_mem _ ho))
      (fun o ho => hfresh o (List.mem_cons_of_mem _ ho))

/-- C1: once the reaper has run `CacheExitStatus(P, S)` at time `t0`, whether `P` was
registered before that (any start state `r`) or is registered afterwards (any calls `ops`
in between, none of them another `CacheExitStatus` for `P`), a `WaitForExitStatus(P, timeout)`
with `timeout > 0` issued at a time `t1` no later than 30 s after `t0`, the calls in between
having read the clock no later than `t1`, returns `(S, true)`. -/
theorem WaitForExitStatus_after_CacheExitStatus (r : ProcessRegistry) (P : Pid) (S : WaitStatus)
    (t0 t1 : Time) (ops : List Op) (timeout : Duration) (arrival : Option ExitStatus)
    (_htimeout : 0 < timeout)
    (hno : ∀ op ∈ ops, ∀ status now, op ≠ Op.cache P status now)
    (hclock : ∀ op ∈ ops, ∀ u, op.time = some u → u ≤ t1)
    (hwithin : t1 - t0 ≤ exitCacheTTL) :
    ((run (r.CacheExitStatus P S t0) ops).WaitForExitStatus P timeout t1 arrival).2
      = (S, true) := by
  have hstored : (r.CacheExitStatus P S t0).exitCache P = some ⟨S, t0⟩ := by
    simp [ProcessRegistry.CacheExitStatus_exitCache]
  have hkept := run_exitCache_keep ops (r.CacheExitStatus P S t0) P ⟨S, t0⟩ hstored hno
    (fun op hop u hu => le_trans (sub_le_sub_right (hclock op hop u hu) t0) hwithin)
  have hpruned := ProcessRegistry.pruneExitCacheLocked_exitCache_keep _ t1 P ⟨S, t0⟩ hkept hwithin
  exact ProcessRegistry.WaitForExitStatus_fast _ P timeout t1 arrival ⟨S, t0⟩ hpruned

/-- Witness of C1: PID 7 exits with status 1792 (exit code 7), the reaper caches it at time 0,
the owner registers afterwards and waits 200 ms later. -/
theorem WaitForExitStatus_after_CacheExitStatus_witness :
    ((run (registry.CacheExitStatus 7 1792 0) [Op.register 7]).WaitForExitStatus 7
      (200 * Millisecond) (200 * Millisecond) none).2 = (1792, true) :=
  WaitForExitStatus_after_CacheExitStatus registry 7 1792 0 (200 * Millisecond) [Op.register 7]
    (200 * Millisecond) none (by decide)
    (by
      intro op hop status now
      rw [List.mem_singleton] at hop
      subst hop
      exact Op.noConfusion)
    (by
      intro op hop u hu
      rw [List.mem_singleton] at hop
      subst hop
      exact Option.noConfusion hu)
    (by decide)

/-- C2 (evaluation of the code): PID 7 is registered, the reaper caches status 1792 at time 0,
the owner unregisters; `GetCachedExitStatus(7)` one second later still returns `(1792, true)`:
`Unregister` leaves `exitCache` alone. -/
theorem Unregister_keeps_cached_status :
    ((((registry.Register 7).CacheExitStatus 7 1792 0).Unregister 7).GetCachedExitStatus 7
      Second).2 = (1792, true) ∧
    (((registry.Register 7).CacheExitStatus 7 1792 0).Unregister 7).waiters 7 = none := by
  decide

theorem lastCached_snoc (pid : Pid) (ops : List Op) (op : Op) :
    lastCached pid (ops ++ [op]) =
      match op.cached pid with
      | some e => some e
      | none => lastCached pid ops := by
  induction ops with
  | nil =>
    simp only [List.nil_append, lastCached]
    cases op.cached pid <;> rfl
  | cons o ops ih =>
    simp only [List.cons_append, lastCached, List.append_eq, ih]
    cases op.cached pid <;> rfl

theorem lastTime_snoc (t : Time) (ops : List Op) (op : Op) :
    lastTime t (ops ++ [op]) =
      match op.time with
      | some u => u
      | none => lastTime t ops := by
  induction ops generalizing t with
  | nil => simp only [List.nil_append, lastTime]
  | cons o ops ih =>
    simp only [List.cons_append, lastTime, List.append_eq]
    cases o.time <;> simp only [ih]

theorem clockFrom_snoc (t : Time) (ops : List Op) (op : Op) :
    clockFrom t (ops ++ [op]) ↔
      clockFrom t ops ∧ ∀ u, op.time = some u → lastTime t ops ≤ u := by
  induction ops generalizing t with
  | nil =>
    simp only [List.nil_append, clockFrom, lastTime, true_and]
    cases op.time <;> simp
  | cons o ops ih =>
    simp only [List.cons_append, clockFrom, lastTime, List.append_eq]
    cases o.time with
    | none => simp only [ih]
    | some v => simp only [ih, and_assoc]

theorem run_snoc (r : ProcessRegistry) (ops : List Op) (op : Op) :
    run r (ops ++ [op]) = op.apply (run r ops) := by
  simp [run, List.foldl_append]

theorem exitCacheTTL_pos : (0 : Int) < exitCacheTTL := by decide

/-- The cache entry of `pid` after a run from a registry with no entry for `pid`, under a clock
that never goes back: the most recent status cached for `pid`, unless a later call read the
clock more than the TTL after it. -/
theorem run_exitCache (r : ProcessRegistry) (pid : Pid) (t : Time) (ops : List Op)
    (hstart : r.exitCache pid = none) (hclock : clockFrom t ops) :
    (run r ops).exitCache pid =
        (match lastCached pid ops with
        | some e => if lastTime t ops - e.CachedAt > exitCacheTTL then none else some e
        | none => none) ∧
      ∀ e, lastCached pid ops = some e → e.CachedAt ≤ lastTime t ops := by
  induction ops using List.reverseRecOn with
  | nil => simp [run, lastCached, hstart]
  | append_singleton ops op ih =>
    rw [clockFrom_snoc] at hclock
    obtain ⟨hclock, hlast⟩ := hclock
    obtain ⟨ihc, iht⟩ := ih hclock
    rw [run_snoc, lastCached_snoc, lastTime_snoc]
    have hprune : ∀ now, lastTime t ops ≤ now →
        ((run r ops).pruneExitCacheLocked now).exitCache pid =
          (match lastCached pid ops with
          | some e => if now - e.CachedAt > exitCacheTTL then none else some e
          | none => none) := by
      intro now hnow
      show (match (run r ops).exitCache pid with
        | some status => if now - status.CachedAt > exitCacheTTL then none else some status
        | none => none) = _
      rw [ihc]
      cases hc : lastCached pid ops with
      | none => rfl
      | some e =>
        simp only
        by_cases hexp : lastTime t ops - e.CachedAt > exitCacheTTL
        · have : now - e.CachedAt > exitCacheTTL := by linarith
          simp [hexp, this]
        · simp [hexp]
    cases op with
    | register q =>
      simp only [Op.apply, Op.cached, Op.time, ProcessRegistry.Register_exitCache]
      exact ⟨ihc, iht⟩
    | unregister q =>
      simp only [Op.apply, Op.cached, Op.time, ProcessRegistry.Unregister_exitCache]
      exact ⟨ihc, iht⟩
    | get q now =>
      have hnow := hlast now rfl
      simp only [Op.apply, Op.cached, Op.time, ProcessRegistry.GetCachedExitStatus_exitCache]
      exact ⟨hprune now hnow, fun e he => le_trans (iht e he) hnow⟩
    | waitFor q timeout now arrival =>
      have hnow := hlast now rfl
      simp only [Op.apply, Op.cached, Op.time, ProcessRegistry.WaitForExitStatus_exitCache]
      exact ⟨hprune now hnow, fun e he => le_trans (iht e he) hnow⟩
    | cache q status now =>
      have hnow := hlast now rfl
      simp only [Op.apply, Op.cached, Op.time, ProcessRegistry.CacheExitStatus_exitCache]
      by_cases hq : q = pid
      · subst hq
        have hpos := exitCacheTTL_pos
        have hfresh : ¬ (now - now > exitCacheTTL) := by
          rw [sub_self]
          exact not_lt.mpr (le_of_lt hpos)
        simp only [if_true, Function.update_same]
        refine ⟨by simp [le_of_lt hpos], ?_⟩
        intro e he
        cases he
        exact le_refl _
      · have hne : pid ≠ q := fun h => hq h.symm
        simp only [hq, if_false, Function.update_noteq hne]
        exact ⟨hprune now hnow, fun e he => le_trans (iht e he) hnow⟩

/-- The pruned cache entry of `pid` at a time `now` not before the last clock reading of a run
that started from a registry with no entry for `pid`. -/
theorem run_pruned_exitCache (r : ProcessRegistry) (pid : Pid) (t now : Time) (ops : List Op)
    (hstart : r.exitCache pid = none) (hclock : clockFrom t ops) (hnow : lastTime t ops ≤ now) :
    ((run r ops).pruneExitCacheLocked now).exitCache pid =
      (match lastCached pid ops with
      | some e => if now - e.CachedAt > exitCacheTTL then none else some e
      | none => none) := by
  obtain ⟨hc, _⟩ := run_exitCache r pid t ops hstart hclock
  show (match (run r ops).exitCache pid with
    | some status => if now - status.CachedAt > exitCacheTTL then none else some status
    | none => none) = _
  rw [hc]
  cases lastCached pid ops with
  | none => rfl
  | some e =>
    simp only
    by_cases hexp : lastTime t ops - e.CachedAt > exitCacheTTL
    · have : now - e.CachedAt > exitCacheTTL := by linarith
      simp [hexp, this]
    · simp [hexp]

/-- C3: `Register(p)` twice leaves the state of `Register(p)` once (an existing channel and
its content are kept), `Unregister(p)` twice leaves the state of `Unregister(p)` once, and
`Unregister(p)` leaves a state unchanged in which `p` is not registered (no mark, no channel),
in particular every state reached from the initial registry by calls none of which is
`Register(p)`. -/
theorem Register_Unregister_idempotent (r : ProcessRegistry) (p : Pid) (ops : List Op) :
    (r.Register p).Register p = r.Register p ∧
    ((r.Register p).waiters p = match r.waiters p with | some c => some c | none => some none) ∧
    (r.Unregister p).Unregister p = r.Unregister p ∧
    (r.processes p = false → r.waiters p = none → r.Unregister p = r) ∧
    ((∀ op ∈ ops, op ≠ Op.register p) → (run registry ops).Unregister p = run registry ops) := by
  have hunreg : ∀ r' : ProcessRegistry, r'.processes p = false → r'.waiters p = none →
      r'.Unregister p = r' := by
    intro r' hp hw
    ext q
    · by_cases hq : q = p
      · subst hq; simp [ProcessRegistry.Unregister, hp]
      · simp [ProcessRegistry.Unregister, Function.update_noteq hq]
    · rfl
    · by_cases hq : q = p
      · subst hq; simp [ProcessRegistry.Unregister, hw]
      · simp [ProcessRegistry.Unregister, Function.update_noteq hq]
  refine ⟨?_, ?_, ?_, hunreg r, ?_⟩
  · cases hw : r.waiters p with
    | none => simp [ProcessRegistry.Register, hw]
    | some c => simp [ProcessRegistry.Register, hw]
  · cases hw : r.waiters p with
    | none => simp [ProcessRegistry.Register, hw]
    | some c => simp [ProcessRegistry.Register, hw]
  · simp [ProcessRegistry.Unregister]
  · intro hnever
    have hinv : (run registry ops).processes p = false ∧ (run registry ops).waiters p = none := by
      induction ops using List.reverseRecOn with
      | nil => exact ⟨rfl, rfl⟩
      | append_singleton ops op ih =>
        have ih := ih (fun o ho => hnever o (List.mem_append_left _ ho))
        have hop : op ≠ Op.register p := hnever op (by simp)
        obtain ⟨ihp, ihw⟩ := ih
        rw [run_snoc]
        cases op with
        | register q =>
          have hq : p ≠ q := fun h => hop (by rw [h])
          cases hw : (run registry ops).waiters q <;>
            simp [Op.apply, ProcessRegistry.Register, hw, Function.update_noteq hq, ihp, ihw]
        | unregister q =>
          by_cases hq : p = q
          · subst hq; simp [Op.apply, ProcessRegistry.Unregister]
          · simp [Op.apply, ProcessRegistry.Unregister, Function.update_noteq hq, ihp, ihw]
        | cache q status now =>
          by_cases hq : p = q
          · subst hq
            simp [Op.apply, ProcessRegistry.CacheExitStatus, ProcessRegistry.pruneExitCacheLocked,
              ihp, ihw]
          · cases hw : (run registry ops).waiters q <;>
              simp [Op.apply, ProcessRegistry.CacheExitStatus,
                ProcessRegistry.pruneExitCacheLocked, hw, Function.update_noteq hq, ihp, ihw]
        | get q now =>
          simp only [Op.apply, ProcessRegistry.GetCachedExitStatus]
          split <;> exact ⟨ihp, ihw⟩
        | waitFor q timeout now arrival =>
          have hwait := ProcessRegistry.WaitForExitStatus_unregistered (run registry ops) q p
            timeout now arrival
          simp only [Op.apply]
          exact ⟨by rw [hwait.1]; exact ihp, hwait.2 ihw⟩
    exact hunreg _ hinv.1 hinv.2

/-- Witness of C3: on the initial registry, for PID 7, with a trace that caches a status for
PID 7 and registers PID 8 only. -/
theorem Register_Unregister_idempotent_witness :
    (registry.Register 7).Register 7 = registry.Register 7 ∧
    (registry.Unregister 7).Unregister 7 = registry.Unregister 7 ∧
    registry.Unregister 7 = registry ∧
    (run registry [Op.cache 7 1792 0, Op.register 8]).Unregister 7 =
      run registry [Op.cache 7 1792 0, Op.register 8] :=
  have h := Register_Unregister_idempotent registry 7 [Op.cache 7 1792 0, Op.register 8]
  ⟨h.1, h.2.2.1, h.2.2.2.1 rfl rfl, h.2.2.2.2 (by decide)⟩

/-- C4: with the clock explicit and never going back, after any calls `ops` on the initial
registry, `GetCachedExitStatus(p)` at a time `t'` not before them returns `(s, true)` iff the
most recent `CacheExitStatus` for `p` stored `s` at a time `t` with `t' - t ≤ 30 s`.  And in any
registry state, an entry of `p` older than 30 s at time `now` is gone after a
`GetCachedExitStatus(q)` or `CacheExitStatus(q, _)` made at `now`, for any `q` (for `q = p` the
latter puts the fresh entry in its place), and `GetCachedExitStatus(p)` reports not found. -/
theorem GetCachedExitStatus_iff_fresh (ops : List Op) (p : Pid) (s : WaitStatus) (t0 t' : Time)
    (hclock : clockFrom t0 ops) (hlate : lastTime t0 ops ≤ t')
    (r : ProcessRegistry) (e : ExitStatus) (q : Pid) (now : Time) (s' : WaitStatus) :
    (((run registry ops).GetCachedExitStatus p t').2 = (s, true) ↔
      ∃ t, lastCached p ops = some ⟨s, t⟩ ∧ t' - t ≤ exitCacheTTL) ∧
    (r.exitCache p = some e → now - e.CachedAt > exitCacheTTL →
      (r.GetCachedExitStatus q now).1.exitCache p = none ∧
      (r.CacheExitStatus q s' now).exitCache p = (if q = p then some ⟨s', now⟩ else none) ∧
      (r.GetCachedExitStatus p now).2 = (0, false)) := by
  constructor
  · rw [ProcessRegistry.GetCachedExitStatus_snd,
      run_pruned_exitCache registry p t0 t' ops rfl hclock hlate]
    cases lastCached p ops with
    | none => simp
    | some c =>
      obtain ⟨cs, ct⟩ := c
      by_cases hexp : t' - ct > exitCacheTTL
      · have hnot : ¬ (t' - ct ≤ exitCacheTTL) := not_le.mpr hexp
        simp only [if_pos hexp]
        constructor
        · intro h
          exact Bool.noConfusion (congrArg Prod.snd h)
        · rintro ⟨t, h, hle⟩
          have ht : ct = t := congrArg ExitStatus.CachedAt (Option.some.inj h)
          rw [← ht] at hle
          exact absurd hle hnot
      · have hle : t' - ct ≤ exitCacheTTL := not_lt.mp hexp
        simp only [hexp, if_false, Prod.mk.injEq, and_true, ExitStatus.mk.injEq, Option.some.injEq]
        constructor
        · intro h
          exact ⟨ct, ⟨h, rfl⟩, hle⟩
        · rintro ⟨t, ⟨h, _⟩, _⟩
          exact h
  · intro he hold
    have hdrop := ProcessRegistry.pruneExitCacheLocked_exitCache_drop r now p e he hold
    refine ⟨?_, ?_, ?_⟩
    · rw [ProcessRegistry.GetCachedExitStatus_exitCache]
      exact hdrop
    · rw [ProcessRegistry.CacheExitStatus_exitCache]
      by_cases hq : q = p
      · subst hq
        simp
      · have hne : p ≠ q := fun h => hq h.symm
        simp [hq, Function.update_noteq hne, hdrop]
    · rw [ProcessRegistry.GetCachedExitStatus_snd, hdrop]

/-- Witness of C4: status 1792 cached for PID 7 at time 0, a lookup of PID 8 at 10 s, then the
lookup of PID 7 at 30 s; and an entry cached at time 0 seen at 31 s. -/
theorem GetCachedExitStatus_iff_fresh_witness :
    (((run registry [Op.cache 7 1792 0, Op.get 8 (10 * Second)]).GetCachedExitStatus 7
        (30 * Second)).2 = (1792, true) ↔
      ∃ t, lastCached 7 [Op.cache 7 1792 0, Op.get 8 (10 * Second)] = some ⟨1792, t⟩ ∧
        30 * Second - t ≤ exitCacheTTL) ∧
    ((registry.CacheExitStatus 7 1792 0).GetCachedExitStatus 8 (31 * Second)).1.exitCache 7
      = none ∧
    ((registry.CacheExitStatus 7 1792 0).CacheExitStatus 8 0 (31 * Second)).exitCache 7
      = (if (8 : Pid) = 7 then some ⟨0, 31 * Second⟩ else none) ∧
    ((registry.CacheExitStatus 7 1792 0).GetCachedExitStatus 7 (31 * Second)).2 = (0, false) :=
  have h := GetCachedExitStatus_iff_fresh [Op.cache 7 1792 0, Op.get 8 (10 * Second)] 7 1792 0
    (30 * Second) (by simp [clockFrom, Op.time, Second]) (by decide)
    (registry.CacheExitStatus 7 1792 0) ⟨1792, 0⟩ 8
    (31 * Second) 0
  ⟨h.1, h.2 (by decide) (by decide)⟩

/-- C5: when `P` has a rendezvous channel whose slot is empty, `CacheExitStatus(P, S1)` (at
`t1`) followed by `CacheExitStatus(P, S2)` (at `t2`) leaves `S1` in the slot, and `S2` as the
cached status of `P`, which a lookup at `t2` returns. -/
theorem CacheExitStatus_twice (r : ProcessRegistry) (P : Pid) (S1 S2 : WaitStatus) (t1 t2 : Time)
    (hslot : r.waiters P = some none) :
    ((r.CacheExitStatus P S1 t1).CacheExitStatus P S2 t2).waiters P = some (some ⟨S1, t1⟩) ∧
    ((r.CacheExitStatus P S1 t1).CacheExitStatus P S2 t2).exitCache P = some ⟨S2, t2⟩ ∧
    (((r.CacheExitStatus P S1 t1).CacheExitStatus P S2 t2).GetCachedExitStatus P t2).2
      = (S2, true) := by
  have hfirst : (r.CacheExitStatus P S1 t1).waiters P = some (some ⟨S1, t1⟩) := by
    simp [ProcessRegistry.CacheExitStatus, ProcessRegistry.pruneExitCacheLocked, hslot,
      ProcessRegistry.trySend]
  have hcache : ((r.CacheExitStatus P S1 t1).CacheExitStatus P S2 t2).exitCache P
      = some ⟨S2, t2⟩ := by
    simp [ProcessRegistry.CacheExitStatus_exitCache]
  refine ⟨?_, hcache, ?_⟩
  · simp [ProcessRegistry.CacheExitStatus, ProcessRegistry.pruneExitCacheLocked, hslot,
      ProcessRegistry.trySend]
  · rw [ProcessRegistry.GetCachedExitStatus_snd,
      ProcessRegistry.pruneExitCacheLocked_exitCache_keep _ t2 P ⟨S2, t2⟩ hcache
        (by rw [sub_self]; exact le_of_lt exitCacheTTL_pos)]

/-- Witness of C5: PID 7 freshly registered on the initial registry. -/
theorem CacheExitStatus_twice_witness :
    (((registry.Register 7).CacheExitStatus 7 1792 0).CacheExitStatus 7 256 1).waiters 7
      = some (some ⟨1792, 0⟩) ∧
    (((registry.Register 7).CacheExitStatus 7 1792 0).CacheExitStatus 7 256 1).exitCache 7
      = some ⟨256, 1⟩ ∧
    ((((registry.Register 7).CacheExitStatus 7 1792 0).CacheExitStatus 7 256 1).GetCachedExitStatus
      7 1).2 = (256, true) :=
  CacheExitStatus_twice (registry.Register 7) 7 1792 256 0 1 (by decide)

/-! ## Theorems: execute adapter -/

theorem parseStep_space_idle (args : List String) (q : Char) :
    parseStep ⟨args, [], false, q⟩ ' ' = ⟨args, [], false, q⟩ := by
  simp [parseStep, doubleQuote, singleQuote]

theorem foldl_parseStep_spaces (cs : List Char) (args : List String) (q : Char)
    (hcs : ∀ c ∈ cs, c = ' ') :
    cs.foldl parseStep ⟨args, [], false, q⟩ = ⟨args, [], false, q⟩ := by
  induction cs with
  | nil => rfl
  | cons c cs ih =>
    have hc : c = ' ' := hcs c (List.mem_cons_self _ _)
    subst hc
    rw [List.foldl_cons, parseStep_space_idle]
    exact ih (fun c hc => hcs c (List.mem_cons_of_mem _ hc))

/-- C7: the five equations of `parseCommand`, and for every command made only of space
characters `parseCommand` returns the empty list and `ExecuteCommand` answers 400 "empty
command" whatever the registry and the environment. -/
theorem parseCommand_examples (command : String) (hspaces : ∀ c ∈ command.data, c = ' ')
    (r : ProcessRegistry) (cwd : Option String) (timeout : Option Int) (env : ExecuteEnv) :
    parseCommand "a b" = ["a", "b"] ∧
    parseCommand (String.mk [singleQuote, 'a', ' ', 'b', singleQuote]) = ["a b"] ∧
    parseCommand (String.mk [doubleQuote, 'a', ' ', 'b', doubleQuote, 'c']) = ["a bc"] ∧
    parseCommand "" = [] ∧
    parseCommand " " = [] ∧
    parseCommand command = [] ∧
    ExecuteCommand r (some ⟨command, cwd, timeout⟩) env = (r, Response.abort 400 "empty command") := by
  have hgen : parseCommand command = [] := by
    unfold parseCommand
    rw [foldl_parseStep_spaces command.data [] zeroRune hspaces]
    rfl
  refine ⟨by decide, by decide, by decide, by decide, by decide, hgen, ?_⟩
  simp [ExecuteCommand, hgen]

/-- Witness of C7: the command of three spaces. -/
theorem parseCommand_examples_witness :
    parseCommand "   " = [] ∧
    ExecuteCommand registry (some ⟨"   ", none, none⟩)
        ⟨none, 7, false, none, some 0, "", "", [], [], 0, 0, "", fun _ => none, none⟩
      = (registry, Response.abort 400 "empty command") :=
  have h := parseCommand_examples "   " (by decide) registry none none
    ⟨none, 7, false, none, some 0, "", "", [], [], 0, 0, "", fun _ => none, none⟩
  ⟨h.2.2.2.2.2.1, h.2.2.2.2.2.2⟩

/-- Outside quotes, on a character that is neither a quote nor a space, the loop body appends
the character to `current`. -/
theorem parseStep_plain (args : List String) (cur : List Char) (q c : Char)
    (hd : c ≠ doubleQuote) (hs : c ≠ singleQuote) (hsp : c ≠ ' ') :
    parseStep ⟨args, cur, false, q⟩ c = ⟨args, cur ++ [c], false, q⟩ := by
  simp [parseStep, hd, hs, hsp]

/-- Outside quotes, on a space, the loop body closes a non-empty `current`. -/
theorem parseStep_space (args : List String) (cur : List Char) (q : Char) :
    parseStep ⟨args, cur, false, q⟩ ' ' =
      if cur = [] then ⟨args, [], false, q⟩ else ⟨args ++ [String.mk cur], [], false, q⟩ := by
  cases cur with
  | nil => simp [parseStep, doubleQuote, singleQuote]
  | cons a cur => simp [parseStep, doubleQuote, singleQuote]

/-- The loop of `parseCommand` on a quote-free input, from any state outside quotes. -/
theorem parseFinish_foldl_noQuotes (cs : List Char) (args : List String) (cur : List Char)
    (q : Char) (hq : ∀ c ∈ cs, c ≠ doubleQuote ∧ c ≠ singleQuote) :
    parseFinish (cs.foldl parseStep ⟨args, cur, false, q⟩) =
      args ++ ((((cs.splitOn ' ').modifyHead (fun piece => cur ++ piece)).filter
        (fun piece => piece ≠ [])).map String.mk) := by
  induction cs generalizing args cur with
  | nil =>
    cases cur with
    | nil => simp [parseFinish, List.splitOn]
    | cons a cur => simp [parseFinish, List.splitOn]
  | cons c cs ih =>
    have hc := hq c (List.mem_cons_self _ _)
    have hrest : ∀ c ∈ cs, c ≠ doubleQuote ∧ c ≠ singleQuote :=
      fun c hc => hq c (List.mem_cons_of_mem _ hc)
    rw [List.foldl_cons]
    by_cases hsp : c = ' '
    · subst hsp
      have hsplit : (' ' :: cs).splitOn ' ' = [] :: cs.splitOn ' ' := by
        simp [List.splitOn, List.splitOnP_cons]
      have hid : (cs.splitOn ' ').modifyHead (fun piece => ([] : List Char) ++ piece)
          = cs.splitOn ' ' := by
        cases cs.splitOn ' ' <;> simp [List.modifyHead]
      rw [parseStep_space, hsplit]
      by_cases hcur : cur = []
      · subst hcur
        rw [if_pos rfl, ih args [] hrest, hid]
        simp [List.modifyHead]
      · rw [if_neg hcur, ih _ [] hrest, hid]
        simp [List.modifyHead, hcur]
    · have hsplit : (c :: cs).splitOn ' ' = (cs.splitOn ' ').modifyHead (List.cons c) := by
        simp [List.splitOn, List.splitOnP_cons, hsp]
      rw [parseStep_plain args cur q c hc.1 hc.2 hsp, ih args (cur ++ [c]) hrest, hsplit,
        List.modifyHead_modifyHead]
      congr 4
      funext piece
      simp

/-- C8: on a command without single and double quote characters, `parseCommand` returns the
non-empty pieces between the space characters, in order and unaltered. -/
theorem parseCommand_eq_spaceFields (command : String)
    (hq : ∀ c ∈ command.data, c ≠ doubleQuote ∧ c ≠ singleQuote) :
    parseCommand command = spaceFields command := by
  unfold parseCommand spaceFields
  rw [parseFinish_foldl_noQuotes command.data [] [] zeroRune hq]
  have hid : (command.data.splitOn ' ').modifyHead (fun piece => ([] : List Char) ++ piece)
      = command.data.splitOn ' ' := by
    cases command.data.splitOn ' ' <;> simp [List.modifyHead]
  rw [hid, List.nil_append]

/-- Witness of C8: a command with a tab inside a token and doubled spaces. -/
theorem parseCommand_eq_spaceFields_witness :
    parseCommand " ls\t-l  /tmp " = spaceFields " ls\t-l  /tmp " ∧
    spaceFields " ls\t-l  /tmp " = ["ls\t-l", "/tmp"] :=
  ⟨parseCommand_eq_spaceFields " ls\t-l  /tmp " (by decide), by decide⟩

/-- Once the command has been parsed and started, the response of `ExecuteCommand` is the one
`determineExitCode` computes on the registry in which the PID was registered and the reaper
has made its calls. -/
theorem ExecuteCommand_response (r : ProcessRegistry) (request : ExecuteRequest) (env : ExecuteEnv)
    (hparse : parseCommand request.Command ≠ []) (hstart : env.startErr = none) :
    (ExecuteCommand r (some request) env).2 =
      (determineExitCode (run (r.Register env.pid) env.reaped) env).2 := by
  have hlen : (parseCommand request.Command).length ≠ 0 := by
    intro h
    exact hparse (List.length_eq_zero.mp h)
  simp only [ExecuteCommand, hlen, if_false, hstart]

/-- C6: after a successful start, with `reg` the registry when `Wait` returns, the response is
200 with the `ProcessState` exit code when `Wait` succeeds; 200 with the `ExitError` exit code
when `Wait` returns an `ExitError`; 200 with the exit code of the cached status when `Wait`
reports "no child processes" and `GetCachedExitStatus` finds a status, or finds none and
`WaitForExitStatus` with the ECHILD wait timeout returns one; 200 with `-1` when neither
does; and in all the error cases the timeout flag must be unset: when it is set and `Wait`
returned an error the response is 408.  The wait window is the one `getNoChildWaitTimeout`
computes in `int64`: when it is not positive, as after a wrap, nothing is waited for, and the
response is 200 with `-1` when the second cache lookup finds no status, whatever arrives. -/
theorem ExecuteCommand_exitCode (r : ProcessRegistry) (request : ExecuteRequest) (env : ExecuteEnv)
    (hparse : parseCommand request.Command ≠ []) (hstart : env.startErr = none) :
    (∀ c, env.waitErr = none → env.processState = some c →
      (ExecuteCommand r (some request) env).2 = Response.json 200 c (env.stdout ++ env.stderr)) ∧
    (∀ c, env.waitErr = some (WaitError.exitError c) → env.timeoutReached = false →
      (ExecuteCommand r (some request) env).2 = Response.json 200 c (env.stdout ++ env.stderr)) ∧
    (∀ err s, env.waitErr = some err → isNoChildProcessError (some err) = true →
      env.timeoutReached = false →
      ((run (r.Register env.pid) env.reaped).GetCachedExitStatus env.pid env.lookupTime).2
        = (s, true) →
      (ExecuteCommand r (some request) env).2 =
        Response.json 200 (WaitStatus.ExitStatus s) (env.stdout ++ env.stderr)) ∧
    (∀ err s, env.waitErr = some err → isNoChildProcessError (some err) = true →
      env.timeoutReached = false →
      ((run (r.Register env.pid) env.reaped).GetCachedExitStatus env.pid env.lookupTime).2.2
        = false →
      ((run ((run (r.Register env.pid) env.reaped).GetCachedExitStatus env.pid
          env.lookupTime).1 env.between).WaitForExitStatus env.pid
          (getNoChildWaitTimeout env.waitMsValue env.atoi) env.waitTime env.arrival).2
        = (s, true) →
      (ExecuteCommand r (some request) env).2 =
        Response.json 200 (WaitStatus.ExitStatus s) (env.stdout ++ env.stderr)) ∧
    (∀ err, env.waitErr = some err → isNoChildProcessError (some err) = true →
      env.timeoutReached = false →
      ((run (r.Register env.pid) env.reaped).GetCachedExitStatus env.pid env.lookupTime).2.2
        = false →
      ((run ((run (r.Register env.pid) env.reaped).GetCachedExitStatus env.pid
          env.lookupTime).1 env.between).WaitForExitStatus env.pid
          (getNoChildWaitTimeout env.waitMsValue env.atoi) env.waitTime env.arrival).2.2
        = false →
      (ExecuteCommand r (some request) env).2 =
        Response.json 200 (-1) (env.stdout ++ env.stderr)) ∧
    (∀ err, env.waitErr = some err → env.timeoutReached = true →
      (ExecuteCommand r (some request) env).2 =
        Response.abort 408 "command execution timeout") ∧
    (∀ err, env.waitErr = some err → isNoChildProcessError (some err) = true →
      env.timeoutReached = false →
      ((run (r.Register env.pid) env.reaped).GetCachedExitStatus env.pid env.lookupTime).2.2
        = false →
      getNoChildWaitTimeout env.waitMsValue env.atoi ≤ 0 →
      ((run ((run (r.Register env.pid) env.reaped).GetCachedExitStatus env.pid
          env.lookupTime).1 env.between).GetCachedExitStatus env.pid env.waitTime).2.2
        = false →
      (ExecuteCommand r (some request) env).2 =
        Response.json 200 (-1) (env.stdout ++ env.stderr)) := by
  rw [ExecuteCommand_response r request env hparse hstart]
  refine ⟨?_, ?_, ?_, ?_, ?_, ?_, ?_⟩
  · intro c hw hp
    simp [determineExitCode, hw, hp]
  · intro c hw ht
    simp [determineExitCode, hw, ht, isNoChildProcessError]
  · intro err s hw hno ht hget
    simp only [determineExitCode, hw, ht, hno, if_true, Bool.false_eq_true, if_false]
    split
    · next r1 cached heq =>
      rw [heq] at hget
      simp only [Prod.mk.injEq, and_true] at hget
      rw [hget]
    · next r1 cached heq =>
      rw [heq] at hget
      exact Bool.noConfusion (congrArg Prod.snd hget)
  · intro err s hw hno ht hget hwait
    simp only [determineExitCode, hw, ht, hno, if_true, Bool.false_eq_true, if_false]
    split
    · next r1 cached heq =>
      rw [heq] at hget
      exact Bool.noConfusion hget
    · next r1 cached heq =>
      rw [heq] at hwait
      simp only at hwait
      split
      · next r2 cached2 heq2 =>
        rw [heq2] at hwait
        simp only [Prod.mk.injEq, and_true] at hwait
        rw [hwait]
      · next r2 cached2 heq2 =>
        rw [heq2] at hwait
        exact Bool.noConfusion (congrArg Prod.snd hwait)
  · intro err hw hno ht hget hwait
    simp only [determineExitCode, hw, ht, hno, if_true, Bool.false_eq_true, if_false]
    split
    · next r1 cached heq =>
      rw [heq] at hget
      exact Bool.noConfusion hget
    · next r1 cached heq =>
      rw [heq] at hwait
      simp only at hwait
      split
      · next r2 cached2 heq2 =>
        rw [heq2] at hwait
        exact Bool.noConfusion hwait
      · rfl
  · intro err hw ht
    simp [determineExitCode, hw, ht]
  · intro err hw hno ht hget hwindow hget2
    have hwait : ((run ((run (r.Register env.pid) env.reaped).GetCachedExitStatus env.pid
        env.lookupTime).1 env.between).WaitForExitStatus env.pid
        (getNoChildWaitTimeout env.waitMsValue env.atoi) env.waitTime env.arrival).2.2
          = false := by
      unfold ProcessRegistry.WaitForExitStatus
      rw [if_pos hwindow]
      exact hget2
    simp only [determineExitCode, hw, ht, hno, if_true, Bool.false_eq_true, if_false]
    split
    · next r1 cached heq =>
      rw [heq] at hget
      exact Bool.noConfusion hget
    · next r1 cached heq =>
      rw [heq] at hwait
      simp only at hwait
      split
      · next r2 cached2 heq2 =>
        rw [heq2] at hwait
        exact Bool.noConfusion hwait
      · rfl

/-- Witness of C6: the command `ls` as PID 7, one run for each outcome of `Wait`: success with
exit code 0; an `ExitError` with code 7; ECHILD with status 1792 cached by the reaper; the
text "wait: no child processes" with status 1792 arriving during the wait window; the same
with nothing arriving; an `ExitError` after the timeout fired; the status arriving while the
wait window has wrapped to -1 ms. -/
theorem ExecuteCommand_exitCode_witness :
    (ExecuteCommand registry (some ⟨"ls", none, none⟩)
      (exampleEnv false none (some 0) [] none)).2 = Response.json 200 0 "outerr" ∧
    (ExecuteCommand registry (some ⟨"ls", none, none⟩)
      (exampleEnv false (some (WaitError.exitError 7)) none [] none)).2
        = Response.json 200 7 "outerr" ∧
    (ExecuteCommand registry (some ⟨"ls", none, none⟩)
      (exampleEnv false (some (WaitError.other true "waitid: no child processes")) none
        [Op.cache 7 1792 0] none)).2 = Response.json 200 7 "outerr" ∧
    (ExecuteCommand registry (some ⟨"ls", none, none⟩)
      (exampleEnv false (some (WaitError.other false "wait: no child processes")) none
        [] (some ⟨1792, Second⟩))).2 = Response.json 200 7 "outerr" ∧
    (ExecuteCommand registry (some ⟨"ls", none, none⟩)
      (exampleEnv false (some (WaitError.other false "wait: no child processes")) none
        [] none)).2 = Response.json 200 (-1) "outerr" ∧
    (ExecuteCommand registry (some ⟨"ls", none, none⟩)
      (exampleEnv true (some (WaitError.exitError (-1))) none [] none)).2
        = Response.abort 408 "command execution timeout" ∧
    (ExecuteCommand registry (some ⟨"ls", none, none⟩)
      (arrivalEnv "9223372036854775807" 9223372036854775807)).2
        = Response.json 200 (-1) "outerr" :=
  ⟨(ExecuteCommand_exitCode registry ⟨"ls", none, none⟩
      (exampleEnv false none (some 0) [] none) (by decide) rfl).1 0 rfl rfl,
   (ExecuteCommand_exitCode registry ⟨"ls", none, none⟩
      (exampleEnv false (some (WaitError.exitError 7)) none [] none) (by decide) rfl).2.1 7
      rfl rfl,
   (ExecuteCommand_exitCode registry ⟨"ls", none, none⟩
      (exampleEnv false (some (WaitError.other true "waitid: no child processes")) none
        [Op.cache 7 1792 0] none) (by decide) rfl).2.2.1 _ 1792 rfl (by decide) rfl (by decide),
   (ExecuteCommand_exitCode registry ⟨"ls", none, none⟩
      (exampleEnv false (some (WaitError.other false "wait: no child processes")) none
        [] (some ⟨1792, Second⟩)) (by decide) rfl).2.2.2.1 _ 1792 rfl (by decide) rfl
      (by decide) (by decide),
   (ExecuteCommand_exitCode registry ⟨"ls", none, none⟩
      (exampleEnv false (some (WaitError.other false "wait: no child processes")) none
        [] none) (by decide) rfl).2.2.2.2.1 _ rfl (by decide) rfl (by decide) (by decide),
   (ExecuteCommand_exitCode registry ⟨"ls", none, none⟩
      (exampleEnv true (some (WaitError.exitError (-1))) none [] none)
      (by decide) rfl).2.2.2.2.2.1 _ rfl rfl,
   (ExecuteCommand_exitCode registry ⟨"ls", none, none⟩
      (arrivalEnv "9223372036854775807" 9223372036854775807)
      (by decide) rfl).2.2.2.2.2.2 _ rfl (by decide) rfl (by decide) (by decide) (by decide)⟩

/-! ## Theorems: UTF-8 fragment decoder -/

theorem land_mod (x : Nat) :
    x &&& 7 = x % 8 ∧ x &&& 0x0F = x % 16 ∧ x &&& 0x1F = x % 32 ∧ x &&& 0x3F = x % 64 :=
  ⟨Nat.and_pow_two_sub_one_eq_mod x 3, Nat.and_pow_two_sub_one_eq_mod x 4,
    Nat.and_pow_two_sub_one_eq_mod x 5, Nat.and_pow_two_sub_one_eq_mod x 6⟩

theorem shl_or (a b k : Nat) (hb : b < 2 ^ k) : (a <<< k) ||| b = a * 2 ^ k + b := by
  rw [Nat.shiftLeft_eq, Nat.mul_comm a, Nat.mul_add_lt_is_or hb]

theorem rune2_arith (p0 b1 : Nat) :
    ((p0 &&& mask2) <<< 6) ||| (b1 &&& maskx) = p0 % 32 * 64 + b1 % 64 := by
  have h1 : b1 % 64 < 2 ^ 6 := Nat.mod_lt _ (by norm_num)
  simp only [mask2, maskx, (land_mod p0).2.2.1, (land_mod b1).2.2.2]
  rw [shl_or _ _ 6 h1]
  norm_num

theorem rune3_arith (p0 b1 b2 : Nat) :
    ((p0 &&& mask3) <<< 12) ||| ((b1 &&& maskx) <<< 6) ||| (b2 &&& maskx)
      = p0 % 16 * 4096 + b1 % 64 * 64 + b2 % 64 := by
  have h1 : b1 % 64 < 64 := Nat.mod_lt _ (by norm_num)
  have h2 : b2 % 64 < 2 ^ 6 := Nat.mod_lt _ (by norm_num)
  have h3 : (b1 % 64) <<< 6 < 2 ^ 12 := by rw [Nat.shiftLeft_eq]; omega
  simp only [mask3, maskx, (land_mod p0).2.1, (land_mod b1).2.2.2, (land_mod b2).2.2.2]
  rw [shl_or _ _ 12 h3]
  have h4 : p0 % 16 * 2 ^ 12 + (b1 % 64) <<< 6 = (p0 % 16 * 64 + b1 % 64) <<< 6 := by
    simp only [Nat.shiftLeft_eq]; ring
  rw [h4, shl_or _ _ 6 h2]
  ring

theorem rune4_arith (p0 b1 b2 b3 : Nat) :
    ((p0 &&& mask4) <<< 18) ||| ((b1 &&& maskx) <<< 12) ||| ((b2 &&& maskx) <<< 6)
      ||| (b3 &&& maskx) = p0 % 8 * 262144 + b1 % 64 * 4096 + b2 % 64 * 64 + b3 % 64 := by
  have h1 : b1 % 64 < 64 := Nat.mod_lt _ (by norm_num)
  have h2 : b2 % 64 < 64 := Nat.mod_lt _ (by norm_num)
  have h3 : b3 % 64 < 2 ^ 6 := Nat.mod_lt _ (by norm_num)
  have h5 : (b1 % 64) <<< 12 < 2 ^ 18 := by rw [Nat.shiftLeft_eq]; omega
  have h6 : (b2 % 64) <<< 6 < 2 ^ 12 := by rw [Nat.shiftLeft_eq]; omega
  simp only [mask4, maskx, (land_mod p0).1, (land_mod b1).2.2.2, (land_mod b2).2.2.2,
    (land_mod b3).2.2.2]
  rw [shl_or _ _ 18 h5]
  have h7 : p0 % 8 * 2 ^ 18 + (b1 % 64) <<< 12 = (p0 % 8 * 64 + b1 % 64) <<< 12 := by
    simp only [Nat.shiftLeft_eq]; ring
  rw [h7, shl_or _ _ 12 h6]
  have h8 : (p0 % 8 * 64 + b1 % 64) * 2 ^ 12 + (b2 % 64) <<< 6
      = ((p0 % 8 * 64 + b1 % 64) * 64 + b2 % 64) <<< 6 := by
    simp only [Nat.shiftLeft_eq]; ring
  rw [h8, shl_or _ _ 6 h3]
  ring

/-- The table `first` by ranges of the first byte. -/
theorem first_cases (b : Nat) :
    (b < 0x80 ∧ first b = as) ∨
    ((0x80 ≤ b ∧ b < 0xC2 ∨ 0xF5 ≤ b) ∧ first b = xx) ∨
    (0xC2 ≤ b ∧ b < 0xE0 ∧ first b = s1) ∨
    (b = 0xE0 ∧ first b = s2) ∨
    ((0xE1 ≤ b ∧ b < 0xED ∨ b = 0xEE ∨ b = 0xEF) ∧ first b = s3) ∨
    (b = 0xED ∧ first b = s4) ∨
    (b = 0xF0 ∧ first b = s5) ∨
    (0xF1 ≤ b ∧ b < 0xF4 ∧ first b = s6) ∨
    (b = 0xF4 ∧ first b = s7) := by
  unfold first
  split_ifs with h1 h2 h3 h4 h5 h6 h7 h8 h9 h10
  · exact Or.inl ⟨h1, rfl⟩
  · exact Or.inr (Or.inl ⟨Or.inl ⟨by omega, h2⟩, rfl⟩)
  · exact Or.inr (Or.inr (Or.inl ⟨by omega, h3, rfl⟩))
  · exact Or.inr (Or.inr (Or.inr (Or.inl ⟨h4, rfl⟩)))
  · exact Or.inr (Or.inr (Or.inr (Or.inr (Or.inl ⟨Or.inl ⟨by omega, h5⟩, rfl⟩))))
  · exact Or.inr (Or.inr (Or.inr (Or.inr (Or.inr (Or.inl ⟨h6, rfl⟩)))))
  · exact Or.inr (Or.inr (Or.inr (Or.inr (Or.inl ⟨Or.inr (by omega), rfl⟩))))
  · exact Or.inr (Or.inr (Or.inr (Or.inr (Or.inr (Or.inr (Or.inl ⟨h8, rfl⟩))))))
  · exact Or.inr (Or.inr (Or.inr (Or.inr (Or.inr (Or.inr (Or.inr (Or.inl ⟨by omega, h9, rfl⟩)))))))
  · exact Or.inr (Or.inr (Or.inr (Or.inr (Or.inr (Or.inr (Or.inr (Or.inr ⟨h10, rfl⟩)))))))
  · exact Or.inr (Or.inl ⟨Or.inr (by omega), rfl⟩)

theorem DecodeRune_unfold (p : List Byte) :
    DecodeRune p =
      if p.length < 1 then (RuneError, 0)
      else if first (byteAt p 0) ≥ as then
        if first (byteAt p 0) % 2 = 1 then (RuneError, 1) else (byteAt p 0, 1)
      else if p.length < first (byteAt p 0) % 8 then (RuneError, 1)
      else if byteAt p 1 < (acceptRanges (first (byteAt p 0) / 16)).lo ∨
          (acceptRanges (first (byteAt p 0) / 16)).hi < byteAt p 1 then (RuneError, 1)
      else if first (byteAt p 0) % 8 ≤ 2 then (byteAt p 0 % 32 * 64 + byteAt p 1 % 64, 2)
      else if byteAt p 2 < 0x80 ∨ 0xBF < byteAt p 2 then (RuneError, 1)
      else if first (byteAt p 0) % 8 ≤ 3 then
        (byteAt p 0 % 16 * 4096 + byteAt p 1 % 64 * 64 + byteAt p 2 % 64, 3)
      else if byteAt p 3 < 0x80 ∨ 0xBF < byteAt p 3 then (RuneError, 1)
      else
        (byteAt p 0 % 8 * 262144 + byteAt p 1 % 64 * 4096 + byteAt p 2 % 64 * 64
          + byteAt p 3 % 64, 4) := by
  unfold DecodeRune
  simp only [rune2_arith, rune3_arith, rune4_arith, (land_mod _).1, Nat.shiftRight_eq_div_pow,
    locb, hicb]

/-- The chain of checks of `DecodeRune` after the table lookups, for a first byte that
announces `sz` bytes and accepts second bytes from `lo` to `hi`. -/
theorem decode_case (n p0 b1 b2 b3 sz lo hi : Nat) (hsz : 2 ≤ sz ∧ sz ≤ 4) :
    (if n < sz then (RuneError, 1)
      else if b1 < lo ∨ hi < b1 then (RuneError, 1)
      else if sz ≤ 2 then (p0 % 32 * 64 + b1 % 64, 2)
      else if b2 < 0x80 ∨ 0xBF < b2 then (RuneError, 1)
      else if sz ≤ 3 then (p0 % 16 * 4096 + b1 % 64 * 64 + b2 % 64, 3)
      else if b3 < 0x80 ∨ 0xBF < b3 then (RuneError, 1)
      else (p0 % 8 * 262144 + b1 % 64 * 4096 + b2 % 64 * 64 + b3 % 64, 4)) =
    decodeSized sz lo hi n p0 b1 b2 b3 := by
  obtain ⟨h2, h4⟩ := hsz
  have hcases : sz = 2 ∨ sz = 3 ∨ sz = 4 := by omega
  unfold decodeSized
  rcases hcases with h | h | h <;> subst h <;> simp <;> split_ifs <;> first | omega | rfl

/-- The arithmetic form on a multi-byte first byte, through the tables `first` and
`acceptRanges`. -/
theorem decodeArith_sized (n p0 b1 b2 b3 : Nat) (hn : ¬ n < 1) (hx : first p0 < as) :
    decodeArith n p0 b1 b2 b3 =
      decodeSized (first p0 % 8) (acceptRanges (first p0 / 16)).lo
        (acceptRanges (first p0 / 16)).hi n p0 b1 b2 b3 := by
  rcases first_cases p0 with h | h | h | h | h | h | h | h | h
  · rw [h.2] at hx
    exact absurd hx (by decide)
  · rw [h.2] at hx
    exact absurd hx (by decide)
  · obtain ⟨hr1, hr2, hf⟩ := h
    have e1 : s1 % 8 = 2 := by decide
    have e2 : s1 / 16 = 0 := by decide
    have e4 : (acceptRanges 0).lo = 0x80 := rfl
    have e5 : (acceptRanges 0).hi = 0xBF := rfl
    have i1 : (if p0 = 0xE0 then 0xA0 else 0x80) = 0x80 := by
      rw [if_neg (by omega)]
    have i2 : (if p0 = 0xED then 0x9F else 0xBF) = 0xBF := by
      rw [if_neg (by omega)]
    have i3 : (if p0 = 0xF0 then 0x90 else 0x80) = 0x80 := by
      rw [if_neg (by omega)]
    have i4 : (if p0 = 0xF4 then 0x8F else 0xBF) = 0xBF := by
      rw [if_neg (by omega)]
    rw [hf, e1, e2, e4, e5]
    unfold decodeArith decodeSized
    rw [i1, i2, i3, i4]
    by_cases hc : 2 ≤ n ∧ 0x80 ≤ b1 ∧ b1 ≤ 0xBF
    · rw [if_neg hn, if_neg (by omega), if_pos (by omega), if_pos (by omega)]
    · rw [if_neg hn, if_neg (by omega), if_neg (by omega), if_neg (by omega), if_neg (by omega),
        if_neg (by omega), if_neg (by omega), if_neg (by omega)]
  · obtain ⟨hr, hf⟩ := h
    have e1 : s2 % 8 = 3 := by decide
    have e2 : s2 / 16 = 1 := by decide
    have e4 : (acceptRanges 1).lo = 0xA0 := rfl
    have e5 : (acceptRanges 1).hi = 0xBF := rfl
    have i1 : (if p0 = 0xE0 then 0xA0 else 0x80) = 0xA0 := by
      rw [if_pos (by omega)]
    have i2 : (if p0 = 0xED then 0x9F else 0xBF) = 0xBF := by
      rw [if_neg (by omega)]
    have i3 : (if p0 = 0xF0 then 0x90 else 0x80) = 0x80 := by
      rw [if_neg (by omega)]
    have i4 : (if p0 = 0xF4 then 0x8F else 0xBF) = 0xBF := by
      rw [if_neg (by omega)]
    rw [hf, e1, e2, e4, e5]
    unfold decodeArith decodeSized
    rw [i1, i2, i3, i4]
    by_cases hc : 3 ≤ n ∧ 0xA0 ≤ b1 ∧ b1 ≤ 0xBF ∧ 0x80 ≤ b2 ∧ b2 ≤ 0xBF
    · rw [if_neg hn, if_neg (by omega), if_neg (by omega), if_pos (by omega), if_neg (by omega),
        if_pos (by omega)]
    · rw [if_neg hn, if_neg (by omega), if_neg (by omega), if_neg (by omega), if_neg (by omega),
        if_neg (by omega), if_neg (by omega), if_neg (by omega)]
  · obtain ⟨hr, hf⟩ := h
    have e1 : s3 % 8 = 3 := by decide
    have e2 : s3 / 16 = 0 := by decide
    have e4 : (acceptRanges 0).lo = 0x80 := rfl
    have e5 : (acceptRanges 0).hi = 0xBF := rfl
    have i1 : (if p0 = 0xE0 then 0xA0 else 0x80) = 0x80 := by
      rw [if_neg (by omega)]
    have i2 : (if p0 = 0xED then 0x9F else 0xBF) = 0xBF := by
      rw [if_neg (by omega)]
    have i3 : (if p0 = 0xF0 then 0x90 else 0x80) = 0x80 := by
      rw [if_neg (by omega)]
    have i4 : (if p0 = 0xF4 then 0x8F else 0xBF) = 0xBF := by
      rw [if_neg (by omega)]
    rw [hf, e1, e2, e4, e5]
    unfold decodeArith decodeSized
    rw [i1, i2, i3, i4]
    by_cases hc : 3 ≤ n ∧ 0x80 ≤ b1 ∧ b1 ≤ 0xBF ∧ 0x80 ≤ b2 ∧ b2 ≤ 0xBF
    · rw [if_neg hn, if_neg (by omega), if_neg (by omega), if_pos (by omega), if_neg (by omega),
        if_pos (by omega)]
    · rw [if_neg hn, if_neg (by omega), if_neg (by omega), if_neg (by omega), if_neg (by omega),
        if_neg (by omega), if_neg (by omega), if_neg (by omega)]
  · obtain ⟨hr, hf⟩ := h
    have e1 : s4 % 8 = 3 := by decide
    have e2 : s4 / 16 = 2 := by decide
    have e4 : (acceptRanges 2).lo = 0x80 := rfl
    have e5 : (acceptRanges 2).hi = 0x9F := rfl
    have i1 : (if p0 = 0xE0 then 0xA0 else 0x80) = 0x80 := by
      rw [if_neg (by omega)]
    have i2 : (if p0 = 0xED then 0x9F else 0xBF) = 0x9F := by
      rw [if_pos (by omega)]
    have i3 : (if p0 = 0xF0 then 0x90 else 0x80) = 0x80 := by
      rw [if_neg (by omega)]
    have i4 : (if p0 = 0xF4 then 0x8F else 0xBF) = 0xBF := by
      rw [if_neg (by omega)]
    rw [hf, e1, e2, e4, e5]
    unfold decodeArith decodeSized
    rw [i1, i2, i3, i4]
    by_cases hc : 3 ≤ n ∧ 0x80 ≤ b1 ∧ b1 ≤ 0x9F ∧ 0x80 ≤ b2 ∧ b2 ≤ 0xBF
    · rw [if_neg hn, if_neg (by omega), if_neg (by omega), if_pos (by omega), if_neg (by omega),
        if_pos (by omega)]
    · rw [if_neg hn, if_neg (by omega), if_neg (by omega), if_neg (by omega), if_neg (by omega),
        if_neg (by omega), if_neg (by omega), if_neg (by omega)]
  · obtain ⟨hr, hf⟩ := h
    have e1 : s5 % 8 = 4 := by decide
    have e2 : s5 / 16 = 3 := by decide
    have e4 : (acceptRanges 3).lo = 0x90 := rfl
    have e5 : (acceptRanges 3).hi = 0xBF := rfl
    have i1 : (if p0 = 0xE0 then 0xA0 else 0x80) = 0x80 := by
      rw [if_neg (by omega)]
    have i2 : (if p0 = 0xED then 0x9F else 0xBF) = 0xBF := by
      rw [if_neg (by omega)]
    have i3 : (if p0 = 0xF0 then 0x90 else 0x80) = 0x90 := by
      rw [if_pos (by omega)]
    have i4 : (if p0 = 0xF4 then 0x8F else 0xBF) = 0xBF := by
      rw [if_neg (by omega)]
    rw [hf, e1, e2, e4, e5]
    unfold decodeArith decodeSized
    rw [i1, i2, i3, i4]
    by_cases hc : 4 ≤ n ∧ 0x90 ≤ b1 ∧ b1 ≤ 0xBF ∧ 0x80 ≤ b2 ∧ b2 ≤ 0xBF ∧ 0x80 ≤ b3 ∧ b3 ≤ 0xBF
    · rw [if_neg hn, if_neg (by omega), if_neg (by omega), if_neg (by omega), if_pos (by omega),
        if_neg (by omega), if_neg (by omega), if_pos (by omega)]
    · rw [if_neg hn, if_neg (by omega), if_neg (by omega), if_neg (by omega), if_neg (by omega),
        if_neg (by omega), if_neg (by omega), if_neg (by omega)]
  · obtain ⟨hr1, hr2, hf⟩ := h
    have e1 : s6 % 8 = 4 := by decide
    have e2 : s6 / 16 = 0 := by decide
    have e4 : (acceptRanges 0).lo = 0x80 := rfl
    have e5 : (acceptRanges 0).hi = 0xBF := rfl
    have i1 : (if p0 = 0xE0 then 0xA0 else 0x80) = 0x80 := by
      rw [if_neg (by omega)]
    have i2 : (if p0 = 0xED then 0x9F else 0xBF) = 0xBF := by
      rw [if_neg (by omega)]
    have i3 : (if p0 = 0xF0 then 0x90 else 0x80) = 0x80 := by
      rw [if_neg (by omega)]
    have i4 : (if p0 = 0xF4 then 0x8F else 0xBF) = 0xBF := by
      rw [if_neg (by omega)]
    rw [hf, e1, e2, e4, e5]
    unfold decodeArith decodeSized
    rw [i1, i2, i3, i4]
    by_cases hc : 4 ≤ n ∧ 0x80 ≤ b1 ∧ b1 ≤ 0xBF ∧ 0x80 ≤ b2 ∧ b2 ≤ 0xBF ∧ 0x80 ≤ b3 ∧ b3 ≤ 0xBF
    · rw [if_neg hn, if_neg (by omega), if_neg (by omega), if_neg (by omega), if_pos (by omega),
        if_neg (by omega), if_neg (by omega), if_pos (by omega)]
    · rw [if_neg hn, if_neg (by omega), if_neg (by omega), if_neg (by omega), if_neg (by omega),
        if_neg (by omega), if_neg (by omega), if_neg (by omega)]
  · obtain ⟨hr, hf⟩ := h
    have e1 : s7 % 8 = 4 := by decide
    have e2 : s7 / 16 = 4 := by decide
    have e4 : (acceptRanges 4).lo = 0x80 := rfl
    have e5 : (acceptRanges 4).hi = 0x8F := rfl
    have i1 : (if p0 = 0xE0 then 0xA0 else 0x80) = 0x80 := by
      rw [if_neg (by omega)]
    have i2 : (if p0 = 0xED then 0x9F else 0xBF) = 0xBF := by
      rw [if_neg (by omega)]
    have i3 : (if p0 = 0xF0 then 0x90 else 0x80) = 0x80 := by
      rw [if_neg (by omega)]
    have i4 : (if p0 = 0xF4 then 0x8F else 0xBF) = 0x8F := by
      rw [if_pos (by omega)]
    rw [hf, e1, e2, e4, e5]
    unfold decodeArith decodeSized
    rw [i1, i2, i3, i4]
    by_cases hc : 4 ≤ n ∧ 0x80 ≤ b1 ∧ b1 ≤ 0x8F ∧ 0x80 ≤ b2 ∧ b2 ≤ 0xBF ∧ 0x80 ≤ b3 ∧ b3 ≤ 0xBF
    · rw [if_neg hn, if_neg (by omega), if_neg (by omega), if_neg (by omega), if_pos (by omega),
        if_neg (by omega), if_neg (by omega), if_pos (by omega)]
    · rw [if_neg hn, if_neg (by omega), if_neg (by omega), if_neg (by omega), if_neg (by omega),
        if_neg (by omega), if_neg (by omega), if_neg (by omega)]

/-- `DecodeRune` in arithmetic form. -/
theorem DecodeRune_eq_decodeArith (p : List Byte) :
    DecodeRune p = decodeArith p.length (byteAt p 0) (byteAt p 1) (byteAt p 2) (byteAt p 3) := by
  rw [DecodeRune_unfold]
  generalize byteAt p 0 = p0
  generalize byteAt p 1 = b1
  generalize byteAt p 2 = b2
  generalize byteAt p 3 = b3
  generalize p.length = n
  by_cases hn : n < 1
  · simp [hn, decodeArith]
  · rw [if_neg hn]
    by_cases hx : first p0 ≥ as
    · rw [if_pos hx]
      rcases first_cases p0 with h | h | h | h | h | h | h | h | h
      · unfold decodeArith
        rw [h.2, if_neg (by decide), if_neg hn, if_pos h.1]
      · unfold decodeArith
        rw [h.2, if_pos (by decide), if_neg hn, if_neg (by omega), if_neg (by omega),
          if_neg (by omega), if_neg (by omega)]
      · rw [h.2.2] at hx; exact absurd hx (by decide)
      · rw [h.2] at hx; exact absurd hx (by decide)
      · rw [h.2] at hx; exact absurd hx (by decide)
      · rw [h.2] at hx; exact absurd hx (by decide)
      · rw [h.2] at hx; exact absurd hx (by decide)
      · rw [h.2.2] at hx; exact absurd hx (by decide)
      · rw [h.2] at hx; exact absurd hx (by decide)
    · have hx' : first p0 < as := Nat.lt_of_not_ge hx
      have hsz : 2 ≤ first p0 % 8 ∧ first p0 % 8 ≤ 4 := by
        rcases first_cases p0 with h | h | h | h | h | h | h | h | h
        · rw [h.2] at hx; exact absurd (le_refl _) hx
        · rw [h.2] at hx; exact absurd (by decide) hx
        · rw [h.2.2]; decide
        · rw [h.2]; decide
        · rw [h.2]; decide
        · rw [h.2]; decide
        · rw [h.2]; decide
        · rw [h.2.2]; decide
        · rw [h.2]; decide
      rw [if_neg hx, decode_case n p0 b1 b2 b3 _ _ _ hsz, decodeArith_sized n p0 b1 b2 b3 hn hx']

theorem toByte_val (n : Nat) : (toByte n).val = n % 256 := rfl

theorem or_t2 (y : Nat) (h : y < 64) : t2 ||| y = 192 + y := by
  have := Nat.mul_add_lt_is_or (i := 6) (b := y) (by simpa using h) 3
  norm_num at this
  simp only [t2]
  omega

theorem or_tx (y : Nat) (h : y < 128) : tx ||| y = 128 + y := by
  have := Nat.mul_add_lt_is_or (i := 7) (b := y) (by simpa using h) 1
  norm_num at this
  simp only [tx]
  omega

theorem or_t3 (y : Nat) (h : y < 32) : t3 ||| y = 224 + y := by
  have := Nat.mul_add_lt_is_or (i := 5) (b := y) (by simpa using h) 7
  norm_num at this
  simp only [t3]
  omega

theorem or_t4 (y : Nat) (h : y < 16) : t4 ||| y = 240 + y := by
  have := Nat.mul_add_lt_is_or (i := 4) (b := y) (by simpa using h) 15
  norm_num at this
  simp only [t4]
  omega

/-- `EncodeRune` in arithmetic form. -/
theorem EncodeRune_arith (r : Nat) :
    EncodeRune r =
      if r ≤ 0x7F then [toByte r]
      else if r ≤ 0x7FF then [toByte (192 + r / 64), toByte (128 + r % 64)]
      else if r < 0xD800 ∨ (0xDFFF < r ∧ r ≤ 0xFFFF) then
        [toByte (224 + r / 4096), toByte (128 + r / 64 % 64), toByte (128 + r % 64)]
      else if r > 0xFFFF ∧ r ≤ 0x10FFFF then
        [toByte (240 + r / 262144), toByte (128 + r / 4096 % 64), toByte (128 + r / 64 % 64),
          toByte (128 + r % 64)]
      else [0xEF, 0xBF, 0xBD] := by
  have hlow : ∀ n : Nat, tx ||| (n % 256 &&& maskx) = 128 + n % 64 := by
    intro n
    have h1 : n % 256 &&& maskx = n % 64 := by
      rw [maskx, (land_mod _).2.2.2]
      omega
    rw [h1, or_tx _ (by omega)]
  unfold EncodeRune
  simp only [toByte_val, hlow, rune1Max, rune2Max, rune3Max, surrogateMin, surrogateMax, MaxRune,
    Nat.shiftRight_eq_div_pow, Nat.reducePow]
  split_ifs with h1 h2 h3 h4
  · rfl
  · have : r / 64 % 256 = r / 64 := by omega
    rw [this, or_t2 _ (by omega)]
  · have : r / 4096 % 256 = r / 4096 := by omega
    rw [this, or_t3 _ (by omega)]
  · have : r / 262144 % 256 = r / 262144 := by omega
    rw [this, or_t4 _ (by omega)]
  · rfl

theorem toByte_of_val (a : Byte) : toByte a.val = a := by
  apply Fin.ext
  rw [toByte_val]
  omega

theorem toByte_eq (n : Nat) (a : Byte) (h : n = a.val) : toByte n = a := by
  subst h
  exact toByte_of_val a

/-- Encoding the rune decoded from a well-formed two-byte sequence gives the two bytes back. -/
theorem EncodeRune_two (a b : Byte) (h : 0xC2 ≤ a.val ∧ a.val < 0xE0 ∧ 0x80 ≤ b.val ∧ b.val ≤ 0xBF) :
    EncodeRune (a.val % 32 * 64 + b.val % 64) = [a, b] := by
  rw [EncodeRune_arith, if_neg (by omega), if_pos (by omega)]
  rw [toByte_eq _ a (by omega), toByte_eq _ b (by omega)]

/-- Encoding the rune decoded from a well-formed three-byte sequence gives the bytes back. -/
theorem EncodeRune_three (a b c : Byte)
    (h : 0xE0 ≤ a.val ∧ a.val < 0xF0 ∧ (if a.val = 0xE0 then 0xA0 else 0x80) ≤ b.val ∧
      b.val ≤ (if a.val = 0xED then 0x9F else 0xBF) ∧ 0x80 ≤ c.val ∧ c.val ≤ 0xBF) :
    EncodeRune (a.val % 16 * 4096 + b.val % 64 * 64 + c.val % 64) = [a, b, c] := by
  obtain ⟨h1, h2, h3, h4, h5, h6⟩ := h
  have hlo : 0x80 ≤ b.val ∧ (a.val = 0xE0 → 0xA0 ≤ b.val) := by
    split_ifs at h3 <;> omega
  have hhi : b.val ≤ 0xBF ∧ (a.val = 0xED → b.val ≤ 0x9F) := by
    split_ifs at h4 <;> omega
  rw [EncodeRune_arith, if_neg (by omega), if_neg (by omega), if_pos (by omega)]
  rw [toByte_eq _ a (by omega), toByte_eq _ b (by omega), toByte_eq _ c (by omega)]

/-- Encoding the rune decoded from a well-formed four-byte sequence gives the bytes back. -/
theorem EncodeRune_four (a b c d : Byte)
    (h : 0xF0 ≤ a.val ∧ a.val < 0xF5 ∧ (if a.val = 0xF0 then 0x90 else 0x80) ≤ b.val ∧
      b.val ≤ (if a.val = 0xF4 then 0x8F else 0xBF) ∧ 0x80 ≤ c.val ∧ c.val ≤ 0xBF ∧
      0x80 ≤ d.val ∧ d.val ≤ 0xBF) :
    EncodeRune (a.val % 8 * 262144 + b.val % 64 * 4096 + c.val % 64 * 64 + d.val % 64)
      = [a, b, c, d] := by
  obtain ⟨h1, h2, h3, h4, h5, h6, h7, h8⟩ := h
  have hlo : 0x80 ≤ b.val ∧ (a.val = 0xF0 → 0x90 ≤ b.val) := by
    split_ifs at h3 <;> omega
  have hhi : b.val ≤ 0xBF ∧ (a.val = 0xF4 → b.val ≤ 0x8F) := by
    split_ifs at h4 <;> omega
  rw [EncodeRune_arith, if_neg (by omega), if_neg (by omega), if_neg (by omega),
    if_pos (by omega)]
  rw [toByte_eq _ a (by omega), toByte_eq _ b (by omega), toByte_eq _ c (by omega),
    toByte_eq _ d (by omega)]

/-- The five outcomes of the arithmetic form on a non-empty input: an ASCII byte, a
well-formed sequence of two, three or four bytes (each outcome depending only on the bytes of
the sequence), or an error. -/
theorem decodeArith_cases (n p0 b1 b2 b3 : Nat) (hn : 1 ≤ n) :
    (p0 < 0x80 ∧ ∀ m c1 c2 c3, 1 ≤ m → decodeArith m p0 c1 c2 c3 = (p0, 1)) ∨
    ((0xC2 ≤ p0 ∧ p0 < 0xE0 ∧ 0x80 ≤ b1 ∧ b1 ≤ 0xBF) ∧ 2 ≤ n ∧
      ∀ m c2 c3, 2 ≤ m → decodeArith m p0 b1 c2 c3 = (p0 % 32 * 64 + b1 % 64, 2)) ∨
    ((0xE0 ≤ p0 ∧ p0 < 0xF0 ∧ (if p0 = 0xE0 then 0xA0 else 0x80) ≤ b1 ∧
        b1 ≤ (if p0 = 0xED then 0x9F else 0xBF) ∧ 0x80 ≤ b2 ∧ b2 ≤ 0xBF) ∧ 3 ≤ n ∧
      ∀ m c3, 3 ≤ m →
        decodeArith m p0 b1 b2 c3 = (p0 % 16 * 4096 + b1 % 64 * 64 + b2 % 64, 3)) ∨
    ((0xF0 ≤ p0 ∧ p0 < 0xF5 ∧ (if p0 = 0xF0 then 0x90 else 0x80) ≤ b1 ∧
        b1 ≤ (if p0 = 0xF4 then 0x8F else 0xBF) ∧ 0x80 ≤ b2 ∧ b2 ≤ 0xBF ∧ 0x80 ≤ b3 ∧
        b3 ≤ 0xBF) ∧ 4 ≤ n ∧
      ∀ m, 4 ≤ m → decodeArith m p0 b1 b2 b3
        = (p0 % 8 * 262144 + b1 % 64 * 4096 + b2 % 64 * 64 + b3 % 64, 4)) ∨
    (0x80 ≤ p0 ∧ decodeArith n p0 b1 b2 b3 = (RuneError, 1)) := by
  have hn1 : ¬ n < 1 := by omega
  by_cases h1 : p0 < 0x80
  · left
    refine ⟨h1, fun m c1 c2 c3 hm => ?_⟩
    unfold decodeArith
    rw [if_neg (by omega), if_pos h1]
  by_cases h2 : 0xC2 ≤ p0 ∧ p0 < 0xE0 ∧ 2 ≤ n ∧ 0x80 ≤ b1 ∧ b1 ≤ 0xBF
  · right; left
    refine ⟨⟨h2.1, h2.2.1, h2.2.2.2⟩, h2.2.2.1, fun m c2 c3 hm => ?_⟩
    unfold decodeArith
    rw [if_neg (by omega), if_neg h1, if_pos ⟨h2.1, h2.2.1, hm, h2.2.2.2⟩]
  by_cases h3 : 0xE0 ≤ p0 ∧ p0 < 0xF0 ∧ 3 ≤ n ∧ (if p0 = 0xE0 then 0xA0 else 0x80) ≤ b1 ∧
      b1 ≤ (if p0 = 0xED then 0x9F else 0xBF) ∧ 0x80 ≤ b2 ∧ b2 ≤ 0xBF
  · right; right; left
    refine ⟨⟨h3.1, h3.2.1, h3.2.2.2⟩, h3.2.2.1, fun m c3 hm => ?_⟩
    unfold decodeArith
    rw [if_neg (by omega), if_neg h1, if_neg (by omega), if_pos ⟨h3.1, h3.2.1, hm, h3.2.2.2⟩]
  by_cases h4 : 0xF0 ≤ p0 ∧ p0 < 0xF5 ∧ 4 ≤ n ∧ (if p0 = 0xF0 then 0x90 else 0x80) ≤ b1 ∧
      b1 ≤ (if p0 = 0xF4 then 0x8F else 0xBF) ∧ 0x80 ≤ b2 ∧ b2 ≤ 0xBF ∧ 0x80 ≤ b3 ∧
      b3 ≤ 0xBF
  · right; right; right; left
    refine ⟨⟨h4.1, h4.2.1, h4.2.2.2⟩, h4.2.2.1, fun m hm => ?_⟩
    unfold decodeArith
    rw [if_neg (by omega), if_neg h1, if_neg (by omega), if_neg (by omega),
      if_pos ⟨h4.1, h4.2.1, hm, h4.2.2.2⟩]
  · right; right; right; right
    refine ⟨by omega, ?_⟩
    unfold decodeArith
    rw [if_neg hn1, if_neg h1, if_neg h2, if_neg h3, if_neg h4]

theorem EncodeRune_one (a : Byte) (h : a.val < 0x80) : EncodeRune a.val = [a] := by
  rw [EncodeRune_arith, if_pos (by omega), toByte_of_val]

/-- What `DecodeRune` does on a non-empty input: either the input starts with a well-formed
encoding `pre` of one to four bytes, which is decoded whatever follows it and which encodes
back to itself, or the result is the error `(RuneError, 1)`. -/
theorem DecodeRune_view (p : List Byte) (hp : p ≠ []) :
    (∃ pre tl r, p = pre ++ tl ∧ 1 ≤ pre.length ∧ pre.length ≤ 4 ∧
      (∀ q, DecodeRune (pre ++ q) = (r, pre.length)) ∧ EncodeRune r = pre ∧
      (r, pre.length) ≠ (RuneError, 1)) ∨
    DecodeRune p = (RuneError, 1) := by
  have hlen : 1 ≤ p.length := by
    cases p with
    | nil => exact absurd rfl hp
    | cons a rest => simp
  rcases decodeArith_cases p.length (byteAt p 0) (byteAt p 1) (byteAt p 2) (byteAt p 3) hlen
    with ⟨h1, hst⟩ | ⟨hc, hn, hst⟩ | ⟨hc, hn, hst⟩ | ⟨hc, hn, hst⟩ | ⟨_, herr⟩
  · left
    obtain _ | ⟨a, tl⟩ := p
    · exact absurd rfl hp
    · refine ⟨[a], tl, a.val, rfl, by simp, by simp, fun q => ?_, ?_, ?_⟩
      · rw [DecodeRune_eq_decodeArith]
        exact hst _ _ _ _ (by simp)
      · exact EncodeRune_one a h1
      · intro h
        have h1' : a.val < 0x80 := h1
        have : a.val = RuneError := congrArg Prod.fst h
        simp only [RuneError] at this
        omega
  · left
    obtain _ | ⟨a, _ | ⟨b, tl⟩⟩ := p
    · exact absurd rfl hp
    · simp at hn
    · refine ⟨[a, b], tl, a.val % 32 * 64 + b.val % 64, rfl, by simp, by simp, fun q => ?_, ?_, ?_⟩
      · rw [DecodeRune_eq_decodeArith]
        exact hst _ _ _ (by simp)
      · exact EncodeRune_two a b hc
      · intro h
        have hsnd := congrArg Prod.snd h
        simp at hsnd
  · left
    obtain _ | ⟨a, _ | ⟨b, _ | ⟨c, tl⟩⟩⟩ := p
    · exact absurd rfl hp
    · simp at hn
    · simp at hn
    · refine ⟨[a, b, c], tl, a.val % 16 * 4096 + b.val % 64 * 64 + c.val % 64, rfl, by simp,
        by simp, fun q => ?_, ?_, ?_⟩
      · rw [DecodeRune_eq_decodeArith]
        exact hst _ _ (by simp)
      · exact EncodeRune_three a b c hc
      · intro h
        have hsnd := congrArg Prod.snd h
        simp at hsnd
  · left
    obtain _ | ⟨a, _ | ⟨b, _ | ⟨c, _ | ⟨d, tl⟩⟩⟩⟩ := p
    · exact absurd rfl hp
    · simp at hn
    · simp at hn
    · simp at hn
    · refine ⟨[a, b, c, d], tl,
        a.val % 8 * 262144 + b.val % 64 * 4096 + c.val % 64 * 64 + d.val % 64, rfl, by simp,
        by simp, fun q => ?_, ?_, ?_⟩
      · rw [DecodeRune_eq_decodeArith]
        exact hst _ (by simp)
      · exact EncodeRune_four a b c d hc
      · intro h
        have hsnd := congrArg Prod.snd h
        simp at hsnd
  · right
    rw [DecodeRune_eq_decodeArith]
    exact herr

theorem validLoop_unfold (fuel : Nat) (p : List Byte) :
    validLoop (fuel + 1) p =
      if p.length = 0 then true
      else if byteAt p 0 < 0x80 then validLoop fuel (p.drop 1)
      else if first (byteAt p 0) = xx then false
      else if first (byteAt p 0) % 8 > p.length then false
      else if byteAt p 1 < (acceptRanges (first (byteAt p 0) / 16)).lo ∨
          (acceptRanges (first (byteAt p 0) / 16)).hi < byteAt p 1 then false
      else if first (byteAt p 0) % 8 = 2 then validLoop fuel (p.drop (first (byteAt p 0) % 8))
      else if byteAt p 2 < 0x80 ∨ 0xBF < byteAt p 2 then false
      else if first (byteAt p 0) % 8 = 3 then validLoop fuel (p.drop (first (byteAt p 0) % 8))
      else if byteAt p 3 < 0x80 ∨ 0xBF < byteAt p 3 then false
      else validLoop fuel (p.drop (first (byteAt p 0) % 8)) := by
  rw [validLoop]
  simp only [(land_mod _).1, Nat.shiftRight_eq_div_pow, locb, hicb, RuneSelf, Nat.reducePow]

/-- An error result of `decodeSized` is recognised by its size. -/
theorem decodeSized_error (sz lo hi n p0 b1 b2 b3 : Nat) :
    decodeSized sz lo hi n p0 b1 b2 b3 = (RuneError, 1) ↔
      (decodeSized sz lo hi n p0 b1 b2 b3).2 = 1 := by
  unfold decodeSized
  split_ifs <;> simp

/-- The chain of checks of `Valid` after the table lookups, for a first byte that announces
`sz` bytes and accepts second bytes from `lo` to `hi`; `f` is what the loop does next. -/
theorem valid_case (f : Nat → Bool) (n p0 b1 b2 b3 sz lo hi : Nat) (hsz : 2 ≤ sz ∧ sz ≤ 4) :
    (if sz > n then false
      else if b1 < lo ∨ hi < b1 then false
      else if sz = 2 then f sz
      else if b2 < 0x80 ∨ 0xBF < b2 then false
      else if sz = 3 then f sz
      else if b3 < 0x80 ∨ 0xBF < b3 then false
      else f sz) =
    (if (decodeSized sz lo hi n p0 b1 b2 b3).2 = 1 then false
      else f (decodeSized sz lo hi n p0 b1 b2 b3).2) := by
  obtain ⟨h2, h4⟩ := hsz
  have hcases : sz = 2 ∨ sz = 3 ∨ sz = 4 := by omega
  unfold decodeSized
  rcases hcases with h | h | h <;> subst h <;> simp only [apply_ite Prod.snd, true_and] <;>
    split_ifs <;> first | rfl | omega

/-- One iteration of the loop of `Valid`: it fails when `DecodeRune` reports an error and goes
on after the decoded rune otherwise. -/
theorem validLoop_step (fuel : Nat) (p : List Byte) (hp : p ≠ []) :
    validLoop (fuel + 1) p =
      if DecodeRune p = (RuneError, 1) then false
      else validLoop fuel (p.drop (DecodeRune p).2) := by
  have hlen : p.length ≠ 0 := by
    intro h
    exact hp (List.length_eq_zero.mp h)
  have hn : ¬ p.length < 1 := by omega
  rw [validLoop_unfold, if_neg hlen, DecodeRune_eq_decodeArith]
  generalize hf : (fun k => validLoop fuel (p.drop k)) = f
  have hfk : ∀ k, validLoop fuel (p.drop k) = f k := fun k => by rw [← hf]
  simp only [hfk]
  generalize byteAt p 0 = p0
  generalize byteAt p 1 = b1
  generalize byteAt p 2 = b2
  generalize byteAt p 3 = b3
  generalize p.length = n at hn
  by_cases hx : first p0 ≥ as
  · rcases first_cases p0 with h | h | h | h | h | h | h | h | h
    · have hdec : decodeArith n p0 b1 b2 b3 = (p0, 1) := by
        unfold decodeArith
        rw [if_neg hn, if_pos h.1]
      have hne : ¬ ((p0, 1) = (RuneError, 1)) := by
        intro heq
        have := congrArg Prod.fst heq
        simp only [RuneError] at this
        omega
      rw [if_pos h.1, hdec, if_neg hne]
    · have hdec : decodeArith n p0 b1 b2 b3 = (RuneError, 1) := by
        unfold decodeArith
        rw [if_neg hn, if_neg (by omega), if_neg (by omega), if_neg (by omega),
          if_neg (by omega)]
      rw [if_neg (by omega), if_pos h.2, hdec, if_pos rfl]
    · rw [h.2.2] at hx; exact absurd hx (by decide)
    · rw [h.2] at hx; exact absurd hx (by decide)
    · rw [h.2] at hx; exact absurd hx (by decide)
    · rw [h.2] at hx; exact absurd hx (by decide)
    · rw [h.2] at hx; exact absurd hx (by decide)
    · rw [h.2.2] at hx; exact absurd hx (by decide)
    · rw [h.2] at hx; exact absurd hx (by decide)
  · have hx' : first p0 < as := Nat.lt_of_not_ge hx
    have hfacts : 2 ≤ first p0 % 8 ∧ first p0 % 8 ≤ 4 ∧ first p0 ≠ xx ∧ ¬ p0 < 0x80 := by
      rcases first_cases p0 with h | h | h | h | h | h | h | h | h
      · rw [h.2] at hx; exact absurd (le_refl _) hx
      · rw [h.2] at hx; exact absurd (by decide) hx
      · rw [h.2.2]; exact ⟨by decide, by decide, by decide, by omega⟩
      · rw [h.2]; exact ⟨by decide, by decide, by decide, by omega⟩
      · rw [h.2]; exact ⟨by decide, by decide, by decide, by omega⟩
      · rw [h.2]; exact ⟨by decide, by decide, by decide, by omega⟩
      · rw [h.2]; exact ⟨by decide, by decide, by decide, by omega⟩
      · rw [h.2.2]; exact ⟨by decide, by decide, by decide, by omega⟩
      · rw [h.2]; exact ⟨by decide, by decide, by decide, by omega⟩
    rw [if_neg hfacts.2.2.2, if_neg hfacts.2.2.1,
      valid_case f n p0 b1 b2 b3 _ _ _ ⟨hfacts.1, hfacts.2.1⟩,
      decodeArith_sized n p0 b1 b2 b3 hn hx']
    simp only [decodeSized_error]

/-- On a non-empty input `DecodeRune` consumes between one and four bytes, and no more than
there are. -/
theorem DecodeRune_size (p : List Byte) (hp : p ≠ []) :
    1 ≤ (DecodeRune p).2 ∧ (DecodeRune p).2 ≤ 4 ∧ (DecodeRune p).2 ≤ p.length := by
  rcases DecodeRune_view p hp with ⟨pre, tl, r, hsplit, h1, h4, hdec, _, _⟩ | herr
  · have hd : DecodeRune p = (r, pre.length) := by rw [hsplit]; exact hdec tl
    rw [hd]
    refine ⟨h1, h4, ?_⟩
    rw [hsplit, List.length_append]
    exact Nat.le_add_right _ _
  · rw [herr]
    have : 1 ≤ p.length := by
      cases p with
      | nil => exact absurd rfl hp
      | cons a rest => simp
    exact ⟨le_refl _, by decide, this⟩

theorem drop_DecodeRune_length (p : List Byte) (hp : p ≠ []) :
    (p.drop (DecodeRune p).2).length < p.length := by
  have h := DecodeRune_size p hp
  rw [List.length_drop]
  omega

/-- More fuel than bytes changes nothing in the loop of `Valid`. -/
theorem validLoop_fuel (fuel1 fuel2 : Nat) (p : List Byte) (h1 : p.length ≤ fuel1)
    (h2 : p.length ≤ fuel2) : validLoop fuel1 p = validLoop fuel2 p := by
  induction fuel1 generalizing fuel2 p with
  | zero =>
    have hp : p = [] := List.length_eq_zero.mp (Nat.le_zero.mp h1)
    subst hp
    cases fuel2 <;> simp [validLoop]
  | succ fuel1 ih =>
    by_cases hp : p = []
    · subst hp
      cases fuel2 <;> simp [validLoop]
    · have hpos : 0 < p.length := List.length_pos.mpr hp
      obtain ⟨fuel2, rfl⟩ : ∃ k, fuel2 = k + 1 := ⟨fuel2 - 1, by omega⟩
      rw [validLoop_step fuel1 p hp, validLoop_step fuel2 p hp]
      have hdrop := drop_DecodeRune_length p hp
      rw [ih fuel2 (p.drop (DecodeRune p).2) (by omega) (by omega)]

theorem Valid_nil : Valid [] = true := rfl

/-- `Valid` on a non-empty input: false on a decoding error, else `Valid` of what follows the
first rune. -/
theorem Valid_step (p : List Byte) (hp : p ≠ []) :
    Valid p = if DecodeRune p = (RuneError, 1) then false else Valid (p.drop (DecodeRune p).2) := by
  have hpos : 0 < p.length := List.length_pos.mpr hp
  have hdrop := drop_DecodeRune_length p hp
  unfold Valid
  obtain ⟨k, hk⟩ : ∃ k, p.length = k + 1 := ⟨p.length - 1, by omega⟩
  rw [hk, validLoop_step k p hp]
  rw [validLoop_fuel k (p.drop (DecodeRune p).2).length _ (by omega) (le_refl _)]

/-- A well-formed encoding at the head of the input is skipped by `Valid`. -/
theorem Valid_append_pre (pre q : List Byte) (r : Nat) (h1 : 1 ≤ pre.length)
    (hdec : ∀ q, DecodeRune (pre ++ q) = (r, pre.length))
    (hne : (r, pre.length) ≠ (RuneError, 1)) : Valid (pre ++ q) = Valid q := by
  have hp : pre ++ q ≠ [] := by
    intro h
    rw [(List.append_eq_nil.mp h).1] at h1
    exact absurd h1 (by decide)
  rw [Valid_step _ hp, hdec q, if_neg hne]
  simp

theorem Valid_append_aux (n : Nat) (a b : List Byte) (hn : a.length ≤ n)
    (ha : Valid a = true) : Valid (a ++ b) = Valid b := by
  induction n generalizing a with
  | zero =>
    have hp : a = [] := List.length_eq_zero.mp (Nat.le_zero.mp hn)
    subst hp
    rfl
  | succ n ih =>
    by_cases hp : a = []
    · subst hp; rfl
    · rcases DecodeRune_view a hp with ⟨pre, tl, r, hsplit, h1, h4, hdec, _, hne⟩ | herr
      · subst hsplit
        have htl : Valid tl = true := by
          rw [← Valid_append_pre pre tl r h1 hdec hne]; exact ha
        rw [List.append_assoc, Valid_append_pre pre (tl ++ b) r h1 hdec hne]
        rw [List.length_append] at hn
        exact ih tl (by omega) htl
      · rw [Valid_step a hp, if_pos herr] at ha
        exact absurd ha (by decide)

/-- A valid prefix can be dropped: `Valid (a ++ b)` is `Valid b` when `a` is valid. -/
theorem Valid_append (a b : List Byte) (ha : Valid a = true) : Valid (a ++ b) = Valid b :=
  Valid_append_aux a.length a b (le_refl _) ha

/-- More fuel than bytes changes nothing in the decoding loop. -/
theorem decodeLoop_fuel (fuel1 fuel2 : Nat) (p : List Byte) (h1 : p.length ≤ fuel1)
    (h2 : p.length ≤ fuel2) : decodeLoop fuel1 p = decodeLoop fuel2 p := by
  induction fuel1 generalizing fuel2 p with
  | zero =>
    have hp : p = [] := List.length_eq_zero.mp (Nat.le_zero.mp h1)
    subst hp
    cases fuel2 <;> simp [decodeLoop]
  | succ fuel1 ih =>
    by_cases hp : p = []
    · subst hp
      cases fuel2 <;> simp [decodeLoop]
    · have hpos : 0 < p.length := List.length_pos.mpr hp
      have hlen : ¬ p.length = 0 := by omega
      obtain ⟨fuel2, rfl⟩ : ∃ k, fuel2 = k + 1 := ⟨fuel2 - 1, by omega⟩
      have hdrop := drop_DecodeRune_length p hp
      simp only [decodeLoop, hlen, if_false]
      rw [ih fuel2 (p.drop (DecodeRune p).2) (by omega) (by omega)]

theorem decodeString_nil : decodeString [] = [] := rfl

/-- The decoding of a non-empty input: the encoding of its first rune, then the decoding of
what follows it. -/
theorem decodeString_step (p : List Byte) (hp : p ≠ []) :
    decodeString p = EncodeRune (DecodeRune p).1 ++ decodeString (p.drop (DecodeRune p).2) := by
  have hpos : 0 < p.length := List.length_pos.mpr hp
  have hlen : ¬ p.length = 0 := by omega
  have hdrop := drop_DecodeRune_length p hp
  unfold decodeString
  obtain ⟨k, hk⟩ : ∃ k, p.length = k + 1 := ⟨p.length - 1, by omega⟩
  rw [hk]
  simp only [decodeLoop, hlen, if_false, List.flatMap_cons]
  rw [decodeLoop_fuel k (p.drop (DecodeRune p).2).length _ (by omega) (le_refl _)]

theorem byteAt_append (p q : List Byte) (i : Nat) (hi : i < p.length) :
    byteAt (p ++ q) i = byteAt p i := by
  unfold byteAt
  rw [List.getD_append _ _ _ _ hi]

theorem decodeArith_length (n m p0 b1 b2 b3 : Nat) (hn : 4 ≤ n) (hm : 4 ≤ m) :
    decodeArith n p0 b1 b2 b3 = decodeArith m p0 b1 b2 b3 := by
  have e1 : (n < 1) = (m < 1) := by
    apply propext; constructor <;> intro h <;> omega
  have e2 : (2 ≤ n) = (2 ≤ m) := by
    apply propext; constructor <;> intro h <;> omega
  have e3 : (3 ≤ n) = (3 ≤ m) := by
    apply propext; constructor <;> intro h <;> omega
  have e4 : (4 ≤ n) = (4 ≤ m) := by
    apply propext; constructor <;> intro h <;> omega
  unfold decodeArith
  simp only [e1, e2, e3, e4]

/-- With four bytes or more, what follows them does not change the result of `DecodeRune`. -/
theorem DecodeRune_append_four (p q : List Byte) (hp : 4 ≤ p.length) :
    DecodeRune (p ++ q) = DecodeRune p := by
  rw [DecodeRune_eq_decodeArith, DecodeRune_eq_decodeArith,
    byteAt_append p q 0 (by omega), byteAt_append p q 1 (by omega),
    byteAt_append p q 2 (by omega), byteAt_append p q 3 (by omega)]
  exact decodeArith_length _ _ _ _ _ _ (by rw [List.length_append]; omega) hp

/-- A well-formed encoding at the head of the input decodes to itself. -/
theorem decodeString_append_pre (pre q : List Byte) (r : Nat) (h1 : 1 ≤ pre.length)
    (hdec : ∀ q, DecodeRune (pre ++ q) = (r, pre.length)) (henc : EncodeRune r = pre) :
    decodeString (pre ++ q) = pre ++ decodeString q := by
  have hp : pre ++ q ≠ [] := by
    intro h
    rw [(List.append_eq_nil.mp h).1] at h1
    exact absurd h1 (by decide)
  rw [decodeString_step _ hp, hdec q]
  simp [henc]

theorem decodeString_valid_aux (n : Nat) (a q : List Byte) (hn : a.length ≤ n)
    (ha : Valid a = true) : decodeString (a ++ q) = a ++ decodeString q := by
  induction n generalizing a with
  | zero =>
    have hp : a = [] := List.length_eq_zero.mp (Nat.le_zero.mp hn)
    subst hp
    rfl
  | succ n ih =>
    by_cases hp : a = []
    · subst hp; rfl
    · rcases DecodeRune_view a hp with ⟨pre, tl, r, hsplit, h1, h4, hdec, henc, hne⟩ | herr
      · subst hsplit
        have htl : Valid tl = true := by
          rw [← Valid_append_pre pre tl r h1 hdec hne]; exact ha
        rw [List.length_append] at hn
        rw [List.append_assoc, decodeString_append_pre pre (tl ++ q) r h1 hdec henc,
          ih tl (by omega) htl, List.append_assoc]
      · rw [Valid_step a hp, if_pos herr] at ha
        exact absurd ha (by decide)

/-- Valid UTF-8 decodes to itself, whatever follows it. -/
theorem decodeString_valid (a q : List Byte) (ha : Valid a = true) :
    decodeString (a ++ q) = a ++ decodeString q :=
  decodeString_valid_aux a.length a q (le_refl _) ha

/-- The slow path loop of `Write`: the text it builds, followed by the decoding of the bytes
it leaves and of anything after them, is the decoding of the input and of anything after
it. -/
theorem writeLoop_decode (fuel : Nat) (rest builder q : List Byte) (hfuel : rest.length ≤ fuel) :
    (writeLoop fuel rest builder).1 ++ decodeString ((writeLoop fuel rest builder).2 ++ q) =
      builder ++ decodeString (rest ++ q) := by
  induction fuel generalizing rest builder with
  | zero =>
    have hp : rest = [] := List.length_eq_zero.mp (Nat.le_zero.mp hfuel)
    subst hp
    rfl
  | succ fuel ih =>
    by_cases hp : rest = []
    · subst hp
      rfl
    · have hlen : ¬ rest.length = 0 := fun h => hp (List.length_eq_zero.mp h)
      have hdrop := drop_DecodeRune_length rest hp
      rw [writeLoop]
      simp only [hlen, if_false]
      by_cases hbreak : (DecodeRune rest).1 = RuneError ∧ rest.length < UTFMax
      · simp only [hbreak, and_self, if_true]
      · simp only [hbreak, if_false]
        rw [ih (rest.drop (DecodeRune rest).2) _ (by omega)]
        have hpq : rest ++ q ≠ [] := fun h => hp (List.append_eq_nil.mp h).1
        have hsame : DecodeRune (rest ++ q) = DecodeRune rest := by
          rcases DecodeRune_view rest hp with ⟨pre, tl, r, hsplit, h1, h4, hdec, _, _⟩ | herr
          · subst hsplit
            rw [List.append_assoc, hdec, hdec]
          · apply DecodeRune_append_four
            by_contra hshort
            apply hbreak
            rw [herr]
            exact ⟨rfl, by simp only [UTFMax]; omega⟩
        have hsz := DecodeRune_size rest hp
        rw [decodeString_step (rest ++ q) hpq, hsame, List.drop_append_of_le_length hsz.2.2,
          List.append_assoc]

/-- The input `Write` works on is the buffer followed by the new data. -/
theorem fullData_eq (buffer data : List Byte) :
    (if buffer.length > 0 then buffer ++ data else data) = buffer ++ data := by
  cases buffer with
  | nil => rfl
  | cons a buffer => simp

/-- One `Write`: the returned string, followed by the decoding of the new buffer and of
anything written later, is the decoding of the old buffer, the data and anything written
later. -/
theorem Write_decode (d : UTF8Decoder) (data q : List Byte) :
    (d.Write data).2 ++ decodeString ((d.Write data).1.buffer ++ q) =
      decodeString (d.buffer ++ data ++ q) := by
  unfold UTF8Decoder.Write
  rw [fullData_eq]
  by_cases hempty : data.length = 0 ∧ d.buffer.length = 0
  · have h1 : data = [] := List.length_eq_zero.mp hempty.1
    have h2 : d.buffer = [] := List.length_eq_zero.mp hempty.2
    simp [h1, h2]
  · rw [if_neg hempty]
    by_cases hvalid : Valid (d.buffer ++ data) = true
    · rw [if_pos hvalid]
      simp only [List.nil_append]
      rw [decodeString_valid _ q hvalid]
    · rw [if_neg hvalid]
      have h := writeLoop_decode (d.buffer ++ data).length (d.buffer ++ data) [] q (le_refl _)
      simpa using h

/-- All the writes: the returned strings, followed by the decoding of the final buffer and
of anything written later, are the decoding of the first buffer, all the chunks and anything
written later. -/
theorem writeAll_decode (chunks : List (List Byte)) (d : UTF8Decoder) (q : List Byte) :
    (writeAll d chunks).2.flatten ++ decodeString ((writeAll d chunks).1.buffer ++ q) =
      decodeString (d.buffer ++ chunks.flatten ++ q) := by
  induction chunks generalizing d with
  | nil => simp [writeAll]
  | cons data chunks ih =>
    have hstep := Write_decode d data (chunks.flatten ++ q)
    have hrest := ih (d.Write data).1
    simp only [writeAll, List.flatten_cons, List.append_assoc] at hrest ⊢
    rw [hrest, hstep]
    simp only [List.append_assoc]

/-- C9 (as the code has it): the strings returned for the chunks of a byte sequence, written
in order to a new decoder, followed by the decoding of the bytes the decoder still holds in
its buffer, are the UTF-8 decoding of the whole sequence; the returned strings alone are that
decoding when the buffer ends empty. -/
theorem writeAll_decodeString (chunks : List (List Byte)) :
    (writeAll NewUTF8Decoder chunks).2.flatten
        ++ decodeString (writeAll NewUTF8Decoder chunks).1.buffer = decodeString chunks.flatten ∧
    ((writeAll NewUTF8Decoder chunks).1.buffer = [] →
      (writeAll NewUTF8Decoder chunks).2.flatten = decodeString chunks.flatten) := by
  have h := writeAll_decode chunks NewUTF8Decoder []
  have hnew : NewUTF8Decoder.buffer = [] := rfl
  rw [hnew, List.nil_append, List.append_nil, List.append_nil] at h
  refine ⟨h, fun hbuf => ?_⟩
  rw [hbuf, decodeString_nil, List.append_nil] at h
  exact h

/-- Witness of C9: the bytes E4 B8 AD 41 in the chunks E4 and B8 AD 41. -/
theorem writeAll_decodeString_witness :
    (writeAll NewUTF8Decoder [[0xE4], [0xB8, 0xAD, 0x41]]).2.flatten
      = decodeString [0xE4, 0xB8, 0xAD, 0x41] :=
  (writeAll_decodeString [[0xE4], [0xB8, 0xAD, 0x41]]).2 (by decide)

/-- C9 (counterexample): written alone, the byte E4 is kept in the buffer and the returned
string is empty, while the UTF-8 decoding of the one-byte sequence E4 is U+FFFD (EF BF BD). -/
theorem writeAll_not_decodeString :
    (writeAll NewUTF8Decoder [[0xE4]]).2.flatten = [] ∧
    decodeString [[0xE4]].flatten = [0xEF, 0xBF, 0xBD] ∧
    (writeAll NewUTF8Decoder [[0xE4]]).2.flatten ≠ decodeString [[0xE4]].flatten := by
  decide

theorem Valid_append_both (a b : List Byte) (ha : Valid a = true) (hb : Valid b = true) :
    Valid (a ++ b) = true := by
  rw [Valid_append a b ha]
  exact hb

/-- On a prefix of valid UTF-8 the slow path loop of `Write` moves whole characters from the
input to the builder: nothing is altered, the builder stays valid, and what is left continues
to valid UTF-8. -/
theorem writeLoop_valid (fuel : Nat) (rest builder q : List Byte) (hfuel : rest.length ≤ fuel)
    (hb : Valid builder = true) (hv : Valid (rest ++ q) = true) :
    (writeLoop fuel rest builder).1 ++ (writeLoop fuel rest builder).2 = builder ++ rest ∧
    Valid (writeLoop fuel rest builder).1 = true ∧
    Valid ((writeLoop fuel rest builder).2 ++ q) = true := by
  induction fuel generalizing rest builder with
  | zero =>
    have hp : rest = [] := List.length_eq_zero.mp (Nat.le_zero.mp hfuel)
    subst hp
    exact ⟨rfl, hb, hv⟩
  | succ fuel ih =>
    by_cases hp : rest = []
    · subst hp
      exact ⟨rfl, hb, hv⟩
    · have hlen : ¬ rest.length = 0 := fun h => hp (List.length_eq_zero.mp h)
      rw [writeLoop]
      simp only [hlen, if_false]
      by_cases hbreak : (DecodeRune rest).1 = RuneError ∧ rest.length < UTFMax
      · simp only [hbreak, and_self, if_true]
        exact ⟨trivial, hb, hv⟩
      · simp only [hbreak, if_false]
        rcases DecodeRune_view rest hp with ⟨pre, tl, r, hsplit, h1, h4, hdec, henc, hne⟩ | herr
        · subst hsplit
          have hpre : Valid pre = true := by
            have := Valid_append_pre pre [] r h1 hdec hne
            rw [List.append_nil] at this
            rw [this]
            rfl
          have htl : Valid (tl ++ q) = true := by
            rw [← Valid_append_pre pre (tl ++ q) r h1 hdec hne, ← List.append_assoc]
            exact hv
          rw [List.length_append] at hfuel
          rw [hdec tl]
          simp only [List.drop_left, henc]
          obtain ⟨e1, e2, e3⟩ := ih tl (builder ++ pre) (by omega)
            (Valid_append_both builder pre hb hpre) htl
          exact ⟨by rw [e1, List.append_assoc], e2, e3⟩
        · exfalso
          have hfour : 4 ≤ rest.length := by
            by_contra hshort
            apply hbreak
            rw [herr]
            exact ⟨rfl, by simp only [UTFMax]; omega⟩
          have hpq : rest ++ q ≠ [] := fun h => hp (List.append_eq_nil.mp h).1
          rw [Valid_step _ hpq, DecodeRune_append_four rest q hfour, if_pos herr] at hv
          exact absurd hv (by decide)

/-- One `Write` in a stream of valid UTF-8: the returned string and the new buffer are the old
buffer and the data, cut at a character boundary; the returned string is valid UTF-8; the new
buffer continues to valid UTF-8 and is empty or not valid on its own. -/
theorem Write_valid (d : UTF8Decoder) (data q : List Byte)
    (hv : Valid (d.buffer ++ data ++ q) = true) :
    (d.Write data).2 ++ (d.Write data).1.buffer = d.buffer ++ data ∧
    Valid (d.Write data).2 = true ∧
    Valid ((d.Write data).1.buffer ++ q) = true ∧
    ((d.Write data).1.buffer = [] ∨ Valid (d.Write data).1.buffer = false) := by
  unfold UTF8Decoder.Write
  rw [fullData_eq]
  by_cases hempty : data.length = 0 ∧ d.buffer.length = 0
  · have h1 : data = [] := List.length_eq_zero.mp hempty.1
    have h2 : d.buffer = [] := List.length_eq_zero.mp hempty.2
    rw [if_pos hempty]
    rw [h1, h2] at hv
    simp only [h1, h2, List.append_nil, List.nil_append]
    exact ⟨trivial, rfl, hv, Or.inl trivial⟩
  · rw [if_neg hempty]
    by_cases hvalid : Valid (d.buffer ++ data) = true
    · rw [if_pos hvalid]
      simp only [List.append_nil, List.nil_append]
      refine ⟨trivial, hvalid, ?_, Or.inl trivial⟩
      rw [← Valid_append (d.buffer ++ data) q hvalid]
      exact hv
    · rw [if_neg hvalid]
      rw [List.append_assoc] at hv
      have hloop := writeLoop_valid (d.buffer ++ data).length (d.buffer ++ data) [] q
        (le_refl _) rfl (by rw [List.append_assoc]; exact hv)
      obtain ⟨e1, e2, e3⟩ := hloop
      rw [List.nil_append] at e1
      refine ⟨e1, e2, e3, ?_⟩
      right
      by_contra hrem
      apply hvalid
      rw [← e1]
      exact Valid_append_both _ _ e2 (by simpa using hrem)

/-- All the writes of a stream of valid UTF-8. -/
theorem writeAll_valid (chunks : List (List Byte)) (d : UTF8Decoder)
    (hv : Valid (d.buffer ++ chunks.flatten) = true)
    (hd : d.buffer = [] ∨ Valid d.buffer = false) :
    (∀ out ∈ (writeAll d chunks).2, Valid out = true) ∧
    (writeAll d chunks).2.flatten ++ (writeAll d chunks).1.buffer = d.buffer ++ chunks.flatten ∧
    (writeAll d chunks).1.buffer = [] := by
  induction chunks generalizing d with
  | nil =>
    simp only [writeAll, List.flatten_nil, List.append_nil, List.nil_append] at hv ⊢
    refine ⟨fun out hout => absurd hout (List.not_mem_nil _), trivial, ?_⟩
    rcases hd with h | h
    · exact h
    · rw [h] at hv
      exact absurd hv (by decide)
  | cons data chunks ih =>
    simp only [List.flatten_cons, ← List.append_assoc] at hv
    obtain ⟨e1, e2, e3, e4⟩ := Write_valid d data chunks.flatten hv
    obtain ⟨f1, f2, f3⟩ := ih (d.Write data).1 e3 e4
    simp only [writeAll, List.flatten_cons]
    refine ⟨?_, ?_, f3⟩
    · intro out hout
      rcases List.mem_cons.mp hout with h | h
      · rw [h]; exact e2
      · exact f1 out h
    · rw [List.append_assoc, f2, ← List.append_assoc, e1, List.append_assoc]

/-- C10: when the chunks of a valid UTF-8 sequence are written in order to a new decoder, every
returned string is valid UTF-8 and the returned strings are, one after the other, the input
itself (so each consists of whole characters of the input and holds no U+FFFD that the input
does not hold); nothing stays in the buffer.  On a new decoder `Write([E4])` returns the empty
string, and the following `Write([B8, AD])` returns E4 B8 AD, the character U+4E2D. -/
theorem Write_valid_chunks (chunks : List (List Byte)) (hv : Valid chunks.flatten = true) :
    (∀ out ∈ (writeAll NewUTF8Decoder chunks).2, Valid out = true) ∧
    (writeAll NewUTF8Decoder chunks).2.flatten = chunks.flatten ∧
    (writeAll NewUTF8Decoder chunks).1.buffer = [] ∧
    (NewUTF8Decoder.Write [0xE4]).2 = [] ∧
    ((NewUTF8Decoder.Write [0xE4]).1.Write [0xB8, 0xAD]).2 = [0xE4, 0xB8, 0xAD] ∧
    EncodeRune 0x4E2D = [0xE4, 0xB8, 0xAD] ∧
    DecodeRune [0xE4, 0xB8, 0xAD] = (0x4E2D, 3) := by
  obtain ⟨h1, h2, h3⟩ := writeAll_valid chunks NewUTF8Decoder hv (Or.inl rfl)
  rw [h3, List.append_nil] at h2
  exact ⟨h1, h2, h3, by decide, by decide, by decide, by decide⟩

/-- Witness of C10: the five bytes of "a", U+4E2D and "b", cut inside the three-byte
character. -/
theorem Write_valid_chunks_witness :
    (writeAll NewUTF8Decoder [[0x61, 0xE4], [0xB8], [0xAD, 0x62]]).2
      = [[0x61], [], [0xE4, 0xB8, 0xAD, 0x62]] ∧
    (∀ out ∈ (writeAll NewUTF8Decoder [[0x61, 0xE4], [0xB8], [0xAD, 0x62]]).2,
      Valid out = true) :=
  ⟨by decide, (Write_valid_chunks [[0x61, 0xE4], [0xB8], [0xAD, 0x62]] (by decide)).1⟩

/-- The slow path loop of `Write` leaves fewer than four bytes. -/
theorem writeLoop_rest_length (fuel : Nat) (rest builder : List Byte)
    (hfuel : rest.length ≤ fuel) : (writeLoop fuel rest builder).2.length ≤ 3 := by
  induction fuel generalizing rest builder with
  | zero =>
    have hp : rest = [] := List.length_eq_zero.mp (Nat.le_zero.mp hfuel)
    subst hp
    exact Nat.zero_le _
  | succ fuel ih =>
    by_cases hp : rest = []
    · subst hp
      exact Nat.zero_le _
    · have hlen : ¬ rest.length = 0 := fun h => hp (List.length_eq_zero.mp h)
      have hdrop := drop_DecodeRune_length rest hp
      rw [writeLoop]
      simp only [hlen, if_false]
      by_cases hbreak : (DecodeRune rest).1 = RuneError ∧ rest.length < UTFMax
      · simp only [hbreak, and_self, if_true]
        have := hbreak.2
        simp only [UTFMax] at this
        omega
      · simp only [hbreak, if_false]
        exact ih _ _ (by omega)

/-- C11: after every call of `Write`, whatever the chunk and whatever the decoder held before,
the buffer holds at most three bytes; in particular after every call on a decoder reached
from `NewUTF8Decoder` by earlier writes. -/
theorem Write_buffer_length (d : UTF8Decoder) (data : List Byte) (chunks : List (List Byte)) :
    (d.Write data).1.buffer.length ≤ 3 ∧
    ((writeAll NewUTF8Decoder chunks).1.Write data).1.buffer.length ≤ 3 := by
  have hgen : ∀ d : UTF8Decoder, (d.Write data).1.buffer.length ≤ 3 := by
    intro d
    unfold UTF8Decoder.Write
    rw [fullData_eq]
    by_cases hempty : data.length = 0 ∧ d.buffer.length = 0
    · rw [if_pos hempty, hempty.2]
      exact Nat.zero_le _
    · rw [if_neg hempty]
      by_cases hvalid : Valid (d.buffer ++ data) = true
      · rw [if_pos hvalid]
        exact Nat.zero_le _
      · rw [if_neg hvalid]
        exact writeLoop_rest_length _ _ _ (le_refl _)
  exact ⟨hgen d, hgen _⟩

/-! ## Theorems: PTY core -/

theorem normalizeCopyErr_eq_none (copyErr : Option GoError) :
    normalizeCopyErr copyErr = none ↔ relayEndedNormally copyErr := by
  unfold normalizeCopyErr relayEndedNormally
  cases copyErr with
  | none => simp
  | some err =>
    by_cases h : (err.isEIO || containsStr err.text "input/output error") = true
    · simp only [h, if_true, true_iff]
      right
      exact ⟨err, rfl, by simpa using h⟩
    · simp only [h, if_false]
      constructor
      · intro hc; exact Option.noConfusion hc
      · rintro (hc | ⟨e, he, hor⟩)
        · exact Option.noConfusion hc
        · cases he
          exact absurd (by simpa using hor) h

theorem normalizeWaitErr_eq_none (waitErr : Option GoError) :
    normalizeWaitErr waitErr = none ↔ waitEndedNormally waitErr := by
  unfold normalizeWaitErr waitEndedNormally
  cases waitErr with
  | none => simp
  | some err =>
    by_cases h : (containsStr err.text "already finished" ||
        containsStr err.text "Wait was already called" ||
        containsStr err.text "no child processes") = true
    · simp only [h, if_true, true_iff]
      right
      exact ⟨err, rfl, by simpa [or_assoc] using h⟩
    · simp only [h, if_false]
      constructor
      · intro hc; exact Option.noConfusion hc
      · rintro (hc | ⟨e, he, hor⟩)
        · exact Option.noConfusion hc
        · cases he
          exact absurd (by simpa [or_assoc] using hor) h

/-- C12: after the PTY was started, `SpawnTTY` returns nil iff the relay error is nil, EIO or
an "input/output error" and the `Wait` error is nil or mentions "already finished", "Wait was
already called" or "no child processes"; any other relay error is returned wrapped as a pty
io error, whatever `Wait` returned; and when the relay ended normally any other `Wait` error
is returned as it is. -/
theorem SpawnTTY_result (sid : String) (env : SpawnEnv) (hstart : env.startErr = none) :
    ((SpawnTTY sid env).2 = none ↔
      relayEndedNormally env.copyErr ∧ waitEndedNormally env.waitErr) ∧
    (∀ err, env.copyErr = some err → ¬ relayEndedNormally env.copyErr →
      (SpawnTTY sid env).2 = some (SpawnError.ptyIoError sid err)) ∧
    (∀ err, relayEndedNormally env.copyErr → env.waitErr = some err →
      ¬ waitEndedNormally env.waitErr → (SpawnTTY sid env).2 = some (SpawnError.wait err)) := by
  have hres : (SpawnTTY sid env).2 =
      match normalizeCopyErr env.copyErr with
      | some err => some (SpawnError.ptyIoError sid err)
      | none => (normalizeWaitErr env.waitErr).map SpawnError.wait := by
    simp only [SpawnTTY, hstart]
  rw [hres]
  refine ⟨?_, ?_, ?_⟩
  · rw [← normalizeCopyErr_eq_none, ← normalizeWaitErr_eq_none]
    cases hc : normalizeCopyErr env.copyErr with
    | some e => simp
    | none =>
      cases hw : normalizeWaitErr env.waitErr with
      | some e => simp
      | none => simp
  · intro err hcopy hnot
    rw [← normalizeCopyErr_eq_none] at hnot
    have hkeep : normalizeCopyErr env.copyErr = some err := by
      rw [hcopy] at hnot ⊢
      unfold normalizeCopyErr at hnot ⊢
      simp only at hnot ⊢
      split_ifs at hnot ⊢ with h
      · exact absurd rfl hnot
      · rfl
    rw [hkeep]
  · intro err hrelay hwait hnot
    rw [← normalizeCopyErr_eq_none] at hrelay
    rw [← normalizeWaitErr_eq_none] at hnot
    have hkeep : normalizeWaitErr env.waitErr = some err := by
      rw [hwait] at hnot ⊢
      unfold normalizeWaitErr at hnot ⊢
      simp only at hnot ⊢
      split_ifs at hnot ⊢ with h
      · exact absurd rfl hnot
      · rfl
    rw [hrelay, hkeep]
    rfl

/-- Witness of C12: the relay ends with EIO and `Wait` reports "wait: no child processes"
(nil is returned); the relay ends with a broken pipe (returned wrapped, although `Wait` failed
too); the relay ends with EIO and `Wait` reports "exit status 1" (returned as it is). -/
theorem SpawnTTY_result_witness :
    (SpawnTTY "ab12cd34" ⟨none, 7, some ⟨"read /dev/ptmx: input/output error", true⟩,
      some ⟨"wait: no child processes", false⟩, false⟩).2 = none ∧
    (SpawnTTY "ab12cd34" ⟨none, 7, some ⟨"write: broken pipe", false⟩,
      some ⟨"exit status 1", false⟩, false⟩).2
        = some (SpawnError.ptyIoError "ab12cd34" ⟨"write: broken pipe", false⟩) ∧
    (SpawnTTY "ab12cd34" ⟨none, 7, some ⟨"read /dev/ptmx: input/output error", true⟩,
      some ⟨"exit status 1", false⟩, false⟩).2 = some (SpawnError.wait ⟨"exit status 1", false⟩) :=
  ⟨(SpawnTTY_result "ab12cd34" ⟨none, 7, some ⟨"read /dev/ptmx: input/output error", true⟩,
      some ⟨"wait: no child processes", false⟩, false⟩ rfl).1.mpr
      ⟨Or.inr ⟨_, rfl, Or.inl rfl⟩, Or.inr ⟨_, rfl, Or.inr (Or.inr (by decide))⟩⟩,
   (SpawnTTY_result "ab12cd34" ⟨none, 7, some ⟨"write: broken pipe", false⟩,
      some ⟨"exit status 1", false⟩, false⟩ rfl).2.1 _ rfl
      (by rw [← normalizeCopyErr_eq_none]; decide),
   (SpawnTTY_result "ab12cd34" ⟨none, 7, some ⟨"read /dev/ptmx: input/output error", true⟩,
      some ⟨"exit status 1", false⟩, false⟩ rfl).2.2 _ (Or.inr ⟨_, rfl, Or.inl rfl⟩) rfl
      (by rw [← normalizeWaitErr_eq_none]; decide)⟩

/-- C13: on a run of `SpawnTTY` in which the PTY was started, by the time it returns `Kill`
has been called on the shell process and `Wait` has been called on it, the first `Wait`
before any deferred call: the calls are the start, the output relay, `Wait`, `close(done)`,
`Kill`, `Wait` again, and the close of the PTY master unless the watchdog has closed it. -/
theorem SpawnTTY_reaps (sid : String) (env : SpawnEnv) (hstart : env.startErr = none) :
    TTYAction.kill ∈ (SpawnTTY sid env).1 ∧
    TTYAction.wait ∈ (SpawnTTY sid env).1 ∧
    1 ≤ (SpawnTTY sid env).1.count TTYAction.wait ∧
    (SpawnTTY sid env).1 =
      [TTYAction.ptyStart true, TTYAction.relayOutput, TTYAction.wait, TTYAction.closeDone,
        TTYAction.kill, TTYAction.wait] ++
        (if env.watchdogClosed then [] else [TTYAction.closePTY]) := by
  have htrace : (SpawnTTY sid env).1 =
      [TTYAction.ptyStart true, TTYAction.relayOutput, TTYAction.wait, TTYAction.closeDone,
        TTYAction.kill, TTYAction.wait] ++
        (if env.watchdogClosed then [] else [TTYAction.closePTY]) := by
    simp [SpawnTTY, hstart]
  rw [htrace]
  refine ⟨by simp, by simp, ?_, rfl⟩
  rw [List.count_append]
  exact Nat.le_trans (by decide) (Nat.le_add_right _ _)

/-- Witness of C13: a session whose relay ends with EIO after the watchdog closed the PTY. -/
theorem SpawnTTY_reaps_witness :
    (SpawnTTY "ab12cd34" ⟨none, 7, some ⟨"read /dev/ptmx: input/output error", true⟩, none,
      true⟩).1 =
      [TTYAction.ptyStart true, TTYAction.relayOutput, TTYAction.wait, TTYAction.closeDone,
        TTYAction.kill, TTYAction.wait] :=
  ((SpawnTTY_reaps "ab12cd34" ⟨none, 7, some ⟨"read /dev/ptmx: input/output error", true⟩,
    none, true⟩ rfl).2.2.2).trans (by decide)

/-! ## Theorems: shell resolver -/

/-- The first element that passes a test: nothing before it passes. -/
theorem find?_first {α : Type} (f : α → Bool) (before after : List α) (p : α)
    (hbefore : ∀ q ∈ before, f q = false) (hp : f p = true) :
    (before ++ p :: after).find? f = some p := by
  induction before with
  | nil => simp [List.find?, hp]
  | cons q before ih =>
    have hq : f q = false := hbefore q (List.mem_cons_self _ _)
    simp only [List.cons_append, List.find?, hq]
    exact ih (fun r hr => hbefore r (List.mem_cons_of_mem _ hr))

theorem find?_none_of_all_false {α : Type} (f : α → Bool) (l : List α)
    (h : ∀ q ∈ l, f q = false) : l.find? f = none := by
  rw [List.find?_eq_none]
  intro q hq
  rw [h q hq]
  exact Bool.false_ne_true

/-- C14: `GetShell` returns the first executable path of the preferred list, whatever `$SHELL`
and the shells file contain; and when no preferred path is executable and `$SHELL` is
non-empty and executable, it returns the value of `$SHELL`. -/
theorem GetShell_preferred_then_env (preferred fallback : List String)
    (stat : String → Option FileInfo) (shellEnv : String) (shellsFile : Option String) :
    (∀ before p after, preferred = before ++ p :: after →
      (∀ q ∈ before, isExecutable stat q = false) → isExecutable stat p = true →
      GetShell preferred fallback stat shellEnv shellsFile = p) ∧
    ((∀ q ∈ preferred, isExecutable stat q = false) → shellEnv ≠ "" →
      isExecutable stat shellEnv = true →
      GetShell preferred fallback stat shellEnv shellsFile = shellEnv) := by
  constructor
  · intro before p after hsplit hbefore hp
    have hfind := find?_first (fun q => isExecutable stat q) before after p hbefore hp
    rw [← hsplit] at hfind
    simp only [GetShell, hfind]
  · intro hnone hne hexec
    have hfind := find?_none_of_all_false (fun q => isExecutable stat q) preferred hnone
    simp only [GetShell, hfind]
    rw [if_pos ⟨hne, hexec⟩]

/-- Witness of C14: only `/bin/zsh` of the preferred paths is executable, `$SHELL` is
`/bin/bash`; and no preferred path is executable, `$SHELL` is the executable `/opt/fish`. -/
theorem GetShell_preferred_then_env_witness :
    GetShell preferredShellPaths fallbackShellPaths (exampleStat ["/bin/zsh", "/bin/bash"])
      "/bin/bash" (some "/bin/bash\n") = "/bin/zsh" ∧
    GetShell preferredShellPaths fallbackShellPaths (exampleStat ["/opt/fish", "/bin/bash"])
      "/opt/fish" (some "/bin/bash\n") = "/opt/fish" :=
  ⟨(GetShell_preferred_then_env preferredShellPaths fallbackShellPaths
      (exampleStat ["/bin/zsh", "/bin/bash"]) "/bin/bash" (some "/bin/bash\n")).1
      ["/usr/bin/zsh"] "/bin/zsh" ["/usr/local/bin/zsh", "/opt/homebrew/bin/zsh"] rfl
      (by decide) (by decide),
   (GetShell_preferred_then_env preferredShellPaths fallbackShellPaths
      (exampleStat ["/opt/fish", "/bin/bash"]) "/opt/fish" (some "/bin/bash\n")).2
      (by decide) (by decide) (by decide)⟩

theorem foldl_readShellsStep (lines : List (List Char)) (shells : List String) :
    lines.foldl readShellsStep shells =
      shells ++ (((lines.map TrimSpace).filter
        (fun line => decide (line ≠ []) && decide (line.head? ≠ some '#'))).map String.mk) := by
  induction lines generalizing shells with
  | nil => simp
  | cons line lines ih =>
    rw [List.foldl_cons, ih]
    by_cases hskip : TrimSpace line = [] ∨ (TrimSpace line).head? = some '#'
    · have hdrop : (decide (TrimSpace line ≠ []) && decide ((TrimSpace line).head? ≠ some '#'))
          = false := by
        rcases hskip with h | h <;> simp [h]
      simp only [readShellsStep, hskip, if_true, List.map_cons, List.filter_cons, hdrop]
      rfl
    · have hkeep : (decide (TrimSpace line ≠ []) && decide ((TrimSpace line).head? ≠ some '#'))
          = true := by
        simp only [not_or] at hskip
        simp [hskip.1, hskip.2]
      simp only [readShellsStep, hskip, if_false, List.map_cons, List.filter_cons, hkeep,
        if_true, List.append_assoc, List.singleton_append]

/-- The entries `readShellsFile` returns are those of the specification. -/
theorem readShellsFile_some (data : String) : readShellsFile (some data) = shellEntries data := by
  unfold readShellsFile shellEntries
  simp only [foldl_readShellsStep, List.nil_append]

/-- C15: when no preferred path is executable, `$SHELL` is empty or not executable, and the
shells file yields at least one entry (the entries being its lines trimmed, without the blank
lines and the lines starting with `#`, in order), `GetShell` returns the first preferred path
that is listed and executable, else the first fallback path that is listed and executable,
else the first listed entry that is executable, else what the fallback list gives.  No
preferred path can be executable here, so the first of these never decides. -/
theorem GetShell_shellsFile (preferred fallback : List String)
    (stat : String → Option FileInfo) (shellEnv data : String)
    (hpref : ∀ q ∈ preferred, isExecutable stat q = false)
    (henv : shellEnv = "" ∨ isExecutable stat shellEnv = false)
    (hentries : shellEntries data ≠ []) :
    readShellsFile (some data) = shellEntries data ∧
    GetShell preferred fallback stat shellEnv (some data) =
      (match preferred.find?
          (fun p => containsShell (shellEntries data) p && isExecutable stat p) with
      | some p => p
      | none =>
        match fallback.find?
          (fun p => containsShell (shellEntries data) p && isExecutable stat p) with
        | some p => p
        | none =>
          match (shellEntries data).find? (fun p => isExecutable stat p) with
          | some p => p
          | none =>
            match fallback.find? (fun p => isExecutable stat p) with
            | some p => p
            | none => "sh") ∧
    preferred.find? (fun p => containsShell (shellEntries data) p && isExecutable stat p)
      = none := by
  have hfind := find?_none_of_all_false (fun q => isExecutable stat q) preferred hpref
  have hlisted : preferred.find?
      (fun p => containsShell (shellEntries data) p && isExecutable stat p) = none :=
    find?_none_of_all_false _ preferred (fun q hq => by simp [hpref q hq])
  have henv' : ¬ (shellEnv ≠ "" ∧ isExecutable stat shellEnv = true) := by
    rintro ⟨h1, h2⟩
    rcases henv with h | h
    · exact h1 h
    · rw [h] at h2
      exact Bool.false_ne_true h2
  have hlen : (shellEntries data).length > 0 := List.length_pos.mpr hentries
  refine ⟨readShellsFile_some data, ?_, hlisted⟩
  simp only [GetShell, hfind, henv', if_false, readShellsFile_some, hlen, if_true, hlisted]
  cases fallback.find? (fun p => containsShell (shellEntries data) p && isExecutable stat p) with
  | some p => rfl
  | none =>
    cases (shellEntries data).find? (fun p => isExecutable stat p) with
    | some p => rfl
    | none => rfl

/-- Witness of C15: the shells file of the test (a comment, bash, zsh) with `zsh` not
executable: the listed and executable fallback path is returned; and a file that lists only
`/opt/fish`, executable: the first executable entry is returned. -/
theorem GetShell_shellsFile_witness :
    GetShell ["/t/zsh"] ["/t/bash"] (exampleStat ["/t/bash"]) ""
      (some "# comment\n/t/bash\n/t/zsh\n") = "/t/bash" ∧
    GetShell preferredShellPaths fallbackShellPaths (exampleStat ["/opt/fish", "/bin/sh"]) ""
      (some " /opt/nothing\n\t/opt/fish \n") = "/opt/fish" :=
  ⟨((GetShell_shellsFile ["/t/zsh"] ["/t/bash"] (exampleStat ["/t/bash"]) ""
      "# comment\n/t/bash\n/t/zsh\n" (by decide) (Or.inl rfl) (by decide)).2.1).trans
      (by decide),
   ((GetShell_shellsFile preferredShellPaths fallbackShellPaths
      (exampleStat ["/opt/fish", "/bin/sh"]) "" " /opt/nothing\n\t/opt/fish \n" (by decide)
      (Or.inl rfl) (by decide)).2.1).trans (by decide)⟩

/-- C16: when no preferred path is executable, `$SHELL` is empty or not executable, and the
shells file is unreadable or lists no executable entry, `GetShell` returns the first
executable path of the fallback list `/usr/bin/bash`, `/bin/bash`, `/bin/sh` (`/bin/bash`
when it is the only executable one), and it returns the literal `sh` exactly when no fallback
path is executable. -/
theorem GetShell_fallback (preferred : List String) (stat : String → Option FileInfo)
    (shellEnv : String) (shellsFile : Option String)
    (hpref : ∀ q ∈ preferred, isExecutable stat q = false)
    (henv : shellEnv = "" ∨ isExecutable stat shellEnv = false)
    (hfile : shellsFile = none ∨ ∀ q ∈ readShellsFile shellsFile, isExecutable stat q = false) :
    GetShell preferred fallbackShellPaths stat shellEnv shellsFile =
      (match fallbackShellPaths.find? (fun p => isExecutable stat p) with
      | some p => p
      | none => "sh") ∧
    (isExecutable stat "/usr/bin/bash" = false → isExecutable stat "/bin/bash" = true →
      GetShell preferred fallbackShellPaths stat shellEnv shellsFile = "/bin/bash") ∧
    (GetShell preferred fallbackShellPaths stat shellEnv shellsFile = "sh" ↔
      ∀ q ∈ fallbackShellPaths, isExecutable stat q = false) := by
  have hfind := find?_none_of_all_false (fun q => isExecutable stat q) preferred hpref
  have henv' : ¬ (shellEnv ≠ "" ∧ isExecutable stat shellEnv = true) := by
    rintro ⟨h1, h2⟩
    rcases henv with h | h
    · exact h1 h
    · rw [h] at h2
      exact Bool.false_ne_true h2
  have hnoexec : ∀ q ∈ readShellsFile shellsFile, isExecutable stat q = false := by
    rcases hfile with h | h
    · rw [h]
      intro q hq
      exact absurd hq (List.not_mem_nil _)
    · exact h
  have hl1 : preferred.find?
      (fun p => containsShell (readShellsFile shellsFile) p && isExecutable stat p) = none :=
    find?_none_of_all_false _ preferred (fun q hq => by simp [hpref q hq])
  have hl2 : fallbackShellPaths.find?
      (fun p => containsShell (readShellsFile shellsFile) p && isExecutable stat p) = none := by
    apply find?_none_of_all_false
    intro q _
    by_cases hc : containsShell (readShellsFile shellsFile) q = true
    · have hmem : q ∈ readShellsFile shellsFile := by
        simpa [containsShell] using hc
      simp [hnoexec q hmem]
    · simp [hc]
  have hl3 : (readShellsFile shellsFile).find? (fun p => isExecutable stat p) = none :=
    find?_none_of_all_false _ _ hnoexec
  have hmain : GetShell preferred fallbackShellPaths stat shellEnv shellsFile =
      (match fallbackShellPaths.find? (fun p => isExecutable stat p) with
      | some p => p
      | none => "sh") := by
    simp only [GetShell, hfind, henv', if_false, hl1, hl2, hl3]
    split_ifs <;> rfl
  refine ⟨hmain, ?_, ?_⟩
  · intro h1 h2
    rw [hmain]
    simp [fallbackShellPaths, List.find?, h1, h2]
  · rw [hmain]
    constructor
    · intro hsh q hq
      cases hf : fallbackShellPaths.find? (fun p => isExecutable stat p) with
      | none => exact (by simpa using (List.find?_eq_none.mp hf) q hq)
      | some p =>
        rw [hf] at hsh
        simp only at hsh
        have hmem := List.mem_of_find?_eq_some hf
        rw [hsh] at hmem
        exact absurd hmem (by decide)
    · intro hall
      rw [find?_none_of_all_false _ _ hall]

/-- Witness of C16: the shells file unreadable, `$SHELL` unset, of all the paths only
`/bin/bash` executable; and nothing executable at all, with a shells file that lists
`/bin/sh`. -/
theorem GetShell_fallback_witness :
    GetShell preferredShellPaths fallbackShellPaths (exampleStat ["/bin/bash"]) "" none
      = "/bin/bash" ∧
    GetShell preferredShellPaths fallbackShellPaths (exampleStat []) "/bin/zsh"
      (some "/bin/sh\n") = "sh" :=
  ⟨(GetShell_fallback preferredShellPaths (exampleStat ["/bin/bash"]) "" none (by decide)
      (Or.inl rfl) (Or.inl rfl)).2.1 (by decide) (by decide),
   (GetShell_fallback preferredShellPaths (exampleStat []) "/bin/zsh" (some "/bin/sh\n")
      (by decide) (Or.inr (by decide)) (Or.inr (by decide))).2.2.mpr (by decide)⟩

/-! ## Theorems: desktop supervisor -/

/-- The body of the inner loop on the record at index `i` and a later record. -/
theorem swapStep_split (pre done todo : List Process) (x y : Process) :
    swapStep (pre ++ x :: (done ++ y :: todo)) pre.length (pre.length + 1 + done.length) =
      if x.Priority > y.Priority then pre ++ y :: (done ++ x :: todo)
      else pre ++ x :: (done ++ y :: todo) := by
  have hi : (pre ++ x :: (done ++ y :: todo))[pre.length]? = some x := by
    rw [List.getElem?_append_right (le_refl _)]
    simp
  have hj : (pre ++ x :: (done ++ y :: todo))[pre.length + 1 + done.length]? = some y := by
    rw [List.getElem?_append_right (by omega)]
    have e1 : pre.length + 1 + done.length - pre.length = done.length + 1 := by omega
    rw [e1, List.getElem?_cons_succ, List.getElem?_append_right (le_refl _)]
    simp
  unfold swapStep
  rw [hi, hj]
  simp only
  split_ifs with h
  · have e1 : pre.length + 1 + done.length - pre.length = done.length + 1 := by omega
    rw [List.set_append, if_neg (by omega), Nat.sub_self, List.set_cons_zero, List.set_append,
      if_neg (by omega), e1, List.set_cons_succ, List.set_append, if_neg (by omega),
      Nat.sub_self, List.set_cons_zero]
  · rfl

/-- The inner loop from index `j` on: the records before `i` and those between `i` and `j`
stay, and `processes[i]` with the records from `j` on is exchanged as `exchange` says. -/
theorem innerLoop_from (todo : List Process) (pre done : List Process) (x : Process) :
    (List.range' (pre.length + 1 + done.length) todo.length).foldl
        (fun processes j => swapStep processes pre.length j) (pre ++ x :: (done ++ todo)) =
      pre ++ (exchange x todo).1 :: (done ++ (exchange x todo).2) := by
  induction todo generalizing x done with
  | nil => simp [exchange]
  | cons y todo ih =>
    rw [List.length_cons, List.range'_succ, List.foldl_cons, swapStep_split]
    have hlen : pre.length + 1 + done.length + 1 = pre.length + 1 + (done ++ [y]).length := by
      simp; omega
    have hlen' : pre.length + 1 + done.length + 1 = pre.length + 1 + (done ++ [x]).length := by
      simp; omega
    by_cases h : x.Priority > y.Priority
    · have hre : pre ++ y :: (done ++ x :: todo) = pre ++ y :: ((done ++ [x]) ++ todo) := by
        simp
      rw [if_pos h, hre, hlen', ih (done ++ [x]) y]
      simp [exchange, h]
    · have hre : pre ++ x :: (done ++ y :: todo) = pre ++ x :: ((done ++ [y]) ++ todo) := by
        simp
      rw [if_neg h, hre, hlen, ih (done ++ [y]) x]
      simp [exchange, h]

/-- One run of the inner loop, on the records before index `i`, `processes[i]` and the records
after it. -/
theorem innerLoop_split (pre todo : List Process) (x : Process) :
    innerLoop (pre ++ x :: todo) pre.length =
      pre ++ (exchange x todo).1 :: (exchange x todo).2 := by
  have h := innerLoop_from todo pre [] x
  simp only [List.length_nil, Nat.add_zero, List.nil_append] at h
  unfold innerLoop
  have hlen : (pre ++ x :: todo).length - (pre.length + 1) = todo.length := by
    simp only [List.length_append, List.length_cons]
    omega
  rw [hlen]
  exact h

theorem exchange_perm (l : List Process) (x : Process) :
    ((exchange x l).1 :: (exchange x l).2).Perm (x :: l) := by
  induction l generalizing x with
  | nil => exact List.Perm.refl _
  | cons y l ih =>
    by_cases h : x.Priority > y.Priority
    · simp only [exchange, h, if_true]
      exact (List.Perm.swap _ _ _).trans ((ih y).cons x)
    · simp only [exchange, h, if_false]
      exact ((List.Perm.swap _ _ _).trans ((ih x).cons y)).trans (List.Perm.swap x y l)

theorem exchange_length (l : List Process) (x : Process) :
    (exchange x l).2.length = l.length := by
  induction l generalizing x with
  | nil => rfl
  | cons y l ih =>
    by_cases h : x.Priority > y.Priority
    · simp only [exchange, h, if_true, List.length_cons, ih]
    · simp only [exchange, h, if_false, List.length_cons, ih]

/-- The record the inner loop leaves at index `i` has the least `Priority` of all. -/
theorem exchange_least (l : List Process) (x : Process) :
    (exchange x l).1.Priority ≤ x.Priority ∧
      ∀ b ∈ (exchange x l).2, (exchange x l).1.Priority ≤ b.Priority := by
  induction l generalizing x with
  | nil => exact ⟨le_refl _, fun b hb => absurd hb (List.not_mem_nil _)⟩
  | cons y l ih =>
    by_cases h : x.Priority > y.Priority
    · simp only [exchange, h, if_true]
      obtain ⟨h1, h2⟩ := ih y
      refine ⟨le_trans h1 (le_of_lt h), fun b hb => ?_⟩
      rcases List.mem_cons.mp hb with hbx | hb
      · rw [hbx]; exact le_trans h1 (le_of_lt h)
      · exact h2 b hb
    · simp only [exchange, h, if_false]
      obtain ⟨h1, h2⟩ := ih x
      refine ⟨h1, fun b hb => ?_⟩
      rcases List.mem_cons.mp hb with hby | hb
      · rw [hby]; exact le_trans h1 (not_lt.mp h)
      · exact h2 b hb

/-- The outer loop, `k` iterations from index `pre.length` on: the records before the index
stay sorted and below the others, and no record is lost or doubled. -/
theorem outerLoop_from (k : Nat) (pre rest : List Process) (hk : k ≤ rest.length)
    (hsorted : pre.Pairwise (fun a b => a.Priority ≤ b.Priority))
    (hbelow : ∀ a ∈ pre, ∀ b ∈ rest, a.Priority ≤ b.Priority) :
    ∃ pre' rest', (List.range' pre.length k).foldl innerLoop (pre ++ rest) = pre' ++ rest' ∧
      pre'.Pairwise (fun a b => a.Priority ≤ b.Priority) ∧
      (∀ a ∈ pre', ∀ b ∈ rest', a.Priority ≤ b.Priority) ∧
      (pre' ++ rest').Perm (pre ++ rest) ∧ rest'.length = rest.length - k := by
  induction k generalizing pre rest with
  | zero => exact ⟨pre, rest, rfl, hsorted, hbelow, List.Perm.refl _, rfl⟩
  | succ k ih =>
    obtain _ | ⟨x, todo⟩ := rest
    · exact absurd hk (by simp)
    · have hperm := exchange_perm todo x
      have hleast := exchange_least todo x
      have hlen := exchange_length todo x
      have hmem : ∀ b, b ∈ (exchange x todo).1 :: (exchange x todo).2 → b ∈ x :: todo :=
        fun b hb => hperm.subset hb
      have hsorted' : (pre ++ [(exchange x todo).1]).Pairwise
          (fun a b => a.Priority ≤ b.Priority) := by
        rw [List.pairwise_append]
        refine ⟨hsorted, List.pairwise_singleton _ _, fun a ha b hb => ?_⟩
        rw [List.mem_singleton.mp hb]
        exact hbelow a ha _ (hmem _ (List.mem_cons_self _ _))
      have hbelow' : ∀ a ∈ pre ++ [(exchange x todo).1], ∀ b ∈ (exchange x todo).2,
          a.Priority ≤ b.Priority := by
        intro a ha b hb
        rcases List.mem_append.mp ha with ha | ha
        · exact hbelow a ha b (hmem b (List.mem_cons_of_mem _ hb))
        · rw [List.mem_singleton.mp ha]
          exact hleast.2 b hb
      have hk' : k ≤ (exchange x todo).2.length := by
        rw [hlen]
        simp only [List.length_cons] at hk
        omega
      obtain ⟨pre', rest', h1, h2, h3, h4, h5⟩ :=
        ih (pre ++ [(exchange x todo).1]) (exchange x todo).2 hk' hsorted' hbelow'
      refine ⟨pre', rest', ?_, h2, h3, ?_, ?_⟩
      · rw [List.range'_succ, List.foldl_cons, innerLoop_split]
        have hre : pre ++ (exchange x todo).1 :: (exchange x todo).2
            = (pre ++ [(exchange x todo).1]) ++ (exchange x todo).2 := by simp
        have hl : pre.length + 1 = (pre ++ [(exchange x todo).1]).length := by simp
        rw [hre, hl]
        exact h1
      · refine h4.trans ?_
        rw [List.append_assoc]
        exact List.Perm.append_left pre hperm
      · rw [h5, hlen]
        simp only [List.length_cons]
        omega

/-- `getProcessesByPriority` returns the records it ranged over, each once, in an order of
non-decreasing `Priority`. -/
theorem getProcessesByPriority_perm_sorted (ranged : List Process) :
    (getProcessesByPriority ranged).Perm ranged ∧
    (getProcessesByPriority ranged).Pairwise (fun a b => a.Priority ≤ b.Priority) := by
  obtain ⟨pre', rest', h1, h2, h3, h4, h5⟩ :=
    outerLoop_from (ranged.length - 1) [] ranged (Nat.sub_le _ _) List.Pairwise.nil
      (fun a ha => absurd ha (List.not_mem_nil _))
  have hout : getProcessesByPriority ranged = pre' ++ rest' := by
    unfold getProcessesByPriority
    rw [List.range_eq_range']
    exact h1
  rw [hout]
  refine ⟨h4, ?_⟩
  rw [List.pairwise_append]
  refine ⟨h2, ?_, h3⟩
  have hshort : rest'.length ≤ 1 := by omega
  match rest', hshort with
  | [], _ => exact List.Pairwise.nil
  | [b], _ => exact List.pairwise_singleton _ _

theorem initializeProcesses_priorities (e : InitEnv) :
    ((initializeProcesses e).map Prod.snd).map Process.Priority = [100, 200, 300, 400] ∧
    ((initializeProcesses e).map Prod.snd).map Process.Name
      = ["xvfb", "xfce4", "x11vnc", "novnc"] ∧
    (initializeProcesses e).map Prod.fst = ["xvfb", "xfce4", "x11vnc", "novnc"] :=
  ⟨rfl, rfl, rfl⟩

/-- A record of the initial map is known by its `Priority`. -/
theorem initializeProcesses_find (e : InitEnv) :
    ∀ p ∈ (initializeProcesses e).map Prod.snd,
      ((initializeProcesses e).map Prod.snd).find? (fun q => decide (q.Priority = p.Priority))
        = some p := by
  intro p hp
  simp only [initializeProcesses, List.map_cons, List.map_nil, List.mem_cons,
    List.mem_singleton, List.not_mem_nil, or_false] at hp
  rcases hp with h | h | h | h <;> subst h <;> simp [initializeProcesses, List.find?]

/-- C17: `getProcessesByPriority` returns the records it ranged over, each exactly once, in an
order of non-decreasing `Priority`, whatever the records and the order of the range; and on
the four records of `initializeProcesses`, ranged over in any order, `startAllProcesses`
starts xvfb, xfce4, x11vnc, novnc in this order. -/
theorem getProcessesByPriority_sorted (ranged : List Process) (e : InitEnv) :
    (getProcessesByPriority ranged).Perm ranged ∧
    (getProcessesByPriority ranged).Pairwise (fun a b => a.Priority ≤ b.Priority) ∧
    (ranged.Perm ((initializeProcesses e).map Prod.snd) →
      startAllProcesses ranged = (initializeProcesses e).map Prod.snd ∧
      (startAllProcesses ranged).map Process.Name = ["xvfb", "xfce4", "x11vnc", "novnc"] ∧
      (startAllProcesses ranged).map Process.Priority = [100, 200, 300, 400]) := by
  obtain ⟨hperm, hsorted⟩ := getProcessesByPriority_perm_sorted ranged
  refine ⟨hperm, hsorted, fun hranged => ?_⟩
  have hT := initializeProcesses_priorities e
  have hout : (getProcessesByPriority ranged).Perm ((initializeProcesses e).map Prod.snd) :=
    hperm.trans hranged
  have hprio : (getProcessesByPriority ranged).map Process.Priority = [100, 200, 300, 400] := by
    have hp : ((getProcessesByPriority ranged).map Process.Priority).Perm [100, 200, 300, 400] := by
      rw [← hT.1]
      exact hout.map _
    have hs : ((getProcessesByPriority ranged).map Process.Priority).Sorted (· ≤ ·) := by
      unfold List.Sorted
      rw [List.pairwise_map]
      exact hsorted
    exact List.eq_of_perm_of_sorted hp hs (by decide)
  have heq : getProcessesByPriority ranged = (initializeProcesses e).map Prod.snd := by
    have hfind := initializeProcesses_find e
    have key : ∀ l : List Process, (∀ p ∈ l, p ∈ (initializeProcesses e).map Prod.snd) →
        l.map some = (l.map Process.Priority).map
          (fun n => ((initializeProcesses e).map Prod.snd).find?
            (fun q => decide (q.Priority = n))) := by
      intro l hl
      induction l with
      | nil => rfl
      | cons p l ih =>
        simp only [List.map_cons]
        rw [hfind p (hl p (List.mem_cons_self _ _)),
          ih (fun q hq => hl q (List.mem_cons_of_mem _ hq))]
    have h1 := key (getProcessesByPriority ranged) (fun p hp => hout.subset hp)
    have h2 := key ((initializeProcesses e).map Prod.snd) (fun p hp => hp)
    rw [hprio] at h1
    rw [hT.1] at h2
    exact List.map_injective_iff.mpr (Option.some_injective _) (h1.trans h2.symm)
  unfold startAllProcesses
  rw [heq]
  exact ⟨rfl, hT.2.1, hT.1⟩

/-- Witness of C17: the four records ranged over in the order novnc, xfce4, xvfb, x11vnc. -/
theorem getProcessesByPriority_sorted_witness :
    (startAllProcesses
      (rangedAs ((initializeProcesses exampleInitEnv).map Prod.snd) [3, 1, 0, 2])).map
        Process.Name = ["xvfb", "xfce4", "x11vnc", "novnc"] :=
  ((getProcessesByPriority_sorted _ exampleInitEnv).2.2 (by decide)).2.1

/-- C18 (evaluation of the code): with the four records of `initializeProcesses` ranged over
in the order novnc, xfce4, xvfb, x11vnc, `Stop` passes them to `stopProcess` in the order
x11vnc (300), xvfb (100), xfce4 (200), novnc (400): it walks the records backwards in the
order of the range, without sorting them, so xvfb is stopped before xfce4 and novnc.  On the
same range `startAllProcesses` starts them by priority. -/
theorem Stop_not_reverse_priority :
    (Stop (rangedAs ((initializeProcesses exampleInitEnv).map Prod.snd) [3, 1, 0, 2])).map
      (fun p => (p.Name, p.Priority))
        = [("x11vnc", 300), ("xvfb", 100), ("xfce4", 200), ("novnc", 400)] ∧
    (startAllProcesses
      (rangedAs ((initializeProcesses exampleInitEnv).map Prod.snd) [3, 1, 0, 2])).map
      (fun p => (p.Name, p.Priority))
        = [("xvfb", 100), ("xfce4", 200), ("x11vnc", 300), ("novnc", 400)] := by
  decide

/-- C19 (evaluation of the code): an auto-restart record is started and its OS process 0
launched; `stopProcess` kills it and clears `running`; `Wait` returns in the restart loop,
which finds `AutoRestart` set, sleeps, and launches OS process 1 although `running` is
false. -/
theorem restart_loop_ignores_running :
    (((newRecord true).run
      [Event.startProcess, Event.launch 0 true, Event.stopProcess]).running = false ∧
     ((newRecord true).run
      [Event.startProcess, Event.launch 0 true, Event.stopProcess]).launched = 1 ∧
     ((newRecord true).run
      [Event.startProcess, Event.launch 0 true, Event.stopProcess]).alive = []) ∧
    (((newRecord true).run
      [Event.startProcess, Event.launch 0 true, Event.stopProcess, Event.waitReturns 0,
        Event.checkRestart 0, Event.wake 0, Event.launch 0 true]).running = false ∧
     ((newRecord true).run
      [Event.startProcess, Event.launch 0 true, Event.stopProcess, Event.waitReturns 0,
        Event.checkRestart 0, Event.wake 0, Event.launch 0 true]).launched = 2 ∧
     ((newRecord true).run
      [Event.startProcess, Event.launch 0 true, Event.stopProcess, Event.waitReturns 0,
        Event.checkRestart 0, Event.wake 0, Event.launch 0 true]).alive = [1]) := by
  decide

/-- C20 (counterexample): an auto-restart record whose OS process has exited, in the sleep
before the restart: `running` is true and no OS process of the record is alive. -/
theorem running_without_live_process :
    ((newRecord true).run
      [Event.startProcess, Event.launch 0 true, Event.childExit 0, Event.waitReturns 0,
        Event.checkRestart 0]).running = true ∧
    ((newRecord true).run
      [Event.startProcess, Event.launch 0 true, Event.childExit 0, Event.waitReturns 0,
        Event.checkRestart 0]).alive = [] ∧
    ((newRecord true).run
      [Event.startProcess, Event.launch 0 true, Event.childExit 0, Event.waitReturns 0,
        Event.checkRestart 0]).loops 0 = LoopPC.sleeping := by
  decide

theorem Inv_newRecord (autoRestart : Bool) : (newRecord autoRestart).Inv := by
  refine ⟨fun _ _ => rfl, fun g _ hg _ => absurd rfl hg, ?_, ?_⟩
  · constructor
    · intro h
      exact Bool.noConfusion h
    · rintro ⟨g, hg⟩
      exact absurd rfl hg
  · intro pid hpid
    simp [newRecord] at hpid

/-- Under the invariant the goroutine inside the loop waits for every live OS process. -/
theorem Inv_alive_waits {r : Record} (h : r.Inv) {g : Nat} (hg : r.loops g ≠ .done)
    {pid : Nat} (hpid : pid ∈ r.alive) : r.loops g = .waiting pid := by
  obtain ⟨g', hg'⟩ := h.2.2.2 pid hpid
  have : g' = g := h.2.1 g' g (by rw [hg']; exact LoopPC.noConfusion) hg
  rw [← this, hg']

/-- The goroutine inside the loop moves to another place of the loop. -/
theorem Inv_update {r r' : Record} (h : r.Inv) {g : Nat} {p : LoopPC}
    (hg : r.loops g ≠ .done) (hpc : p ≠ .done)
    (hl : r'.loops = Function.update r.loops g p) (hs : r'.spawned = r.spawned)
    (hr : r'.running = r.running) (ha : ∀ pid ∈ r'.alive, p = .waiting pid) : r'.Inv := by
  have hactive : ∀ g', r'.loops g' ≠ .done → g' = g := by
    intro g' hg'
    by_cases e : g' = g
    · exact e
    · rw [hl, Function.update_noteq e] at hg'
      exact h.2.1 g' g hg' hg
  refine ⟨?_, ?_, ?_, ?_⟩
  · intro g' hle
    rw [hs] at hle
    have e : g' ≠ g := by
      intro e
      subst e
      exact hg (h.1 g' hle)
    rw [hl, Function.update_noteq e]
    exact h.1 g' hle
  · intro g1 g2 h1 h2
    rw [hactive g1 h1, hactive g2 h2]
  · rw [hr]
    constructor
    · intro _
      exact ⟨g, by rw [hl, Function.update_same]; exact hpc⟩
    · intro _
      exact h.2.2.1.mpr ⟨g, hg⟩
  · intro pid hpid
    exact ⟨g, by rw [hl, Function.update_same]; exact ha pid hpid⟩

theorem Inv_startProcessEntry {r : Record} (h : r.Inv) : (startProcessEntry r).Inv := by
  unfold startProcessEntry
  by_cases hr : r.running = true
  · rw [if_pos hr]
    exact h
  · rw [if_neg hr]
    have hno : ∀ g, r.loops g = .done := by
      intro g
      by_contra hg
      exact hr (h.2.2.1.mpr ⟨g, hg⟩)
    have hactive : ∀ g, Function.update r.loops r.spawned LoopPC.top g ≠ .done →
        g = r.spawned := by
      intro g hg
      by_cases e : g = r.spawned
      · exact e
      · rw [Function.update_noteq e] at hg
        exact absurd (hno g) hg
    refine ⟨?_, ?_, ?_, ?_⟩
    · intro g hle
      have e : g ≠ r.spawned := by
        intro e
        subst e
        exact absurd hle (Nat.not_succ_le_self _)
      show Function.update r.loops r.spawned LoopPC.top g = .done
      rw [Function.update_noteq e]
      exact hno g
    · intro g1 g2 h1 h2
      rw [hactive g1 h1, hactive g2 h2]
    · constructor
      · intro _
        refine ⟨r.spawned, ?_⟩
        show Function.update r.loops r.spawned LoopPC.top r.spawned ≠ .done
        rw [Function.update_same]
        exact LoopPC.noConfusion
      · intro _
        rfl
    · intro pid hpid
      obtain ⟨g, hg⟩ := h.2.2.2 pid hpid
      rw [hno g] at hg
      exact LoopPC.noConfusion hg

theorem Inv_launchStep {r : Record} (h : r.Inv) (g : Nat) (ok : Bool) :
    (launchStep r g ok).Inv := by
  unfold launchStep
  split
  · rename_i hg
    have hg' : r.loops g ≠ .done := by rw [hg]; exact LoopPC.noConfusion
    have hempty : ∀ pid, pid ∉ r.alive := by
      intro pid hpid
      have := Inv_alive_waits h hg' hpid
      rw [hg] at this
      exact LoopPC.noConfusion this
    cases ok
    · refine Inv_update h hg' (p := .after) LoopPC.noConfusion rfl rfl rfl ?_
      intro pid hpid
      exact absurd hpid (hempty pid)
    · refine Inv_update h hg' (p := .waiting r.launched) LoopPC.noConfusion rfl rfl rfl ?_
      intro pid hpid
      rcases List.mem_append.mp hpid with hp | hp
      · exact absurd hp (hempty pid)
      · rw [List.mem_singleton.mp hp]
  · exact h

theorem Inv_waitReturnsStep {r : Record} (h : r.Inv) (g : Nat) : (waitReturnsStep r g).Inv := by
  unfold waitReturnsStep
  split
  · rename_i pid0 hg
    have hg' : r.loops g ≠ .done := by rw [hg]; exact LoopPC.noConfusion
    by_cases hm : pid0 ∈ r.alive
    · rw [if_pos hm]
      exact h
    · rw [if_neg hm]
      refine Inv_update h hg' (p := .after) LoopPC.noConfusion rfl rfl rfl ?_
      intro pid hpid
      have := Inv_alive_waits h hg' hpid
      rw [hg] at this
      exact absurd (LoopPC.waiting.inj this ▸ hpid) hm
  · exact h

theorem Inv_checkRestartStep {r : Record} (h : r.Inv) (g : Nat) :
    (checkRestartStep r g).Inv := by
  unfold checkRestartStep
  split
  · rename_i hg
    have hg' : r.loops g ≠ .done := by rw [hg]; exact LoopPC.noConfusion
    have hempty : ∀ pid, pid ∉ r.alive := by
      intro pid hpid
      have := Inv_alive_waits h hg' hpid
      rw [hg] at this
      exact LoopPC.noConfusion this
    cases ha : r.AutoRestart
    · have hnone : ∀ g', Function.update r.loops g LoopPC.done g' = .done := by
        intro g'
        by_cases e : g' = g
        · rw [e, Function.update_same]
        · rw [Function.update_noteq e]
          by_contra hne
          exact e (h.2.1 g' g hne hg')
      refine ⟨fun g' _ => hnone g', fun g1 _ h1 _ => absurd (hnone g1) h1, ?_, ?_⟩
      · constructor
        · intro hr
          exact Bool.noConfusion hr
        · rintro ⟨g', hne⟩
          exact absurd (hnone g') hne
      · intro pid hpid
        exact absurd hpid (hempty pid)
    · refine Inv_update h hg' (p := .sleeping) LoopPC.noConfusion rfl rfl rfl ?_
      intro pid hpid
      exact absurd hpid (hempty pid)
  · exact h

theorem Inv_wakeStep {r : Record} (h : r.Inv) (g : Nat) : (wakeStep r g).Inv := by
  unfold wakeStep
  split
  · rename_i hg
    have hg' : r.loops g ≠ .done := by rw [hg]; exact LoopPC.noConfusion
    refine Inv_update h hg' (p := .top) LoopPC.noConfusion rfl rfl rfl ?_
    intro pid hpid
    have := Inv_alive_waits h hg' hpid
    rw [hg] at this
    exact LoopPC.noConfusion this
  · exact h

theorem Inv_step {r : Record} (h : r.Inv) (e : Event) (he : e.noStop = true) :
    (r.step e).Inv := by
  cases e with
  | startProcess => exact Inv_startProcessEntry h
  | launch g ok => exact Inv_launchStep h g ok
  | childExit pid =>
    exact ⟨h.1, h.2.1, h.2.2.1, fun p hp => h.2.2.2 p (List.mem_of_mem_erase hp)⟩
  | waitReturns g => exact Inv_waitReturnsStep h g
  | checkRestart g => exact Inv_checkRestartStep h g
  | wake g => exact Inv_wakeStep h g
  | stopProcess => exact Bool.noConfusion he
  | restartProcess => exact Bool.noConfusion he

theorem Inv_run (events : List Event) :
    ∀ r : Record, r.Inv → (∀ e ∈ events, e.noStop = true) → (r.run events).Inv := by
  induction events with
  | nil => exact fun r h _ => h
  | cons e es ih =>
    intro r h hall
    exact ih (r.step e) (Inv_step h e (hall e (List.mem_cons_self e es)))
      (fun e' he' => hall e' (List.mem_cons_of_mem e he'))

/-- C20 (amended): in every state a record reaches from its initial state through calls of
`startProcess`, steps of the restart loop and exits of its OS processes, without
`stopProcess` and `RestartProcess`, the `running` flag is true exactly when a restart loop of
the record is active, and an OS process of the record is alive only while the flag is true. -/
theorem running_iff_loopActive (autoRestart : Bool) (events : List Event)
    (h : ∀ e ∈ events, e.noStop = true) :
    (((newRecord autoRestart).run events).running = true ↔
      ((newRecord autoRestart).run events).loopActive) ∧
    (∀ pid ∈ ((newRecord autoRestart).run events).alive,
      ((newRecord autoRestart).run events).running = true) := by
  have hinv := Inv_run events (newRecord autoRestart) (Inv_newRecord autoRestart) h
  refine ⟨hinv.2.2.1, fun pid hpid => ?_⟩
  obtain ⟨g, hg⟩ := hinv.2.2.2 pid hpid
  exact hinv.2.2.1.mpr ⟨g, by rw [hg]; exact LoopPC.noConfusion⟩

theorem running_iff_loopActive_witness :
    (∀ e ∈ [Event.startProcess, Event.launch 0 true], e.noStop = true) ∧
    ((((newRecord true).run [Event.startProcess, Event.launch 0 true]).running = true ↔
      ((newRecord true).run [Event.startProcess, Event.launch 0 true]).loopActive) ∧
    (∀ pid ∈ ((newRecord true).run [Event.startProcess, Event.launch 0 true]).alive,
      ((newRecord true).run [Event.startProcess, Event.launch 0 true]).running = true)) :=
  ⟨by decide, running_iff_loopActive true [Event.startProcess, Event.launch 0 true] (by decide)⟩

/-! ## Theorems: status of the desktop, browser, SSH dispatch -/

/-- In a list with one entry for each name, the index expression finds the entry of a name. -/
theorem statusOf_eq_some (m : List (String × ProcessStatus)) (hkeys : (m.map Prod.fst).Nodup)
    (name : String) (s : ProcessStatus) : statusOf m name = some s ↔ (name, s) ∈ m := by
  induction m with
  | nil => simp [statusOf]
  | cons e m ih =>
    obtain ⟨k, v⟩ := e
    rw [List.map_cons, List.nodup_cons] at hkeys
    by_cases hk : k = name
    · subst hk
      have hnot : ∀ s', (k, s') ∉ m := fun s' hmem =>
        hkeys.1 (List.mem_map.mpr ⟨(k, s'), hmem, rfl⟩)
      simp only [statusOf, List.find?_cons, decide_True, Option.map_some', Option.some.injEq,
        List.mem_cons, Prod.mk.injEq, true_and]
      constructor
      · intro h
        exact Or.inl h.symm
      · rintro (h | h)
        · exact h.symm
        · exact absurd h (hnot s)
    · have ih' := ih hkeys.2
      simp only [statusOf] at ih'
      simp only [statusOf, List.find?_cons, hk, decide_False, List.mem_cons, Prod.mk.injEq]
      rw [ih']
      constructor
      · intro h
        exact Or.inr h
      · rintro (h | h)
        · exact absurd h.1.symm hk
        · exact h

/-- C21: without an error from `GetProcessStatus`, `GetStatus` reports "active" iff xvfb,
xfce4, x11vnc and novnc all have an entry that is running; "partial" iff that is not so and
some entry, of any name, is running; "inactive" iff no entry is running and "active" is not
reported; and it reports one of the three, with no error. -/
theorem GetStatus_cases (m : List (String × ProcessStatus)) (hkeys : (m.map Prod.fst).Nodup) :
    ((GetStatus m none).1 = "active" ↔
      ∀ name ∈ requiredProcesses, ∃ s, (name, s) ∈ m ∧ s.Running = true) ∧
    ((GetStatus m none).1 = "partial" ↔
      (¬ ∀ name ∈ requiredProcesses, ∃ s, (name, s) ∈ m ∧ s.Running = true) ∧
        ∃ name s, (name, s) ∈ m ∧ s.Running = true) ∧
    ((GetStatus m none).1 = "inactive" ↔
      (¬ ∀ name ∈ requiredProcesses, ∃ s, (name, s) ∈ m ∧ s.Running = true) ∧
        ¬ ∃ name s, (name, s) ∈ m ∧ s.Running = true) ∧
    (GetStatus m none).2 = none := by
  have hall : (requiredProcesses.all (fun processName =>
        match statusOf m processName with
        | some status => status.Running
        | none => false)) = true ↔
      ∀ name ∈ requiredProcesses, ∃ s, (name, s) ∈ m ∧ s.Running = true := by
    rw [List.all_eq_true]
    constructor
    · intro h name hname
      have hn := h name hname
      cases hs : statusOf m name with
      | none => rw [hs] at hn; exact Bool.noConfusion hn
      | some s =>
        rw [hs] at hn
        exact ⟨s, (statusOf_eq_some m hkeys name s).mp hs, hn⟩
    · intro h name hname
      obtain ⟨s, hmem, hrun⟩ := h name hname
      rw [(statusOf_eq_some m hkeys name s).mpr hmem]
      exact hrun
  have hany : (m.any (fun entry => entry.2.Running)) = true ↔
      ∃ name s, (name, s) ∈ m ∧ s.Running = true := by
    rw [List.any_eq_true]
    constructor
    · rintro ⟨⟨name, s⟩, hmem, hrun⟩
      exact ⟨name, s, hmem, hrun⟩
    · rintro ⟨name, s, hmem, hrun⟩
      exact ⟨(name, s), hmem, hrun⟩
  simp only [GetStatus]
  by_cases h1 : (requiredProcesses.all (fun processName =>
        match statusOf m processName with
        | some status => status.Running
        | none => false)) = true
  · rw [if_pos h1]
    have h1' := hall.mp h1
    refine ⟨⟨fun _ => h1', fun _ => rfl⟩, ⟨fun h => absurd h (by decide), fun h => absurd h1' h.1⟩,
      ⟨fun h => absurd h (by decide), fun h => absurd h1' h.1⟩, rfl⟩
  · rw [if_neg h1]
    have h1' : ¬ ∀ name ∈ requiredProcesses, ∃ s, (name, s) ∈ m ∧ s.Running = true :=
      fun h => h1 (hall.mpr h)
    by_cases h2 : (m.any (fun entry => entry.2.Running)) = true
    · rw [if_pos h2]
      have h2' := hany.mp h2
      refine ⟨⟨fun h => absurd h (by decide), fun h => absurd h h1'⟩,
        ⟨fun _ => ⟨h1', h2'⟩, fun _ => rfl⟩,
        ⟨fun h => absurd h (by decide), fun h => absurd h2' h.2⟩, rfl⟩
    · rw [if_neg h2]
      have h2' : ¬ ∃ name s, (name, s) ∈ m ∧ s.Running = true := fun h => h2 (hany.mpr h)
      refine ⟨⟨fun h => absurd h (by decide), fun h => absurd h h1'⟩,
        ⟨fun h => absurd h (by decide), fun h => absurd h.2 h2'⟩,
        ⟨fun _ => ⟨h1', h2'⟩, fun _ => rfl⟩, rfl⟩

/-- Witness of C21: the four required records stopped and the browser running give
"partial". -/
theorem GetStatus_cases_witness :
    (GetStatus [("xvfb", ⟨false, 100, true, none⟩), ("xfce4", ⟨false, 200, true, none⟩),
      ("x11vnc", ⟨false, 300, true, none⟩), ("novnc", ⟨false, 400, true, none⟩),
      ("google-chrome", ⟨true, 900, false, some 4711⟩)] none).1 = "partial" ∧
    ∃ name s, (name, s) ∈ [("xvfb", (⟨false, 100, true, none⟩ : ProcessStatus)),
      ("xfce4", ⟨false, 200, true, none⟩), ("x11vnc", ⟨false, 300, true, none⟩),
      ("novnc", ⟨false, 400, true, none⟩), ("google-chrome", ⟨true, 900, false, some 4711⟩)] ∧
      s.Running = true :=
  have h := GetStatus_cases [("xvfb", ⟨false, 100, true, none⟩),
    ("xfce4", ⟨false, 200, true, none⟩), ("x11vnc", ⟨false, 300, true, none⟩),
    ("novnc", ⟨false, 400, true, none⟩), ("google-chrome", ⟨true, 900, false, some 4711⟩)]
    (by decide)
  ⟨by decide, (h.2.1.mp (by decide)).2⟩

/-- C22 (counterexample): the browser was opened and has started; after `CloseBrowser` the
map still has the entry named "google-chrome", with the record stopped (its process killed,
`running` cleared). -/
theorem CloseBrowser_keeps_record :
    ((CloseBrowser exampleBrowserOpen) ChromeProcessName).isSome = true ∧
    ((CloseBrowser exampleBrowserOpen) ChromeProcessName).map (fun entry => entry.1.Name)
      = some "google-chrome" ∧
    (exampleBrowserOpen ChromeProcessName).map (fun entry => (entry.2.running, entry.2.alive))
      = some (true, [0]) ∧
    ((CloseBrowser exampleBrowserOpen) ChromeProcessName).map
      (fun entry => (entry.2.running, entry.2.alive)) = some (false, []) := by
  decide

/-- C22 (amended): after `CloseBrowser` the map has an entry named "google-chrome" exactly
when it had one before; an existing browser record stays in the map with its configuration,
and `stopProcess` has been applied to it; every entry of another name is as it was, and
without a browser record the map is unchanged. -/
theorem CloseBrowser_map (processes : Processes) :
    (((CloseBrowser processes) ChromeProcessName).isSome
      = (processes ChromeProcessName).isSome) ∧
    ((CloseBrowser processes) ChromeProcessName
      = (processes ChromeProcessName).map (fun entry => (entry.1, stopProcess entry.2))) ∧
    (∀ name, name ≠ ChromeProcessName → (CloseBrowser processes) name = processes name) ∧
    (processes ChromeProcessName = none → CloseBrowser processes = processes) := by
  unfold CloseBrowser
  cases h : processes ChromeProcessName with
  | none =>
    simp [h]
  | some entry =>
    obtain ⟨process, record⟩ := entry
    simp only [Function.update_same, Option.isSome_some, Option.map_some', true_and]
    refine ⟨fun name hname => Function.update_noteq hname _ _, fun hnone => ?_⟩
    exact Option.noConfusion hnone

/-- Witness of C22 (amended): with the browser open, `CloseBrowser` leaves the record of xvfb
as it was. -/
theorem CloseBrowser_map_witness :
    (CloseBrowser exampleBrowserOpen) "xvfb" = exampleBrowserOpen "xvfb" :=
  (CloseBrowser_map exampleBrowserOpen).2.2.1 "xvfb" (by decide)

/-- C23 (counterexample): a session that asks for the subsystem "netconf" gets
`session.Exit(1)`; it does not reach the non-PTY exec path. -/
theorem Handler_rejects_subsystem :
    Handler "netconf" false "ls" = SessionRoute.exit 1 ∧
    Handler "netconf" false "ls" ≠ SessionRoute.nonPty := by
  decide

/-- C23 (amended): the dispatch is a total function of the subsystem, the PTY request and the
raw command: subsystem "sftp" goes to the SFTP handler; the empty subsystem with a PTY
requested and an empty raw command goes to the PTY handler; every other session with the
empty subsystem goes to the non-PTY exec path; every session with another subsystem is ended
with exit code 1 and reaches no handler. -/
theorem Handler_dispatch (subsystem : String) (isPty : Bool) (rawCommand : String) :
    (Handler subsystem isPty rawCommand = SessionRoute.sftp ↔ subsystem = "sftp") ∧
    (Handler subsystem isPty rawCommand = SessionRoute.pty ↔
      subsystem = "" ∧ isPty = true ∧ rawCommand = "") ∧
    (Handler subsystem isPty rawCommand = SessionRoute.nonPty ↔
      subsystem = "" ∧ ¬ (isPty = true ∧ rawCommand = "")) ∧
    (Handler subsystem isPty rawCommand = SessionRoute.exit 1 ↔
      subsystem ≠ "" ∧ subsystem ≠ "sftp") ∧
    (Handler subsystem isPty rawCommand = SessionRoute.sftp ∨
      Handler subsystem isPty rawCommand = SessionRoute.pty ∨
      Handler subsystem isPty rawCommand = SessionRoute.nonPty ∨
      Handler subsystem isPty rawCommand = SessionRoute.exit 1) := by
  unfold Handler
  by_cases h0 : subsystem = ""
  · subst h0
    by_cases hp : rawCommand = "" ∧ isPty = true
    · simp [hp]
    · rw [if_pos rfl, if_neg hp]
      have hp' : ¬ (isPty = true ∧ rawCommand = "") := fun h => hp ⟨h.2, h.1⟩
      simp [hp']
  · rw [if_neg h0]
    by_cases h1 : subsystem = "sftp"
    · subst h1
      simp
    · rw [if_neg h1]
      simp [h0, h1]

/-! ## Theorems: non-PTY exec path, token check -/

/-- A string that contains another contains each of its characters. -/
theorem containsStr_mem (s substr : String) (c : Char) (hc : c ∈ substr.data)
    (h : containsStr s substr = true) : c ∈ s.data := by
  unfold containsStr at h
  exact (of_decide_eq_true h).subset hc

theorem digitChar_toNat (n : Nat) (h : n < 10) :
    48 ≤ (Nat.digitChar n).toNat ∧ (Nat.digitChar n).toNat ≤ 57 := by
  interval_cases n <;> decide

/-- The characters of a decimal number are digits. -/
theorem itoaDigits_digit (fuel n : Nat) :
    ∀ c ∈ itoaDigits fuel n, 48 ≤ c.toNat ∧ c.toNat ≤ 57 := by
  induction fuel generalizing n with
  | zero =>
    intro c hc
    simp [itoaDigits] at hc
  | succ fuel ih =>
    intro c hc
    unfold itoaDigits at hc
    by_cases hn : n < 10
    · rw [if_pos hn, List.mem_singleton] at hc
      rw [hc]
      exact digitChar_toNat n hn
    · rw [if_neg hn, List.mem_append, List.mem_singleton] at hc
      rcases hc with hc | hc
      · exact ih (n / 10) c hc
      · rw [hc]
        exact digitChar_toNat (n % 10) (Nat.mod_lt n (by decide))

/-- The text "exit status N" mentions none of the three phrases of the reaper race. -/
theorem exitStatusText_plain (code : Nat) :
    containsStr (exitStatusText code) "already finished" = false ∧
    containsStr (exitStatusText code) "Wait was already called" = false ∧
    containsStr (exitStatusText code) "no child processes" = false := by
  have hno : ∀ c : Char, c ∉ "exit status ".data → ¬ (48 ≤ c.toNat ∧ c.toNat ≤ 57) →
      c ∉ (exitStatusText code).data := by
    intro c h1 h2 hmem
    unfold exitStatusText at hmem
    rcases List.mem_append.mp hmem with h | h
    · exact h1 h
    · exact h2 (itoaDigits_digit _ _ c h)
  refine ⟨?_, ?_, ?_⟩
  · cases h : containsStr (exitStatusText code) "already finished" with
    | false => rfl
    | true =>
      exact absurd (containsStr_mem _ _ 'y' (by decide) h) (hno 'y' (by decide) (by decide))
  · cases h : containsStr (exitStatusText code) "Wait was already called" with
    | false => rfl
    | true =>
      exact absurd (containsStr_mem _ _ 'W' (by decide) h) (hno 'W' (by decide) (by decide))
  · cases h : containsStr (exitStatusText code) "no child processes" with
    | false => rfl
    | true =>
      exact absurd (containsStr_mem _ _ 'h' (by decide) h) (hno 'h' (by decide) (by decide))

/-- C24: once the command has started, `handleNonPty` ends the session with exit code 0 when
`Wait` succeeds or its error mentions "already finished", "Wait was already called" or "no
child processes"; with `ExitCode()` when `Wait` returns another `ExitError`, which is the
child's exit code for a child that exited with a code other than 0 (text "exit status N");
and with exit code 1 for every other error of `Wait`. -/
theorem handleNonPty_exitCode (waitErr : Option SessionWaitError) :
    ((waitErr = none ∨ ∃ err, waitErr = some err ∧ mentionsReaped err.text) →
      handleNonPty ⟨none, none, waitErr⟩ = some 0) ∧
    (∀ err code, waitErr = some err → ¬ mentionsReaped err.text → err.exitCode = some code →
      handleNonPty ⟨none, none, waitErr⟩ = some code) ∧
    (∀ code : Nat, handleNonPty ⟨none, none, some (exitedWith code)⟩ = some (code : Int)) ∧
    (∀ err, waitErr = some err → ¬ mentionsReaped err.text → err.exitCode = none →
      handleNonPty ⟨none, none, waitErr⟩ = some 1) := by
  have hplain : ∀ err : SessionWaitError, ¬ mentionsReaped err.text →
      (containsStr err.text "already finished" ||
        containsStr err.text "Wait was already called" ||
        containsStr err.text "no child processes") = false := by
    intro err hn
    cases h : (containsStr err.text "already finished" ||
        containsStr err.text "Wait was already called" ||
        containsStr err.text "no child processes") with
    | false => rfl
    | true =>
      exfalso
      apply hn
      simp only [Bool.or_eq_true] at h
      rcases h with (h | h) | h
      · exact Or.inl h
      · exact Or.inr (Or.inl h)
      · exact Or.inr (Or.inr h)
  refine ⟨?_, ?_, ?_, ?_⟩
  · intro hnormal
    rcases hnormal with h | ⟨err, he, hm⟩
    · subst h
      rfl
    · subst he
      have hor : (containsStr err.text "already finished" ||
          containsStr err.text "Wait was already called" ||
          containsStr err.text "no child processes") = true := by
        simp only [Bool.or_eq_true]
        rcases hm with h | h | h
        · exact Or.inl (Or.inl h)
        · exact Or.inl (Or.inr h)
        · exact Or.inr h
      simp only [handleNonPty, hor, if_true]
  · intro err code he hn hcode
    subst he
    simp only [handleNonPty, hplain err hn, Bool.false_eq_true, if_false, hcode]
  · intro code
    obtain ⟨h1, h2, h3⟩ := exitStatusText_plain code
    simp only [handleNonPty, exitedWith, h1, h2, h3]
    rfl
  · intro err he hn hcode
    subst he
    simp only [handleNonPty, hplain err hn, Bool.false_eq_true, if_false, hcode]

/-- Witness of C24: the reaper won the race ("wait: no child processes"): exit code 0. -/
theorem handleNonPty_exitCode_witness :
    handleNonPty ⟨none, none, some ⟨"wait: no child processes", none⟩⟩ = some 0 :=
  (handleNonPty_exitCode (some ⟨"wait: no child processes", none⟩)).1
    (Or.inr ⟨_, rfl, Or.inr (Or.inr (by decide))⟩)

/-- C25: the WebSocket handler and the HTTP middleware admit a request iff the configured
token is empty or the header `X-Deck-Token` equals it; every other request is answered 401:
the middleware aborts it before the protected handler, and the WebSocket handler answers
without an upgrade and without a shell. -/
theorem token_check (expectedToken token : String) (upgradeOk : Bool) :
    (AuthMiddleware expectedToken token = AuthResult.next ↔
      expectedToken = "" ∨ token = expectedToken) ∧
    (¬ (expectedToken = "" ∨ token = expectedToken) →
      ∃ message, AuthMiddleware expectedToken token = AuthResult.abort 401 message) ∧
    (handleWebSocket expectedToken token upgradeOk ≠ [WSAction.httpError 401 "Unauthorized"] ↔
      expectedToken = "" ∨ token = expectedToken) ∧
    ((expectedToken = "" ∨ token = expectedToken) →
      handleWebSocket expectedToken token true
        = [WSAction.upgrade true, WSAction.startLoops, WSAction.spawnTTY]) ∧
    (¬ (expectedToken = "" ∨ token = expectedToken) →
      handleWebSocket expectedToken token upgradeOk = [WSAction.httpError 401 "Unauthorized"] ∧
      (∀ ok, WSAction.upgrade ok ∉ handleWebSocket expectedToken token upgradeOk) ∧
      WSAction.spawnTTY ∉ handleWebSocket expectedToken token upgradeOk) := by
  have hmw : AuthMiddleware expectedToken token = AuthResult.next ↔
      expectedToken = "" ∨ token = expectedToken := by
    unfold AuthMiddleware
    by_cases h0 : expectedToken = ""
    · simp [h0]
    · rw [if_neg h0]
      by_cases h1 : token = ""
      · rw [if_pos h1]
        subst h1
        constructor
        · intro h
          exact AuthResult.noConfusion h
        · rintro (h | h)
          · exact absurd h h0
          · exact absurd h.symm h0
      · rw [if_neg h1]
        by_cases h2 : token = expectedToken
        · simp [h2]
        · simp [h2, h0]
  have hws : ¬ (expectedToken = "" ∨ token = expectedToken) →
      handleWebSocket expectedToken token upgradeOk
        = [WSAction.httpError 401 "Unauthorized"] := by
    intro h
    have h' : expectedToken ≠ "" ∧ token ≠ expectedToken :=
      ⟨fun e => h (Or.inl e), fun e => h (Or.inr e)⟩
    unfold handleWebSocket
    rw [if_pos h']
    rfl
  have hpass : ∀ ok, (expectedToken = "" ∨ token = expectedToken) →
      handleWebSocket expectedToken token ok
        = if !ok then [WSAction.upgrade false]
          else [WSAction.upgrade true, WSAction.startLoops, WSAction.spawnTTY] := by
    intro ok h
    have h' : ¬ (expectedToken ≠ "" ∧ token ≠ expectedToken) := by
      rintro ⟨h1, h2⟩
      rcases h with h | h
      · exact h1 h
      · exact h2 h
    unfold handleWebSocket
    rw [if_neg h']
  refine ⟨hmw, ?_, ?_, ?_, ?_⟩
  · intro h
    unfold AuthMiddleware
    have h0 : expectedToken ≠ "" := fun e => h (Or.inl e)
    have h2 : token ≠ expectedToken := fun e => h (Or.inr e)
    rw [if_neg h0]
    by_cases h1 : token = ""
    · rw [if_pos h1]
      exact ⟨_, rfl⟩
    · rw [if_neg h1, if_pos h2]
      exact ⟨_, rfl⟩
  · constructor
    · intro h
      by_contra hn
      exact h (hws hn)
    · intro h
      rw [hpass upgradeOk h]
      cases upgradeOk <;> decide
  · intro h
    rw [hpass true h]
    rfl
  · intro h
    rw [hws h]
    refine ⟨rfl, fun ok hmem => ?_, fun hmem => ?_⟩
    · simp at hmem
    · simp at hmem

/-- Witness of C25: with the token "s3cret" configured, a request carrying "guess" is
answered 401 by the WebSocket handler and by the middleware. -/
theorem token_check_witness :
    handleWebSocket "s3cret" "guess" true = [WSAction.httpError 401 "Unauthorized"] ∧
    AuthMiddleware "s3cret" "guess" = AuthResult.abort 401 "Invalid authorization token" :=
  ⟨((token_check "s3cret" "guess" true).2.2.2.2 (by decide)).1, by decide⟩

/-! ## Theorems: mouse, reaper -/

/-- C27 (evaluation of the code): for the direction "up" and the amount −2^63, the smallest
`int`, `normalizeScrollDelta` returns −2^63 and no error: the negation in `amount = -amount`
overflows, so the value returned for "up" is negative and is not the absolute value 2^63 of
the amount. -/
theorem normalizeScrollDelta_minInt :
    normalizeScrollDelta id (some ⟨0, 0, "up", minInt⟩) = (-9223372036854775808, none) ∧
    (normalizeScrollDelta id (some ⟨0, 0, "up", minInt⟩)).1 ≠ |minInt| ∧
    (normalizeScrollDelta id (some ⟨0, 0, "up", minInt⟩)).1 < 0 := by
  decide

/-- In the range of `int` the wrapped value is the exact value. -/
theorem wrapInt_inRange (n : Int) (hlo : -9223372036854775808 ≤ n)
    (hhi : n ≤ 9223372036854775807) : wrapInt n = n := by
  unfold wrapInt
  omega

/-- The behaviour of `normalizeScrollDelta` on every amount other than the smallest `int`:
for the direction "up" (trimmed, lower-cased) the absolute value of the amount, 3 for the
amount 0; for "down" the negation of that value; and, for every amount, an error exactly when
the request is nil or the direction is neither "up" nor "down". -/
theorem normalizeScrollDelta_inRange (lower : Char → Char) (req : MouseScrollRequest)
    (hlo : minInt < req.Amount) (hhi : req.Amount ≤ maxInt) :
    (String.mk (ToLower lower (TrimSpace req.Direction.data)) = "up" →
      normalizeScrollDelta lower (some req)
        = (if req.Amount = 0 then 3 else |req.Amount|, none)) ∧
    (String.mk (ToLower lower (TrimSpace req.Direction.data)) = "down" →
      normalizeScrollDelta lower (some req)
        = (-(if req.Amount = 0 then 3 else |req.Amount|), none)) ∧
    ((normalizeScrollDelta lower (some req)).2 ≠ none ↔
      String.mk (ToLower lower (TrimSpace req.Direction.data)) ≠ "up" ∧
        String.mk (ToLower lower (TrimSpace req.Direction.data)) ≠ "down") ∧
    (normalizeScrollDelta lower none).2 ≠ none := by
  unfold minInt at hlo
  unfold maxInt at hhi
  have hamount : (if (if req.Amount = 0 then 3 else req.Amount) < 0
        then wrapInt (-(if req.Amount = 0 then 3 else req.Amount))
        else (if req.Amount = 0 then 3 else req.Amount))
      = if req.Amount = 0 then 3 else |req.Amount| := by
    by_cases h0 : req.Amount = 0
    · rw [if_pos h0, if_neg (by decide), if_pos h0]
    · rw [if_neg h0, if_neg h0]
      by_cases hneg : req.Amount < 0
      · rw [if_pos hneg, wrapInt_inRange _ (by omega) (by omega), abs_of_neg hneg]
      · rw [if_neg hneg, abs_of_nonneg (by omega)]
  have hpos : 0 ≤ (if req.Amount = 0 then 3 else |req.Amount|) := by
    by_cases h0 : req.Amount = 0
    · rw [if_pos h0]
      decide
    · rw [if_neg h0]
      exact abs_nonneg _
  have hle : (if req.Amount = 0 then 3 else |req.Amount|) ≤ 9223372036854775807 := by
    by_cases h0 : req.Amount = 0
    · rw [if_pos h0]
      decide
    · rw [if_neg h0]
      rcases abs_cases req.Amount with ⟨h, _⟩ | ⟨h, _⟩ <;> rw [h] <;> omega
  refine ⟨?_, ?_, ?_, ?_⟩
  · intro hup
    simp only [normalizeScrollDelta, hup, hamount]
    rw [if_neg (by decide), if_pos trivial]
  · intro hdown
    simp only [normalizeScrollDelta, hdown, hamount]
    rw [if_neg (by decide), if_neg (by decide), if_pos trivial,
      wrapInt_inRange _ (by omega) (by omega)]
  · simp only [normalizeScrollDelta]
    by_cases hempty : String.mk (ToLower lower (TrimSpace req.Direction.data)) = ""
    · rw [if_pos hempty, hempty]
      simp
    · rw [if_neg hempty]
      by_cases hup : String.mk (ToLower lower (TrimSpace req.Direction.data)) = "up"
      · rw [if_pos hup]
        simp [hup]
      · rw [if_neg hup]
        by_cases hdown : String.mk (ToLower lower (TrimSpace req.Direction.data)) = "down"
        · rw [if_pos hdown]
          simp [hdown]
        · rw [if_neg hdown]
          simp [hup, hdown]
  · simp [normalizeScrollDelta]

/-- The inner loop of the reaper returns: after `k` calls that reap a child, a call that fails
or returns a PID that is not positive ends it, with `k + 1` calls made. -/
theorem reapLoop_returns (wait4 : Nat → Wait4Result) (clock : Nat → Time) (k : Nat) :
    ∀ (s : ReaperState) (fuel : Nat), k + 1 ≤ fuel →
      (∀ j, j < k → ∃ pid wstatus, wait4 (s.calls + j) = .returned pid wstatus ∧ 0 < pid) →
      (∀ pid wstatus, wait4 (s.calls + k) = .returned pid wstatus → pid ≤ 0) →
      ∃ s1, reapLoop wait4 clock fuel s = some s1 ∧ s1.calls = s.calls + k + 1 := by
  induction k with
  | zero =>
    intro s fuel hfuel _ hend
    obtain ⟨fuel, rfl⟩ : ∃ f, fuel = f + 1 := ⟨fuel - 1, by omega⟩
    unfold reapLoop
    cases hw : wait4 s.calls with
    | failed errno =>
      by_cases he : errno = ECHILD
      · refine ⟨{ s with calls := s.calls + 1 }, ?_, rfl⟩
        simp only [he, if_true]
      · refine ⟨{ s with calls := s.calls + 1, warnings := s.warnings ++ [errno] }, ?_, rfl⟩
        simp only [he, if_false]
    | returned pid wstatus =>
      have hpid : pid ≤ 0 := hend pid wstatus (by rw [Nat.add_zero]; exact hw)
      refine ⟨{ s with calls := s.calls + 1 }, ?_, rfl⟩
      simp only [hpid, if_true]
  | succ k ih =>
    intro s fuel hfuel hreap hend
    obtain ⟨fuel, rfl⟩ : ∃ f, fuel = f + 1 := ⟨fuel - 1, by omega⟩
    obtain ⟨pid, wstatus, hw, hpid⟩ := hreap 0 (Nat.succ_pos k)
    rw [Nat.add_zero] at hw
    unfold reapLoop
    simp only [hw, if_neg (not_le.mpr hpid)]
    obtain ⟨s1, h1, h2⟩ := ih
      { s with
        registry := s.registry.CacheExitStatus pid wstatus (clock s.calls)
        calls := s.calls + 1 }
      fuel (by omega)
      (fun j hj => by
        have := hreap (j + 1) (by omega)
        rw [show s.calls + (j + 1) = s.calls + 1 + j by omega] at this
        exact this)
      (fun p w hp => hend p w (by
        rw [show s.calls + (k + 1) = s.calls + 1 + k by omega]
        exact hp))
    refine ⟨s1, h1, ?_⟩
    rw [h2]
    show s.calls + 1 + k + 1 = s.calls + (k + 1) + 1
    omega

/-- On a kernel that honours `WNOHANG` the inner loop of the code and the inner loop as the
specification words it are the same function. -/
theorem reapLoop_eq_spec (wait4 : Nat → Wait4Result) (clock : Nat → Time)
    (hkernel : honoursWNOHANG wait4) (fuel : Nat) :
    ∀ s, reapLoop wait4 clock fuel s = reapLoopSpec wait4 clock fuel s := by
  induction fuel with
  | zero => exact fun _ => rfl
  | succ fuel ih =>
    intro s
    unfold reapLoop reapLoopSpec
    cases hw : wait4 s.calls with
    | failed errno =>
      have hne : errno ≠ EINTR := by
        intro e
        rw [e] at hw
        exact hkernel s.calls hw
      simp only [if_neg hne]
    | returned pid wstatus =>
      by_cases hpid : pid ≤ 0
      · simp only [if_pos hpid]
      · simp only [if_neg hpid]
        exact ih _

/-- C28: on every kernel that honours `WNOHANG`, the only kernels the reaper meets, the inner
loop of the reaper is the loop that makes a `Wait4` failed with EINTR again and ends on every
other answer but a reaped child: the two are the same function, for a `Wait4` with `WNOHANG`
never fails with EINTR.  In the code every error of `Wait4` ends the inner loop (ECHILD
silently, another errno after a warning), a returned PID that is not positive ends it too, and
a reaped child is cached before the next call; the outer loop keeps running: after the inner
loop the next SIGCHLD starts it anew, and the inner loop does end once a call fails or
returns no child. -/
theorem reapLoop_refines (wait4 : Nat → Wait4Result) (clock : Nat → Time)
    (hkernel : honoursWNOHANG wait4) (s : ReaperState) (fuel signals : Nat) :
    reapLoop wait4 clock fuel s = reapLoopSpec wait4 clock fuel s ∧
    (∀ errno, wait4 s.calls = .failed errno →
      reapLoop wait4 clock (fuel + 1) s =
        some { s with
          calls := s.calls + 1
          warnings := if errno = ECHILD then s.warnings else s.warnings ++ [errno] }) ∧
    (∀ pid wstatus, wait4 s.calls = .returned pid wstatus → pid ≤ 0 →
      reapLoop wait4 clock (fuel + 1) s = some { s with calls := s.calls + 1 }) ∧
    (∀ pid wstatus, wait4 s.calls = .returned pid wstatus → 0 < pid →
      reapLoop wait4 clock (fuel + 1) s =
        reapLoop wait4 clock fuel
          { s with
            registry := s.registry.CacheExitStatus pid wstatus (clock s.calls)
            calls := s.calls + 1 }) ∧
    (∀ s1, reapLoop wait4 clock fuel s = some s1 →
      StartZombieReaper wait4 clock fuel (signals + 1) s =
        StartZombieReaper wait4 clock fuel signals s1) ∧
    (∀ k, k + 1 ≤ fuel →
      (∀ j, j < k → ∃ pid wstatus, wait4 (s.calls + j) = .returned pid wstatus ∧ 0 < pid) →
      (∀ pid wstatus, wait4 (s.calls + k) = .returned pid wstatus → pid ≤ 0) →
      ∃ s1, reapLoop wait4 clock fuel s = some s1 ∧ s1.calls = s.calls + k + 1) := by
  refine ⟨reapLoop_eq_spec wait4 clock hkernel fuel s, ?_, ?_, ?_, ?_, ?_⟩
  · intro errno hw
    unfold reapLoop
    simp only [hw]
    by_cases he : errno = ECHILD
    · simp only [he, if_true]
    · simp only [he, if_false]
  · intro pid wstatus hw hpid
    unfold reapLoop
    simp only [hw, hpid, if_true]
  · intro pid wstatus hw hpid
    conv => lhs; unfold reapLoop
    simp only [hw, if_neg (not_le.mpr hpid)]
  · intro s1 h1
    conv => lhs; unfold StartZombieReaper
    simp only [h1]
  · intro k hfuel hreap hend
    exact reapLoop_returns wait4 clock k s fuel hfuel hreap hend

/-- The kernel with two children honours `WNOHANG`. -/
theorem twoChildren_honoursWNOHANG : honoursWNOHANG twoChildren := by
  intro i
  unfold twoChildren
  split_ifs <;> decide

/-- Witness of C28: on the kernel with two children the first SIGCHLD makes two calls and
caches PID 7; the second makes two more, caches PID 9 and ends on ECHILD without a warning;
the third ends on ECHILD at once; and the loop of the specification does the same. -/
theorem reapLoop_refines_witness :
    reapLoop twoChildren (fun _ => 0) 8 newReaper
      = reapLoopSpec twoChildren (fun _ => 0) 8 newReaper ∧
    (StartZombieReaper twoChildren (fun _ => 0) 8 1 newReaper).map
      (fun s => (s.calls, s.warnings, s.registry.exitCache 7, s.registry.exitCache 9))
        = some (2, [], some ⟨1792, 0⟩, none) ∧
    (StartZombieReaper twoChildren (fun _ => 0) 8 2 newReaper).map
      (fun s => (s.calls, s.warnings, s.registry.exitCache 7, s.registry.exitCache 9))
        = some (4, [], some ⟨1792, 0⟩, some ⟨0, 0⟩) ∧
    (StartZombieReaper twoChildren (fun _ => 0) 8 3 newReaper).map
      (fun s => (s.calls, s.warnings)) = some (5, []) :=
  ⟨(reapLoop_refines twoChildren (fun _ => 0) twoChildren_honoursWNOHANG newReaper 8 0).1,
    by decide, by decide, by decide⟩

/-! ## Theorems: arguments of `parseCommand` are not empty -/

/-- The loop body of `parseCommand` keeps every collected argument non-empty. -/
theorem parseStep_args_nonempty (st : ParseState) (r : Char)
    (h : ∀ a ∈ st.args, a ≠ "") : ∀ a ∈ (parseStep st r).args, a ≠ "" := by
  have happend : st.current.length > 0 →
      ∀ a ∈ st.args ++ [String.mk st.current], a ≠ "" := by
    intro hlen a ha
    rcases List.mem_append.mp ha with ha | ha
    · exact h a ha
    · rw [List.mem_singleton.mp ha]
      intro he
      have hdata : st.current = [] := congrArg String.data he
      rw [hdata] at hlen
      exact absurd hlen (by decide)
  unfold parseStep
  split_ifs with h1 h2 h3 h4 h5
  · exact h
  · exact h
  · exact h
  · exact happend h5
  · exact h
  · exact h

/-- The loop of `parseCommand` keeps every collected argument non-empty. -/
theorem foldl_parseStep_args_nonempty (cs : List Char) :
    ∀ st : ParseState, (∀ a ∈ st.args, a ≠ "") →
      ∀ a ∈ (cs.foldl parseStep st).args, a ≠ "" := by
  induction cs with
  | nil => exact fun st h => h
  | cons c cs ih =>
    intro st h
    exact ih (parseStep st c) (parseStep_args_nonempty st c h)

/-- C30: no element of the list `parseCommand` returns is the empty string, whatever the
command; an empty quoted argument gives no entry: `a "" b` gives `a` and `b`, and a command
that is only a pair of single quotes gives the empty list. -/
theorem parseCommand_no_empty (command : String) :
    (∀ a ∈ parseCommand command, a ≠ "") ∧
    parseCommand (String.mk ['a', ' ', doubleQuote, doubleQuote, ' ', 'b']) = ["a", "b"] ∧
    parseCommand (String.mk [singleQuote, singleQuote]) = [] := by
  refine ⟨?_, by decide, by decide⟩
  have hloop := foldl_parseStep_args_nonempty command.data ⟨[], [], false, zeroRune⟩
    (fun a ha => absurd ha (List.not_mem_nil a))
  unfold parseCommand parseFinish
  intro a ha
  split_ifs at ha with hlen
  · rcases List.mem_append.mp ha with ha | ha
    · exact hloop a ha
    · rw [List.mem_singleton.mp ha]
      intro he
      have hdata : (command.data.foldl parseStep ⟨[], [], false, zeroRune⟩).current = [] :=
        congrArg String.data he
      rw [hdata] at hlen
      exact absurd hlen (by decide)
  · exact hloop a ha

/-! ## Theorems: the text written so far is the decoding of a prefix -/

/-- An error of `DecodeRune` stays an error when the input is cut short. -/
theorem DecodeRune_error_of_append (p q : List Byte) (hp : p ≠ [])
    (h : DecodeRune (p ++ q) = (RuneError, 1)) : DecodeRune p = (RuneError, 1) := by
  rcases DecodeRune_view p hp with ⟨pre, tl, r, hsplit, _, _, hdec, _, hne⟩ | herr
  · exfalso
    subst hsplit
    rw [List.append_assoc, hdec] at h
    exact hne h
  · exact herr

/-- A decoding step that ends inside the input is the same when what follows is cut short. -/
theorem DecodeRune_truncate (pre u v : List Byte) (r : Nat) (hpre : pre ≠ [])
    (h : DecodeRune (pre ++ (u ++ v)) = (r, pre.length)) :
    DecodeRune (pre ++ u) = (r, pre.length) := by
  have hne : pre ++ (u ++ v) ≠ [] := fun e => hpre (List.append_eq_nil.mp e).1
  rcases DecodeRune_view (pre ++ (u ++ v)) hne with ⟨pre2, tl, r2, hsplit, _, _, hdec, _, _⟩ | herr
  · have hd := hdec tl
    rw [← hsplit, h] at hd
    have hlen : pre.length = pre2.length := (Prod.mk.inj hd).2
    have hr : r = r2 := (Prod.mk.inj hd).1
    have hpp : pre = pre2 := (List.append_inj hsplit hlen).1
    rw [hpp, hr]
    exact hdec u
  · rw [h.symm.trans herr]
    apply DecodeRune_error_of_append (pre ++ u) v (fun e => hpre (List.append_eq_nil.mp e).1)
    rw [List.append_assoc]
    exact herr

/-- The text decoded up to a step boundary starts the decoding of the whole input. -/
theorem DecodesTo_decodeString {z c o : List Byte} (h : DecodesTo z c o) :
    decodeString (c ++ z) = o ++ decodeString z := by
  induction h with
  | nil => rfl
  | step pre c o r hpre hdec _ ih =>
    have hne : pre ++ (c ++ z) ≠ [] := fun e => hpre (List.append_eq_nil.mp e).1
    rw [List.append_assoc, decodeString_step _ hne, hdec]
    simp only
    rw [List.drop_left, ih, List.append_assoc]

/-- A step boundary stays one when what follows it is cut short. -/
theorem DecodesTo_truncate {x y c o : List Byte} (h : DecodesTo (x ++ y) c o) :
    DecodesTo x c o := by
  induction h with
  | nil => exact DecodesTo.nil
  | step pre c o r hpre hdec _ ih =>
    refine DecodesTo.step pre c o r hpre ?_ ih
    apply DecodeRune_truncate pre (c ++ x) y r hpre
    rw [List.append_assoc]
    exact hdec

/-- Two pieces that each end on a step boundary make one piece that does. -/
theorem DecodesTo_append {z c1 o1 c2 o2 : List Byte} (h1 : DecodesTo (c2 ++ z) c1 o1)
    (h2 : DecodesTo z c2 o2) : DecodesTo z (c1 ++ c2) (o1 ++ o2) := by
  induction h1 with
  | nil => exact h2
  | step pre c o r hpre hdec _ ih =>
    rw [List.append_assoc, List.append_assoc]
    refine DecodesTo.step pre (c ++ c2) (o ++ o2) r hpre ?_ ih
    rw [List.append_assoc]
    exact hdec

theorem DecodesTo_valid_aux (n : Nat) (a q : List Byte) (hn : a.length ≤ n)
    (ha : Valid a = true) : DecodesTo q a a := by
  induction n generalizing a with
  | zero =>
    have hp : a = [] := List.length_eq_zero.mp (Nat.le_zero.mp hn)
    subst hp
    exact DecodesTo.nil
  | succ n ih =>
    by_cases hp : a = []
    · subst hp
      exact DecodesTo.nil
    · rcases DecodeRune_view a hp with ⟨pre, tl, r, hsplit, h1, _, hdec, henc, hne⟩ | herr
      · subst hsplit
        have htl : Valid tl = true := by
          rw [← Valid_append_pre pre tl r h1 hdec hne]
          exact ha
        rw [List.length_append] at hn
        have hpre : pre ≠ [] := by
          intro e
          rw [e] at h1
          exact absurd h1 (by decide)
        have hstep := DecodesTo.step pre tl tl r hpre (hdec (tl ++ q)) (ih tl (by omega) htl)
        rw [henc] at hstep
        exact hstep
      · rw [Valid_step a hp, if_pos herr] at ha
        exact absurd ha (by decide)

/-- Valid UTF-8 ends on a step boundary and decodes to itself, whatever follows it. -/
theorem DecodesTo_valid (a q : List Byte) (ha : Valid a = true) : DecodesTo q a a :=
  DecodesTo_valid_aux a.length a q (le_refl _) ha

/-- Where the slow path loop of `Write` goes on, the rune it decodes does not depend on what
follows the input. -/
theorem DecodeRune_append_of_continue (rest q : List Byte) (hp : rest ≠ [])
    (hcont : ¬ ((DecodeRune rest).1 = RuneError ∧ rest.length < UTFMax)) :
    DecodeRune (rest ++ q) = DecodeRune rest := by
  rcases DecodeRune_view rest hp with ⟨pre, tl, r, hsplit, _, _, hdec, _, _⟩ | herr
  · subst hsplit
    rw [List.append_assoc, hdec, hdec]
  · apply DecodeRune_append_four
    by_contra hshort
    apply hcont
    rw [herr]
    exact ⟨rfl, by simp only [UTFMax]; omega⟩

/-- The slow path loop of `Write` splits its input in two: the bytes it has decoded, which
end on a step boundary and whose decoding it has appended to the builder, and the bytes it
leaves. -/
theorem writeLoop_consumed (fuel : Nat) (rest builder : List Byte) (hfuel : rest.length ≤ fuel) :
    ∃ c o, c ++ (writeLoop fuel rest builder).2 = rest ∧
      (writeLoop fuel rest builder).1 = builder ++ o ∧
      ∀ q, DecodesTo ((writeLoop fuel rest builder).2 ++ q) c o := by
  induction fuel generalizing rest builder with
  | zero =>
    have hp : rest = [] := List.length_eq_zero.mp (Nat.le_zero.mp hfuel)
    subst hp
    exact ⟨[], [], rfl, (List.append_nil _).symm, fun _ => DecodesTo.nil⟩
  | succ fuel ih =>
    by_cases hp : rest = []
    · subst hp
      exact ⟨[], [], rfl, (List.append_nil _).symm, fun _ => DecodesTo.nil⟩
    · have hlen : ¬ rest.length = 0 := fun h => hp (List.length_eq_zero.mp h)
      have hdrop := drop_DecodeRune_length rest hp
      have hsz := DecodeRune_size rest hp
      rw [writeLoop]
      simp only [hlen, if_false]
      by_cases hbreak : (DecodeRune rest).1 = RuneError ∧ rest.length < UTFMax
      · simp only [hbreak, and_self, if_true]
        exact ⟨[], [], rfl, (List.append_nil _).symm, fun _ => DecodesTo.nil⟩
      · simp only [hbreak, if_false]
        obtain ⟨c, o, hc, ho, hdec⟩ :=
          ih (rest.drop (DecodeRune rest).2) (builder ++ EncodeRune (DecodeRune rest).1)
            (by omega)
        have htake : (rest.take (DecodeRune rest).2).length = (DecodeRune rest).2 := by
          rw [List.length_take]
          omega
        refine ⟨rest.take (DecodeRune rest).2 ++ c, EncodeRune (DecodeRune rest).1 ++ o,
          ?_, ?_, fun q => ?_⟩
        · rw [List.append_assoc, hc, List.take_append_drop]
        · rw [ho, List.append_assoc]
        · refine DecodesTo.step _ c o (DecodeRune rest).1 ?_ ?_ (hdec q)
          · intro e
            rw [e] at htake
            simp only [List.length_nil] at htake
            omega
          · rw [htake, ← List.append_assoc c, hc, ← List.append_assoc,
              List.take_append_drop, DecodeRune_append_of_continue rest q hp hbreak]

/-- One `Write` splits the old buffer followed by the data in two: the bytes whose decoding
it returns, which end on a step boundary, and the new buffer. -/
theorem Write_consumed (d : UTF8Decoder) (data : List Byte) :
    ∃ c, c ++ (d.Write data).1.buffer = d.buffer ++ data ∧
      ∀ q, DecodesTo ((d.Write data).1.buffer ++ q) c (d.Write data).2 := by
  unfold UTF8Decoder.Write
  rw [fullData_eq]
  by_cases hempty : data.length = 0 ∧ d.buffer.length = 0
  · have h1 : data = [] := List.length_eq_zero.mp hempty.1
    have h2 : d.buffer = [] := List.length_eq_zero.mp hempty.2
    rw [if_pos hempty]
    exact ⟨[], by simp [h1, h2], fun _ => DecodesTo.nil⟩
  · rw [if_neg hempty]
    by_cases hvalid : Valid (d.buffer ++ data) = true
    · rw [if_pos hvalid]
      exact ⟨d.buffer ++ data, List.append_nil _, fun q => DecodesTo_valid _ _ hvalid⟩
    · rw [if_neg hvalid]
      obtain ⟨c, o, hc, ho, hdec⟩ :=
        writeLoop_consumed (d.buffer ++ data).length (d.buffer ++ data) [] (le_refl _)
      rw [List.nil_append] at ho
      refine ⟨c, hc, fun q => ?_⟩
      show DecodesTo _ c (writeLoop (d.buffer ++ data).length (d.buffer ++ data) []).1
      rw [ho]
      exact hdec q

/-- All the writes split the first buffer followed by the chunks in two: the bytes whose
decoding was returned, which end on a step boundary, and the final buffer. -/
theorem writeAll_consumed (chunks : List (List Byte)) (d : UTF8Decoder) :
    ∃ c, c ++ (writeAll d chunks).1.buffer = d.buffer ++ chunks.flatten ∧
      ∀ q, DecodesTo ((writeAll d chunks).1.buffer ++ q) c (writeAll d chunks).2.flatten := by
  induction chunks generalizing d with
  | nil => exact ⟨[], by simp [writeAll], fun _ => DecodesTo.nil⟩
  | cons data chunks ih =>
    obtain ⟨c1, hc1, hdec1⟩ := Write_consumed d data
    obtain ⟨c2, hc2, hdec2⟩ := ih (d.Write data).1
    refine ⟨c1 ++ c2, ?_, fun q => ?_⟩
    · simp only [writeAll, List.flatten_cons]
      rw [List.append_assoc, hc2, ← List.append_assoc, hc1, List.append_assoc]
    · simp only [writeAll, List.flatten_cons]
      refine DecodesTo_append ?_ (hdec2 q)
      have h := hdec1 (chunks.flatten ++ q)
      rw [← List.append_assoc, ← hc2, List.append_assoc] at h
      exact h

/-- C29: after any sequence of `Write` calls on a new decoder, the bytes written so far are a
prefix followed by the bytes still held in the buffer; the returned strings, one after the
other, are the decoding of that prefix, which ends on a decode boundary: followed by the
decoding of the buffer, and of the buffer with anything written later, they are the decoding
of all the bytes written so far, and of those with anything written later. -/
theorem writeAll_prefix (chunks : List (List Byte)) :
    ∃ consumed,
      consumed ++ (writeAll NewUTF8Decoder chunks).1.buffer = chunks.flatten ∧
      (writeAll NewUTF8Decoder chunks).2.flatten = decodeString consumed ∧
      (writeAll NewUTF8Decoder chunks).2.flatten
          ++ decodeString (writeAll NewUTF8Decoder chunks).1.buffer
        = decodeString chunks.flatten ∧
      ∀ later, decodeString (chunks.flatten ++ later)
        = decodeString consumed
          ++ decodeString ((writeAll NewUTF8Decoder chunks).1.buffer ++ later) := by
  obtain ⟨c, hc, hdec⟩ := writeAll_consumed chunks NewUTF8Decoder
  have hnew : NewUTF8Decoder.buffer = [] := rfl
  rw [hnew, List.nil_append] at hc
  have hout : (writeAll NewUTF8Decoder chunks).2.flatten = decodeString c := by
    have h0 : DecodesTo [] c (writeAll NewUTF8Decoder chunks).2.flatten := by
      apply DecodesTo_truncate (y := (writeAll NewUTF8Decoder chunks).1.buffer)
      rw [List.nil_append]
      have h := hdec []
      rw [List.append_nil] at h
      exact h
    have h1 := DecodesTo_decodeString h0
    rw [List.append_nil, decodeString_nil, List.append_nil] at h1
    exact h1.symm
  refine ⟨c, hc, hout, ?_, fun later => ?_⟩
  · have h := DecodesTo_decodeString (hdec [])
    rw [List.append_nil, hc] at h
    exact h.symm
  · have h := DecodesTo_decodeString (hdec later)
    rw [← List.append_assoc, hc, hout] at h
    exact h

/-! ## Theorems: WebSocket input loop -/

theorem json_checkValidLoop_append (a b : List Byte) :
    ∀ s, json.checkValidLoop s (a ++ b) =
      (json.checkValidLoop s a).bind (fun s1 => json.checkValidLoop s1 b) := by
  induction a with
  | nil => exact fun _ => rfl
  | cons c a ih =>
    intro s
    simp only [List.cons_append, json.checkValidLoop]
    cases h : s.next c with
    | mk s1 op => cases op <;> first | rfl | exact ih s1

theorem json_checkValidLoop_advance (a : List Byte) :
    ∀ s s1, json.checkValidLoop s a = some s1 → json.advance s a = s1 := by
  induction a with
  | nil =>
    intro s s1 h
    exact Option.some.inj h
  | cons c a ih =>
    intro s s1 h
    simp only [json.checkValidLoop] at h
    show json.advance (s.next c).1 a = s1
    cases hn : s.next c with
    | mk s2 op =>
      rw [hn] at h
      cases op <;> first | exact Option.noConfusion h | exact ih s2 s1 h

theorem json_scanAll_append (a b : List Byte) :
    ∀ s, json.scanAll s (a ++ b) = json.scanAll s a ++ json.scanAll (json.advance s a) b := by
  induction a with
  | nil => exact fun _ => rfl
  | cons c a ih =>
    intro s
    show _ :: json.scanAll (s.next c).1 (a ++ b) = _
    rw [ih]
    rfl

set_option maxRecDepth 100000 in
/-- The scanner on the first digit of a member's value, and on a digit after a first digit
other than 0. -/
theorem json_next_digit :
    ∀ c : Byte, json.isDigit c = true →
      json.beforeValue.next c = (json.inNumber (decide (c.val = 48)), .scanBeginLiteral) ∧
      (json.inNumber false).next c = (json.inNumber false, .scanContinue) := by
  decide

/-- The scanner over the digits that follow a first digit other than 0. -/
theorem json_scan_digits (rest : List Byte) (h : rest.all json.isDigit = true) :
    json.checkValidLoop (json.inNumber false) rest = some (json.inNumber false) ∧
    json.scanAll (json.inNumber false) rest = rest.map (fun c => ⟨c, .scanContinue, 1⟩) := by
  induction rest with
  | nil => exact ⟨rfl, rfl⟩
  | cons c rest ih =>
    rw [List.all_cons, Bool.and_eq_true] at h
    have hn := (json_next_digit c h.1).2
    obtain ⟨ih1, ih2⟩ := ih h.2
    constructor
    · simp only [json.checkValidLoop, hn]
      exact ih1
    · simp only [json.scanAll, hn, ih2, List.map_cons]
      rfl

/-- The scanner over a number that is the value of a member of the top-level object. -/
theorem json_scan_number (item : List Byte) (h : isUintLiteral item = true) :
    ∃ z, json.checkValidLoop json.beforeValue item = some (json.inNumber z) ∧
      json.scanAll json.beforeValue item = json.numberToks item := by
  cases item with
  | nil => exact Bool.noConfusion h
  | cons c rest =>
    simp only [isUintLiteral, Bool.and_eq_true, Bool.or_eq_true, decide_eq_true_eq,
      List.isEmpty_iff] at h
    obtain ⟨⟨hc, hrest⟩, hzero⟩ := h
    have hn := (json_next_digit c hc).1
    by_cases hz : c.val = 48
    · have hnil : rest = [] := by
        rcases hzero with h | h
        · exact absurd hz h
        · exact h
      subst hnil
      refine ⟨true, ?_, ?_⟩
      · simp only [json.checkValidLoop, hn, hz, decide_True]
      · simp only [json.scanAll, json.numberToks, hn, List.map_nil]
        rfl
    · obtain ⟨h1, h2⟩ := json_scan_digits rest hrest
      refine ⟨false, ?_, ?_⟩
      · simp only [json.checkValidLoop, hn, hz, decide_False]
        exact h1
      · simp only [json.scanAll, json.numberToks, hn, hz, decide_False, h2]
        rfl

/-- The decoder over the bytes of a number that is the value of a member. -/
theorem json_decode_digits (rest : List Byte) :
    ∀ (field : Option json.Field) (item : List Byte) (size : windowSize) (e : Bool),
      (rest.map (fun c => (⟨c, .scanContinue, 1⟩ : json.Tok))).foldl json.decodeStep
          ⟨.inLiteral field item, size, e⟩
        = ⟨.inLiteral field (item ++ rest), size, e⟩ := by
  induction rest with
  | nil =>
    intro field item size e
    simp
  | cons c rest ih =>
    intro field item size e
    rw [List.map_cons, List.foldl_cons]
    have hstep : json.decodeStep ⟨.inLiteral field item, size, e⟩ ⟨c, .scanContinue, 1⟩
        = ⟨.inLiteral field (item ++ [c]), size, e⟩ := rfl
    rw [hstep, ih, List.append_assoc]
    rfl

theorem json_decode_number (item : List Byte) (h : item ≠ []) (field : Option json.Field)
    (size : windowSize) (e : Bool) :
    (json.numberToks item).foldl json.decodeStep ⟨.value field, size, e⟩
      = ⟨.inLiteral field item, size, e⟩ := by
  cases item with
  | nil => exact absurd rfl h
  | cons c rest =>
    simp only [json.numberToks, List.foldl_cons]
    have hstep : json.decodeStep ⟨.value field, size, e⟩ ⟨c, .scanBeginLiteral, 1⟩
        = ⟨.inLiteral field [c], size, e⟩ := rfl
    rw [hstep, json_decode_digits]
    rfl

/-- `ParseUint` on a number in decimal. -/
theorem json_ParseUint (item : List Byte) (h : isUintLiteral item = true)
    (hv : literalValue item < 18446744073709551616) :
    json.ParseUint item = some (literalValue item) := by
  cases item with
  | nil => exact Bool.noConfusion h
  | cons c rest =>
    simp only [isUintLiteral, Bool.and_eq_true] at h
    have hall : (c :: rest).all json.isDigit = true := by
      rw [List.all_cons, Bool.and_eq_true]
      exact h.1
    unfold json.ParseUint
    rw [if_neg (List.cons_ne_nil c rest), if_pos hall]
    show (if literalValue (c :: rest) < 18446744073709551616 then some (literalValue (c :: rest))
      else none) = _
    rw [if_pos hv]

/-- A decimal number of at most sixteen bits is stored in the field. -/
theorem json_literalStore (item : List Byte) (h : isUintLiteral item = true)
    (hv : literalValue item < 65536) (mode : json.Mode) (size : windowSize) :
    json.literalStore ⟨mode, size, false⟩ (some .Rows) item
      = ⟨mode, { size with Rows := literalValue item }, false⟩ ∧
    json.literalStore ⟨mode, size, false⟩ (some .Cols) item
      = ⟨mode, { size with Cols := literalValue item }, false⟩ := by
  have hparse := json_ParseUint item h (by omega)
  cases item with
  | nil => exact Bool.noConfusion h
  | cons c rest =>
    simp only [isUintLiteral, Bool.and_eq_true] at h
    have hc : 48 ≤ c.val ∧ c.val ≤ 57 := by
      have := h.1.1
      simp only [json.isDigit, Bool.and_eq_true, decide_eq_true_eq] at this
      exact this
    have h1 : ¬ c.val = 110 := by omega
    have h2 : ¬ (c.val = 116 ∨ c.val = 102 ∨ c.val = 34) := by omega
    constructor
    · simp only [json.literalStore, if_neg h1, if_neg h2, hparse, if_pos hv]
    · simp only [json.literalStore, if_neg h1, if_neg h2, hparse, if_pos hv]

/-- The scanner and the decoder over the fixed parts of a resize message. -/
theorem json_resize_parts :
    (json.checkValidLoop json.reset (ascii "\x7b\"rows\":") = some json.beforeValue ∧
      (json.scanAll json.reset (ascii "\x7b\"rows\":")).foldl json.decodeStep ⟨.top, ⟨0, 0⟩, false⟩
        = ⟨.value (some .Rows), ⟨0, 0⟩, false⟩) ∧
    (∀ z, json.checkValidLoop (json.inNumber z) (ascii ",\"cols\":") = some json.beforeValue ∧
      json.scanAll (json.inNumber z) (ascii ",\"cols\":")
        = ⟨44, .scanObjectValue, 1⟩ ::
          json.scanAll ⟨.stateBeginString, false, [.parseObjectKey], false⟩ (ascii "\"cols\":")) ∧
    (∀ z, json.checkValidLoop (json.inNumber z) (ascii "\x7d")
        = some ⟨.stateEndTop, true, [], false⟩ ∧
      json.scanAll (json.inNumber z) (ascii "\x7d") = [⟨125, .scanEndObject, 0⟩]) ∧
    json.eof ⟨.stateEndTop, true, [], false⟩ = .scanEnd := by
  decide

/-- The decoder over the key "cols" and its colon, whatever the struct holds. -/
theorem json_decode_cols_key (size : windowSize) :
    (json.scanAll ⟨.stateBeginString, false, [.parseObjectKey], false⟩
        (ascii "\"cols\":")).foldl json.decodeStep ⟨.key, size, false⟩
      = ⟨.value (some .Cols), size, false⟩ := by
  rfl

/-- A resize message: `Unmarshal` accepts the JSON object whose members "rows" and "cols" are
decimal numbers of at most sixteen bits, and stores the two numbers. -/
theorem Unmarshal_resizeMessage (rows cols : List Byte) (hr : isUintLiteral rows = true)
    (hc : isUintLiteral cols = true) (hrv : literalValue rows < 65536)
    (hcv : literalValue cols < 65536) :
    json.Unmarshal (resizeMessage rows cols) ⟨0, 0⟩
      = some ⟨literalValue rows, literalValue cols⟩ := by
  obtain ⟨⟨hv0, hd0⟩, hcomma, hbrace, heof⟩ := json_resize_parts
  obtain ⟨z1, hv1, ht1⟩ := json_scan_number rows hr
  obtain ⟨z2, hv2, ht2⟩ := json_scan_number cols hc
  have hrne : rows ≠ [] := by
    intro e
    rw [e] at hr
    exact Bool.noConfusion hr
  have hcne : cols ≠ [] := by
    intro e
    rw [e] at hc
    exact Bool.noConfusion hc
  have hshape : resizeMessage rows cols
      = ascii "\x7b\"rows\":" ++ (rows ++ (ascii ",\"cols\":" ++ (cols ++ ascii "\x7d"))) := by
    simp only [resizeMessage, List.append_assoc]
  have hvalid : json.checkValidLoop json.reset (resizeMessage rows cols)
      = some ⟨.stateEndTop, true, [], false⟩ := by
    rw [hshape, json_checkValidLoop_append, hv0, Option.some_bind,
      json_checkValidLoop_append, hv1, Option.some_bind,
      json_checkValidLoop_append, (hcomma z1).1, Option.some_bind,
      json_checkValidLoop_append, hv2, Option.some_bind, (hbrace z2).1]
  have htoks : json.scanAll json.reset (resizeMessage rows cols)
      = json.scanAll json.reset (ascii "\x7b\"rows\":") ++ (json.numberToks rows ++
          (⟨44, .scanObjectValue, 1⟩ ::
            json.scanAll ⟨.stateBeginString, false, [.parseObjectKey], false⟩
              (ascii "\"cols\":") ++
            (json.numberToks cols ++ [⟨125, .scanEndObject, 0⟩]))) := by
    rw [hshape, json_scanAll_append, json_checkValidLoop_advance _ _ _ hv0,
      json_scanAll_append, ht1, json_checkValidLoop_advance _ _ _ hv1,
      json_scanAll_append, (hcomma z1).2, json_checkValidLoop_advance _ _ _ (hcomma z1).1,
      json_scanAll_append, ht2, json_checkValidLoop_advance _ _ _ hv2, (hbrace z2).2]
  have hcheck : json.checkValid (resizeMessage rows cols) = true := by
    unfold json.checkValid
    rw [hvalid]
    simp only [heof]
    decide
  unfold json.Unmarshal
  rw [hcheck, htoks]
  simp only [Bool.not_true, Bool.false_eq_true, if_false, List.foldl_append, hd0,
    List.foldl_cons, List.foldl_nil]
  rw [json_decode_number rows hrne]
  have hs1 : json.decodeStep ⟨.inLiteral (some .Rows) rows, ⟨0, 0⟩, false⟩
      ⟨44, .scanObjectValue, 1⟩ = ⟨.key, ⟨literalValue rows, 0⟩, false⟩ := by
    show json.nextStep (json.literalStore ⟨.inLiteral (some .Rows) rows, ⟨0, 0⟩, false⟩
      (some .Rows) rows) ⟨44, .scanObjectValue, 1⟩ = _
    rw [(json_literalStore rows hr hrv _ _).1]
    rfl
  rw [hs1, json_decode_cols_key, json_decode_number cols hcne]
  have hs2 : json.decodeStep ⟨.inLiteral (some .Cols) cols, ⟨literalValue rows, 0⟩, false⟩
      ⟨125, .scanEndObject, 0⟩ = ⟨.done, ⟨literalValue rows, literalValue cols⟩, false⟩ := by
    show json.nextStep (json.literalStore
      ⟨.inLiteral (some .Cols) cols, ⟨literalValue rows, 0⟩, false⟩
      (some .Cols) cols) ⟨125, .scanEndObject, 0⟩ = _
    rw [(json_literalStore cols hc hcv _ _).2]
    rfl
  rw [hs2]
  rfl

/-- C26 (counterexample): three text frames that carry no resize message, the empty JSON
object, the JSON `null`, and an object with "cols" alone, are diverted to the resize channel
(as the sizes 0 by 0, 0 by 0 and 0 by 80) and withheld from stdin. -/
theorem inputFrame_diverts_other_text :
    inputFrame TextMessage (ascii "\x7b\x7d") = FrameAction.resize ⟨0, 0⟩ ∧
    inputFrame TextMessage (ascii "null") = FrameAction.resize ⟨0, 0⟩ ∧
    inputFrame TextMessage (ascii "\x7b\"cols\":80\x7d") = FrameAction.resize ⟨0, 80⟩ ∧
    inputFrame TextMessage (ascii "\x7b\x7d") ≠ FrameAction.stdin (ascii "\x7b\x7d") := by
  decide

/-- Text frames by example: a resize message is diverted; a size that does not fit sixteen
bits, a negative or fractional size, a size given as a string, and a text that is no JSON
value go to stdin unchanged; keys are matched without regard to case and with their escapes
resolved, members of other names are skipped, and `null` leaves a field as it is. -/
theorem inputFrame_examples :
    inputFrame TextMessage (ascii "\x7b\"rows\":24,\"cols\":80\x7d") = FrameAction.resize ⟨24, 80⟩ ∧
    inputFrame TextMessage (ascii "\x7b\"rows\":70000,\"cols\":80\x7d")
      = FrameAction.stdin (ascii "\x7b\"rows\":70000,\"cols\":80\x7d") ∧
    inputFrame TextMessage (ascii "\x7b\"rows\":-1\x7d")
      = FrameAction.stdin (ascii "\x7b\"rows\":-1\x7d") ∧
    inputFrame TextMessage (ascii "\x7b\"rows\":1.5\x7d")
      = FrameAction.stdin (ascii "\x7b\"rows\":1.5\x7d") ∧
    inputFrame TextMessage (ascii "\x7b\"rows\":\"24\"\x7d")
      = FrameAction.stdin (ascii "\x7b\"rows\":\"24\"\x7d") ∧
    inputFrame TextMessage (ascii "ls -la") = FrameAction.stdin (ascii "ls -la") ∧
    inputFrame TextMessage (ascii "12") = FrameAction.stdin (ascii "12") ∧
    inputFrame TextMessage (ascii "[24,80]") = FrameAction.stdin (ascii "[24,80]") ∧
    inputFrame TextMessage
        (ascii "\x7b \"Cols\" : 80 , \"x\" : [1, \x7b\"rows\":1\x7d], \"rows\":null\x7d")
      = FrameAction.resize ⟨0, 80⟩ ∧
    inputFrame TextMessage (ascii "\x7b\"r\\u006fws\":7\x7d") = FrameAction.resize ⟨7, 0⟩ := by
  decide

/-! ## Theorems: the ECHILD wait window wraps -/

/-- The wait window of `getNoChildWaitTimeout` wraps in `int64`: for the setting
9223372036854775807 it is -1000000 ns, so `WaitForExitStatus` does not wait and a status that
would arrive on the channel is not received: the response carries the exit code -1.  For the
setting 50 the window is 50 ms and the arriving status 1792 gives the exit code 7. -/
theorem getNoChildWaitTimeout_wraps :
    getNoChildWaitTimeout "9223372036854775807" (fun _ => some 9223372036854775807)
      = -1000000 ∧
    (ExecuteCommand registry (some ⟨"ls", none, none⟩)
      (arrivalEnv "9223372036854775807" 9223372036854775807)).2
      = Response.json 200 (-1) "outerr" ∧
    getNoChildWaitTimeout "50" (fun _ => some 50) = 50 * Millisecond ∧
    (ExecuteCommand registry (some ⟨"ls", none, none⟩) (arrivalEnv "50" 50)).2
      = Response.json 200 7 "outerr" := by
  decide

/-! ## Theorems: size objects -/

/-- The scanner and the decoder together are the loop of `checkValid` and the decoding of the
scanned bytes. -/
theorem json_feedAll_eq (data : List Byte) :
    ∀ (s : json.scanner) (d : json.decodeState),
      json.feedAll (s, d) data =
        (json.checkValidLoop s data).map
          (fun s1 => (s1, (json.scanAll s data).foldl json.decodeStep d)) := by
  induction data with
  | nil => exact fun _ _ => rfl
  | cons c data ih =>
    intro s d
    simp only [json.feedAll, json.feed, json.checkValidLoop, json.scanAll, List.foldl_cons]
    cases h : s.next c with
    | mk s1 op => cases op <;> first | rfl | exact ih s1 _

/-- `Unmarshal` in terms of the scanner and the decoder run together. -/
theorem json_Unmarshal_eq (data : List Byte) (size : windowSize) :
    json.Unmarshal data size =
      match json.feedAll (json.reset, ⟨.top, size, false⟩) data with
      | none => none
      | some st =>
        if json.eof st.1 = .scanError then none
        else if st.2.savedError then none else some st.2.size := by
  rw [json_feedAll_eq]
  unfold json.Unmarshal json.checkValid
  cases h : json.checkValidLoop json.reset data with
  | none => rfl
  | some s =>
    simp only [Option.map_some']
    by_cases he : json.eof s = .scanError
    · simp [he]
    · simp [he]

theorem json_feedAll_append (a b : List Byte) :
    ∀ st, json.feedAll st (a ++ b) = (json.feedAll st a).bind (fun st1 => json.feedAll st1 b) := by
  induction a with
  | nil => exact fun _ => rfl
  | cons c a ih =>
    intro st
    simp only [List.cons_append, json.feedAll]
    cases json.feed st c with
    | none => rfl
    | some st1 => exact ih st1

/-- A state that white space leaves as it is. -/
theorem json_feedAll_stable (st : json.scanner × json.decodeState)
    (hstep : ∀ c, json.isSpace c = true → json.feed st c = some st) (ws : List Byte)
    (hws : isWhite ws = true) : json.feedAll st ws = some st := by
  induction ws with
  | nil => rfl
  | cons c ws ih =>
    simp only [isWhite, List.all_cons, Bool.and_eq_true] at hws
    simp only [json.feedAll, hstep c hws.1]
    exact ih hws.2

theorem json_feed_of_next (s s1 : json.scanner) (d : json.decodeState) (c : Byte) (op : json.ScanOp)
    (h : s.next c = (s1, op)) (hop : op ≠ .scanError) :
    json.feed (s, d) c = some (s1, json.decodeStep d ⟨c, op, s1.parseState.length⟩) := by
  unfold json.feed
  simp only [h]

set_option maxRecDepth 100000 in
/-- The scanner on a byte of white space, in the states it meets in a size object. -/
theorem json_next_space :
    ∀ c : Byte, json.isSpace c = true →
      json.reset.next c = (json.reset, .scanSkipSpace) ∧
      json.beforeFirstKey.next c = (json.beforeFirstKey, .scanSkipSpace) ∧
      json.beforeKey.next c = (json.beforeKey, .scanSkipSpace) ∧
      json.afterKey.next c = (json.afterKey, .scanSkipSpace) ∧
      json.beforeValue.next c = (json.beforeValue, .scanSkipSpace) ∧
      (json.inNumber true).next c = (json.afterValue, .scanSkipSpace) ∧
      (json.inNumber false).next c = (json.afterValue, .scanSkipSpace) ∧
      json.afterValue.next c = (json.afterValue, .scanSkipSpace) ∧
      json.afterTopLiteral.next c = (json.ended, .scanEnd) ∧
      json.ended.next c = (json.ended, .scanEnd) := by
  decide

/-- The scanner on the braces, the colon and the comma of a size object. -/
theorem json_next_structural :
    json.reset.next 123 = (json.beforeFirstKey, .scanBeginObject) ∧
    json.beforeFirstKey.next 125 = (json.ended, .scanEndObject) ∧
    json.afterKey.next 58 = (json.beforeValue, .scanObjectKey) ∧
    (json.inNumber true).next 44 = (json.beforeKey, .scanObjectValue) ∧
    (json.inNumber false).next 44 = (json.beforeKey, .scanObjectValue) ∧
    json.afterValue.next 44 = (json.beforeKey, .scanObjectValue) ∧
    (json.inNumber true).next 125 = (json.ended, .scanEndObject) ∧
    (json.inNumber false).next 125 = (json.ended, .scanEndObject) ∧
    json.afterValue.next 125 = (json.ended, .scanEndObject) := by
  decide

/-- White space before the top-level value, before a key, before a colon, before a value,
after a value and after the top-level value changes neither the scanner nor the decoder. -/
theorem json_space_stable (ws : List Byte) (hws : isWhite ws = true) (size : windowSize)
    (e : Bool) (field : Option json.Field) :
    json.feedAll (json.reset, ⟨.top, size, e⟩) ws = some (json.reset, ⟨.top, size, e⟩) ∧
    json.feedAll (json.beforeFirstKey, ⟨.key, size, e⟩) ws
      = some (json.beforeFirstKey, ⟨.key, size, e⟩) ∧
    json.feedAll (json.beforeKey, ⟨.key, size, e⟩) ws = some (json.beforeKey, ⟨.key, size, e⟩) ∧
    json.feedAll (json.afterKey, ⟨.colon field, size, e⟩) ws
      = some (json.afterKey, ⟨.colon field, size, e⟩) ∧
    json.feedAll (json.beforeValue, ⟨.value field, size, e⟩) ws
      = some (json.beforeValue, ⟨.value field, size, e⟩) ∧
    json.feedAll (json.afterValue, ⟨.next, size, e⟩) ws
      = some (json.afterValue, ⟨.next, size, e⟩) ∧
    json.feedAll (json.ended, ⟨.done, size, e⟩) ws = some (json.ended, ⟨.done, size, e⟩) ∧
    json.feedAll (json.ended, ⟨.topLiteral, size, e⟩) ws
      = some (json.ended, ⟨.topLiteral, size, e⟩) := by
  refine ⟨?_, ?_, ?_, ?_, ?_, ?_, ?_, ?_⟩
  · refine json_feedAll_stable _ (fun c hc => ?_) ws hws
    rw [json_feed_of_next _ _ _ _ _ (json_next_space c hc).1 (by decide)]
    rfl
  · refine json_feedAll_stable _ (fun c hc => ?_) ws hws
    rw [json_feed_of_next _ _ _ _ _ (json_next_space c hc).2.1 (by decide)]
    rfl
  · refine json_feedAll_stable _ (fun c hc => ?_) ws hws
    rw [json_feed_of_next _ _ _ _ _ (json_next_space c hc).2.2.1 (by decide)]
    rfl
  · refine json_feedAll_stable _ (fun c hc => ?_) ws hws
    rw [json_feed_of_next _ _ _ _ _ (json_next_space c hc).2.2.2.1 (by decide)]
    rfl
  · refine json_feedAll_stable _ (fun c hc => ?_) ws hws
    rw [json_feed_of_next _ _ _ _ _ (json_next_space c hc).2.2.2.2.1 (by decide)]
    rfl
  · refine json_feedAll_stable _ (fun c hc => ?_) ws hws
    rw [json_feed_of_next _ _ _ _ _ (json_next_space c hc).2.2.2.2.2.2.2.1 (by decide)]
    rfl
  · refine json_feedAll_stable _ (fun c hc => ?_) ws hws
    rw [json_feed_of_next _ _ _ _ _ (json_next_space c hc).2.2.2.2.2.2.2.2.2 (by decide)]
    rfl
  · refine json_feedAll_stable _ (fun c hc => ?_) ws hws
    rw [json_feed_of_next _ _ _ _ _ (json_next_space c hc).2.2.2.2.2.2.2.2.2 (by decide)]
    rfl

theorem json_feedAll_then (a b : List Byte) (st st1 : json.scanner × json.decodeState)
    (h : json.feedAll st a = some st1) : json.feedAll st (a ++ b) = json.feedAll st1 b := by
  rw [json_feedAll_append, h]
  rfl

/-- The name of a member, from before a key to after it. -/
theorem json_feed_key (field : json.Field) (size : windowSize) (e : Bool) :
    json.feedAll (json.beforeFirstKey, ⟨.key, size, e⟩) (keyBytes field)
      = some (json.afterKey, ⟨.inKey (keyBytes field), size, e⟩) ∧
    json.feedAll (json.beforeKey, ⟨.key, size, e⟩) (keyBytes field)
      = some (json.afterKey, ⟨.inKey (keyBytes field), size, e⟩) ∧
    json.findField (json.unquote (keyBytes field)) = some field := by
  cases field <;> exact ⟨rfl, rfl, by decide⟩

/-- After a name: white space and the colon. -/
theorem json_feed_colon (item ws : List Byte) (hws : isWhite ws = true) (size : windowSize)
    (e : Bool) :
    json.feedAll (json.afterKey, ⟨.inKey item, size, e⟩) (ws ++ [58])
      = some (json.beforeValue, ⟨.value (json.findField (json.unquote item)), size, e⟩) := by
  have hcolon := json_next_structural.2.2.1
  cases ws with
  | nil =>
    show json.feedAll _ [58] = _
    simp only [json.feedAll, json_feed_of_next _ _ _ _ _ hcolon (by decide)]
    rfl
  | cons c ws =>
    simp only [isWhite, List.all_cons, Bool.and_eq_true] at hws
    have hsp := (json_next_space c hws.1).2.2.2.1
    have hd : json.decodeStep ⟨.inKey item, size, e⟩
        ⟨c, .scanSkipSpace, json.afterKey.parseState.length⟩
          = ⟨.colon (json.findField (json.unquote item)), size, e⟩ := rfl
    rw [List.cons_append]
    simp only [json.feedAll, json_feed_of_next _ _ _ _ _ hsp (by decide), hd]
    rw [json_feedAll_then _ _ _ _ (json_space_stable ws hws.2 size e _).2.2.2.1]
    simp only [json.feedAll, json_feed_of_next _ _ _ _ _ hcolon (by decide)]
    rfl

/-- The value of a member, from before it to its last byte. -/
theorem json_feed_value (v : SizeValue) (hv : v.wellFormed = true) (field : Option json.Field)
    (size : windowSize) (e : Bool) :
    ∃ s, (s = json.afterValue ∨ ∃ z, s = json.inNumber z) ∧
      json.feedAll (json.beforeValue, ⟨.value field, size, e⟩) v.bytes
        = some (s, ⟨.inLiteral field v.bytes, size, e⟩) := by
  cases v with
  | null => exact ⟨json.afterValue, Or.inl rfl, rfl⟩
  | number digits =>
    obtain ⟨z, h1, h2⟩ := json_scan_number digits hv
    have hne : digits ≠ [] := by
      intro h
      rw [h] at hv
      exact Bool.noConfusion hv
    refine ⟨json.inNumber z, Or.inr ⟨z, rfl⟩, ?_⟩
    show json.feedAll _ digits = _
    rw [json_feedAll_eq, h1, h2, json_decode_number digits hne]
    rfl

/-- `ParseUint` on a decimal number that does not fit 64 bits. -/
theorem json_ParseUint_big (item : List Byte) (h : isUintLiteral item = true)
    (hv : ¬ literalValue item < 18446744073709551616) : json.ParseUint item = none := by
  cases item with
  | nil => exact Bool.noConfusion h
  | cons c rest =>
    simp only [isUintLiteral, Bool.and_eq_true] at h
    have hall : (c :: rest).all json.isDigit = true := by
      rw [List.all_cons, Bool.and_eq_true]
      exact h.1
    unfold json.ParseUint
    rw [if_neg (List.cons_ne_nil c rest), if_pos hall]
    show (if literalValue (c :: rest) < 18446744073709551616 then some (literalValue (c :: rest))
      else none) = _
    rw [if_neg hv]

/-- What `literalStore` does with the value of a member of a size object. -/
theorem json_literalStore_assign (m : SizeMember) (hm : m.value.wellFormed = true)
    (mode : json.Mode) (size : windowSize) (e : Bool) :
    json.literalStore ⟨mode, size, e⟩ (some m.field) m.value.bytes
      = ⟨mode, (assign (size, e) m).1, (assign (size, e) m).2⟩ := by
  obtain ⟨field, value, s1, s2, s3, s4⟩ := m
  cases value with
  | null => rfl
  | number digits =>
    have hu : isUintLiteral digits = true := hm
    show json.literalStore ⟨mode, size, e⟩ (some field) digits = _
    cases digits with
    | nil => exact Bool.noConfusion hu
    | cons c rest =>
      have hc : 48 ≤ c.val ∧ c.val ≤ 57 := by
        simp only [isUintLiteral, Bool.and_eq_true] at hu
        have := hu.1.1
        simp only [json.isDigit, Bool.and_eq_true, decide_eq_true_eq] at this
        exact this
      have h1 : ¬ c.val = 110 := by omega
      have h2 : ¬ (c.val = 116 ∨ c.val = 102 ∨ c.val = 34) := by omega
      by_cases hv : literalValue (c :: rest) < 65536
      · have hparse := json_ParseUint (c :: rest) hu (by omega)
        simp only [json.literalStore, if_neg h1, if_neg h2, hparse, if_pos hv, assign]
        cases field <;> rfl
      · by_cases h64 : literalValue (c :: rest) < 18446744073709551616
        · have hparse := json_ParseUint (c :: rest) hu h64
          simp only [json.literalStore, if_neg h1, if_neg h2, hparse, if_neg hv, assign]
          rfl
        · have hparse := json_ParseUint_big (c :: rest) hu h64
          simp only [json.literalStore, if_neg h1, if_neg h2, hparse, if_neg hv, assign]
          rfl

/-- After a value: white space, then a comma (the decoder is before the next name) or the
closing brace (the decoder is done); the value has been stored. -/
theorem json_feed_valueEnd (s : json.scanner) (hs : s = json.afterValue ∨ ∃ z, s = json.inNumber z)
    (m : SizeMember) (hm : m.value.wellFormed = true) (hw : isWhite m.space4 = true)
    (size : windowSize) (e : Bool) :
    json.feedAll (s, ⟨.inLiteral (some m.field) m.value.bytes, size, e⟩) (m.space4 ++ [44])
      = some (json.beforeKey, ⟨.key, (assign (size, e) m).1, (assign (size, e) m).2⟩) ∧
    json.feedAll (s, ⟨.inLiteral (some m.field) m.value.bytes, size, e⟩) (m.space4 ++ [125])
      = some (json.ended, ⟨.done, (assign (size, e) m).1, (assign (size, e) m).2⟩) := by
  have hsp : ∀ c, json.isSpace c = true → s.next c = (json.afterValue, .scanSkipSpace) := by
    intro c hc
    rcases hs with rfl | ⟨z, rfl⟩
    · exact (json_next_space c hc).2.2.2.2.2.2.2.1
    · cases z
      · exact (json_next_space c hc).2.2.2.2.2.2.1
      · exact (json_next_space c hc).2.2.2.2.2.1
  have h44 : s.next 44 = (json.beforeKey, .scanObjectValue) := by
    rcases hs with rfl | ⟨z, rfl⟩
    · exact json_next_structural.2.2.2.2.2.1
    · cases z
      · exact json_next_structural.2.2.2.2.1
      · exact json_next_structural.2.2.2.1
  have h125 : s.next 125 = (json.ended, .scanEndObject) := by
    rcases hs with rfl | ⟨z, rfl⟩
    · exact json_next_structural.2.2.2.2.2.2.2.2
    · cases z
      · exact json_next_structural.2.2.2.2.2.2.2.1
      · exact json_next_structural.2.2.2.2.2.2.1
  have hstore := json_literalStore_assign m hm
  have hd44 : ∀ n, json.decodeStep ⟨.inLiteral (some m.field) m.value.bytes, size, e⟩
      ⟨44, .scanObjectValue, n⟩
        = ⟨.key, (assign (size, e) m).1, (assign (size, e) m).2⟩ := by
    intro n
    show ({ json.literalStore ⟨.inLiteral (some m.field) m.value.bytes, size, e⟩ (some m.field)
      m.value.bytes with mode := .key } : json.decodeState) = _
    rw [hstore]
  have hd125 : ∀ n, json.decodeStep ⟨.inLiteral (some m.field) m.value.bytes, size, e⟩
      ⟨125, .scanEndObject, n⟩
        = ⟨.done, (assign (size, e) m).1, (assign (size, e) m).2⟩ := by
    intro n
    show ({ json.literalStore ⟨.inLiteral (some m.field) m.value.bytes, size, e⟩ (some m.field)
      m.value.bytes with mode := .done } : json.decodeState) = _
    rw [hstore]
  have hdsp : ∀ c n, json.decodeStep ⟨.inLiteral (some m.field) m.value.bytes, size, e⟩
      ⟨c, .scanSkipSpace, n⟩
        = ⟨.next, (assign (size, e) m).1, (assign (size, e) m).2⟩ := by
    intro c n
    show ({ json.literalStore ⟨.inLiteral (some m.field) m.value.bytes, size, e⟩ (some m.field)
      m.value.bytes with mode := .next } : json.decodeState) = _
    rw [hstore]
  cases hws : m.space4 with
  | nil =>
    constructor
    · show json.feedAll _ [44] = _
      simp only [json.feedAll, json_feed_of_next _ _ _ _ _ h44 (by decide), hd44]
    · show json.feedAll _ [125] = _
      simp only [json.feedAll, json_feed_of_next _ _ _ _ _ h125 (by decide), hd125]
  | cons c ws =>
    rw [hws] at hw
    simp only [isWhite, List.all_cons, Bool.and_eq_true] at hw
    have hstable := (json_space_stable ws hw.2 (assign (size, e) m).1 (assign (size, e) m).2
      none).2.2.2.2.2.1
    constructor
    · rw [List.cons_append]
      simp only [json.feedAll, json_feed_of_next _ _ _ _ _ (hsp c hw.1) (by decide), hdsp]
      rw [json_feedAll_then _ _ _ _ hstable]
      simp only [json.feedAll,
        json_feed_of_next _ _ _ _ _ json_next_structural.2.2.2.2.2.1 (by decide)]
      rfl
    · rw [List.cons_append]
      simp only [json.feedAll, json_feed_of_next _ _ _ _ _ (hsp c hw.1) (by decide), hdsp]
      rw [json_feedAll_then _ _ _ _ hstable]
      simp only [json.feedAll,
        json_feed_of_next _ _ _ _ _ json_next_structural.2.2.2.2.2.2.2.2 (by decide)]
      rfl

/-- A member of a size object and the comma or the closing brace after it, from before the
name: the value has been stored, and the decoder is before the next name or done. -/
theorem json_feed_member (s : json.scanner) (hs : s = json.beforeFirstKey ∨ s = json.beforeKey)
    (m : SizeMember) (hm : m.wellFormed = true) (size : windowSize) (e : Bool)
    (rest : List Byte) :
    json.feedAll (s, ⟨.key, size, e⟩) (m.render ++ 44 :: rest)
      = json.feedAll (json.beforeKey, ⟨.key, (assign (size, e) m).1, (assign (size, e) m).2⟩)
          rest ∧
    json.feedAll (s, ⟨.key, size, e⟩) (m.render ++ 125 :: rest)
      = json.feedAll (json.ended, ⟨.done, (assign (size, e) m).1, (assign (size, e) m).2⟩)
          rest := by
  simp only [SizeMember.wellFormed, Bool.and_eq_true] at hm
  obtain ⟨⟨⟨⟨hw1, hw2⟩, hw3⟩, hw4⟩, hv⟩ := hm
  have h1 : json.feedAll (s, ⟨.key, size, e⟩) m.space1 = some (s, ⟨.key, size, e⟩) := by
    rcases hs with rfl | rfl
    · exact (json_space_stable m.space1 hw1 size e none).2.1
    · exact (json_space_stable m.space1 hw1 size e none).2.2.1
  have h2 : json.feedAll (s, ⟨.key, size, e⟩) (keyBytes m.field)
      = some (json.afterKey, ⟨.inKey (keyBytes m.field), size, e⟩) := by
    rcases hs with rfl | rfl
    · exact (json_feed_key m.field size e).1
    · exact (json_feed_key m.field size e).2.1
  have h3 := json_feed_colon (keyBytes m.field) m.space2 hw2 size e
  rw [(json_feed_key m.field size e).2.2] at h3
  have h4 := (json_space_stable m.space3 hw3 size e (some m.field)).2.2.2.2.1
  obtain ⟨sv, hsv, h5⟩ := json_feed_value m.value hv (some m.field) size e
  obtain ⟨h6, h7⟩ := json_feed_valueEnd sv hsv m hv hw4 size e
  have hrender : ∀ t, m.render ++ t :: rest
      = m.space1 ++ (keyBytes m.field ++ ((m.space2 ++ [58]) ++ (m.space3 ++ (m.value.bytes ++
          ((m.space4 ++ [t]) ++ rest))))) := by
    intro t
    simp [SizeMember.render, List.append_assoc]
  constructor
  · rw [hrender, json_feedAll_then _ _ _ _ h1, json_feedAll_then _ _ _ _ h2,
      json_feedAll_then _ _ _ _ h3, json_feedAll_then _ _ _ _ h4, json_feedAll_then _ _ _ _ h5,
      json_feedAll_then _ _ _ _ h6]
  · rw [hrender, json_feedAll_then _ _ _ _ h1, json_feedAll_then _ _ _ _ h2,
      json_feedAll_then _ _ _ _ h3, json_feedAll_then _ _ _ _ h4, json_feedAll_then _ _ _ _ h5,
      json_feedAll_then _ _ _ _ h7]

/-- The members stored one after the other: the error flag is set when a number is 65536 or
more, and else each field holds the last number given for it. -/
theorem json_assign_fold (members : List SizeMember) :
    ∀ (size : windowSize) (e : Bool),
      (members.foldl assign (size, e)).2 = (e || !fitsUint16 members) ∧
      (fitsUint16 members = true →
        (members.foldl assign (size, e)).1
          = ⟨(numbersOf .Rows members).getLast?.getD size.Rows,
             (numbersOf .Cols members).getLast?.getD size.Cols⟩) := by
  induction members with
  | nil =>
    intro size e
    simp [fitsUint16, numbersOf]
  | cons m members ih =>
    intro size e
    obtain ⟨field, value, s1, s2, s3, s4⟩ := m
    rw [List.foldl_cons]
    cases value with
    | null =>
      have ha : assign (size, e) ⟨field, .null, s1, s2, s3, s4⟩ = (size, e) := rfl
      have hf : fitsUint16 (⟨field, .null, s1, s2, s3, s4⟩ :: members) = fitsUint16 members := by
        simp [fitsUint16]
      have hn : ∀ f, numbersOf f (⟨field, .null, s1, s2, s3, s4⟩ :: members)
          = numbersOf f members := by
        intro f
        simp [numbersOf]
      rw [ha, hf, hn, hn]
      exact ih size e
    | number digits =>
      by_cases hv : literalValue digits < 65536
      · have hf : fitsUint16 (⟨field, .number digits, s1, s2, s3, s4⟩ :: members)
            = fitsUint16 members := by
          simp [fitsUint16, hv]
        rw [hf]
        cases field with
        | Rows =>
          have ha : assign (size, e) ⟨.Rows, .number digits, s1, s2, s3, s4⟩
              = ({ size with Rows := literalValue digits }, e) := by
            simp [assign, hv]
          have hr : numbersOf .Rows (⟨.Rows, .number digits, s1, s2, s3, s4⟩ :: members)
              = literalValue digits :: numbersOf .Rows members := by
            simp [numbersOf]
          have hc : numbersOf .Cols (⟨.Rows, .number digits, s1, s2, s3, s4⟩ :: members)
              = numbersOf .Cols members := by
            simp [numbersOf]
          rw [ha, hr, hc, List.getLast?_cons]
          exact ih _ e
        | Cols =>
          have ha : assign (size, e) ⟨.Cols, .number digits, s1, s2, s3, s4⟩
              = ({ size with Cols := literalValue digits }, e) := by
            simp [assign, hv]
          have hr : numbersOf .Rows (⟨.Cols, .number digits, s1, s2, s3, s4⟩ :: members)
              = numbersOf .Rows members := by
            simp [numbersOf]
          have hc : numbersOf .Cols (⟨.Cols, .number digits, s1, s2, s3, s4⟩ :: members)
              = literalValue digits :: numbersOf .Cols members := by
            simp [numbersOf]
          rw [ha, hr, hc, List.getLast?_cons]
          exact ih _ e
      · have hf : fitsUint16 (⟨field, .number digits, s1, s2, s3, s4⟩ :: members) = false := by
          simp [fitsUint16, hv]
        have ha : assign (size, e) ⟨field, .number digits, s1, s2, s3, s4⟩ = (size, true) := by
          simp [assign, hv]
        rw [ha, hf, (ih size true).1]
        simp

/-- The members after the first and the closing brace, from after the first member. -/
theorem json_feed_rest (members : List SizeMember) :
    ∀ (s : json.scanner) (m : SizeMember) (size : windowSize) (e : Bool) (trail : List Byte),
      (s = json.beforeFirstKey ∨ s = json.beforeKey) → m.wellFormed = true →
      (∀ m1 ∈ members, m1.wellFormed = true) →
      json.feedAll (s, ⟨.key, size, e⟩) (m.render ++ (renderRest members ++ trail))
        = json.feedAll (json.ended,
            ⟨.done, ((m :: members).foldl assign (size, e)).1,
              ((m :: members).foldl assign (size, e)).2⟩) trail := by
  induction members with
  | nil =>
    intro s m size e trail hs hm _
    exact (json_feed_member s hs m hm size e trail).2
  | cons m1 members ih =>
    intro s m size e trail hs hm hall
    show json.feedAll _ (m.render ++ 44 :: (m1.render ++ renderRest members ++ trail)) = _
    rw [(json_feed_member s hs m hm size e _).1, List.append_assoc,
      ih json.beforeKey m1 _ _ trail (Or.inr rfl) (hall m1 (List.mem_cons_self _ _))
        (fun m2 h2 => hall m2 (List.mem_cons_of_mem _ h2))]
    rfl

/-- A size object: `Unmarshal` accepts it exactly when every number is below 65536, and then
each field holds the last number given for it, and 0 when there is none. -/
theorem Unmarshal_sizeObject (lead inner trail : List Byte) (members : List SizeMember)
    (hlead : isWhite lead = true) (hinner : isWhite inner = true)
    (htrail : isWhite trail = true) (hmembers : ∀ m ∈ members, m.wellFormed = true) :
    json.Unmarshal (sizeObject lead inner members trail) ⟨0, 0⟩ = sizeOf members := by
  have hopen : json.feedAll (json.reset, ⟨.top, ⟨0, 0⟩, false⟩) (lead ++ [123])
      = some (json.beforeFirstKey, ⟨.key, ⟨0, 0⟩, false⟩) := by
    rw [json_feedAll_then _ _ _ _ (json_space_stable lead hlead ⟨0, 0⟩ false none).1]
    rfl
  have hbody : json.feedAll (json.reset, ⟨.top, ⟨0, 0⟩, false⟩)
      (sizeObject lead inner members trail)
        = some (json.ended, ⟨.done, (members.foldl assign (⟨0, 0⟩, false)).1,
            (members.foldl assign (⟨0, 0⟩, false)).2⟩) := by
    cases members with
    | nil =>
      show json.feedAll _ (lead ++ 123 :: ((inner ++ [125]) ++ trail)) = _
      have hsplit : lead ++ 123 :: ((inner ++ [125]) ++ trail)
          = (lead ++ [123]) ++ (inner ++ ([125] ++ trail)) := by
        simp
      rw [hsplit, json_feedAll_then _ _ _ _ hopen,
        json_feedAll_then _ _ _ _ (json_space_stable inner hinner ⟨0, 0⟩ false none).2.1]
      have hclose : json.feedAll (json.beforeFirstKey, ⟨.key, ⟨0, 0⟩, false⟩) [125]
          = some (json.ended, ⟨.done, ⟨0, 0⟩, false⟩) := rfl
      rw [json_feedAll_then _ _ _ _ hclose]
      exact (json_space_stable trail htrail ⟨0, 0⟩ false none).2.2.2.2.2.2.1
    | cons m members =>
      show json.feedAll _ (lead ++ 123 :: ((m.render ++ renderRest members) ++ trail)) = _
      have hsplit : lead ++ 123 :: ((m.render ++ renderRest members) ++ trail)
          = (lead ++ [123]) ++ (m.render ++ (renderRest members ++ trail)) := by
        simp
      rw [hsplit, json_feedAll_then _ _ _ _ hopen,
        json_feed_rest members json.beforeFirstKey m ⟨0, 0⟩ false trail (Or.inl rfl)
          (hmembers m (List.mem_cons_self _ _))
          (fun m2 h2 => hmembers m2 (List.mem_cons_of_mem _ h2))]
      exact (json_space_stable trail htrail _ _ none).2.2.2.2.2.2.1
  obtain ⟨hflag, hsize⟩ := json_assign_fold members ⟨0, 0⟩ false
  rw [json_Unmarshal_eq, hbody]
  show (if json.eof json.ended = .scanError then none
    else if (members.foldl assign (⟨0, 0⟩, false)).2 = true then none
      else some (members.foldl assign (⟨0, 0⟩, false)).1) = _
  rw [if_neg (by decide), hflag]
  unfold sizeOf
  cases hf : fitsUint16 members with
  | false => rfl
  | true =>
    rw [hsize hf]
    rfl

/-- The JSON `null`, with white space around it: `Unmarshal` accepts it and leaves the struct
as it is. -/
theorem Unmarshal_null (lead trail : List Byte) (hlead : isWhite lead = true)
    (htrail : isWhite trail = true) (size : windowSize) :
    json.Unmarshal (lead ++ (ascii "null" ++ trail)) size = some size := by
  have hnull : json.feedAll (json.reset, ⟨.top, size, false⟩) (ascii "null")
      = some (json.afterTopLiteral, ⟨.topLiteral, size, false⟩) := rfl
  rw [json_Unmarshal_eq, json_feedAll_then _ _ _ _ (json_space_stable lead hlead size false none).1,
    json_feedAll_then _ _ _ _ hnull]
  cases trail with
  | nil => rfl
  | cons c ws =>
    simp only [isWhite, List.all_cons, Bool.and_eq_true] at htrail
    have hsp := (json_next_space c htrail.1).2.2.2.2.2.2.2.2.1
    simp only [json.feedAll, json_feed_of_next _ _ _ _ _ hsp (by decide)]
    have hd : json.decodeStep ⟨.topLiteral, size, false⟩ ⟨c, .scanEnd, json.ended.parseState.length⟩
        = ⟨.topLiteral, size, false⟩ := rfl
    rw [hd, (json_space_stable ws htrail.2 size false none).2.2.2.2.2.2.2]
    rfl

/-- The resize message is the size object with the two members "rows" and "cols", both
numbers, and no white space. -/
theorem resizeMessage_sizeObject (rows cols : List Byte) :
    resizeMessage rows cols
      = sizeObject [] [] [⟨.Rows, .number rows, [], [], [], []⟩,
          ⟨.Cols, .number cols, [], [], [], []⟩] [] := by
  have h1 : ascii "\x7b\"rows\":" = 123 :: (keyBytes .Rows ++ [58]) := by decide
  have h2 : ascii ",\"cols\":" = 44 :: (keyBytes .Cols ++ [58]) := by decide
  have h3 : ascii "\x7d" = [125] := by decide
  unfold resizeMessage
  rw [h1, h2, h3]
  simp [sizeObject, SizeMember.render, renderRest, SizeValue.bytes]

/-- C26 (amended): what the input loop does with a frame, by classes of frames.  A size
object is a JSON object whose members are named "rows" or "cols" and hold `null` or an
unsigned decimal integer, in any number and order and with any white space between the
tokens.  A text frame whose payload is a size object in which every number is below 65536 is
diverted to the resize channel, with the last number given for "rows" as height and the last
number given for "cols" as width, and 0 where no number is given, so the empty object is
diverted as 0 by 0; a size object with a number of 65536 or more is written to stdin.  The
JSON `null`, with any white space around it, is diverted as 0 by 0.  Every resize message,
the object with "rows" and "cols" as unsigned decimal integers below 65536, is diverted with
these two numbers.  Every binary frame is written to stdin, and so is every text frame whose
payload is not a JSON value.  In general a frame is diverted exactly when it is a text frame
whose payload `json.Unmarshal` decodes into a `windowSize` without an error, and what is
written to stdin is the payload, byte for byte. -/
theorem inputFrame_cases (lead inner trail : List Byte) (members : List SizeMember)
    (hlead : isWhite lead = true) (hinner : isWhite inner = true)
    (htrail : isWhite trail = true) (hmembers : ∀ m ∈ members, m.wellFormed = true) :
    (fitsUint16 members = true →
      inputFrame TextMessage (sizeObject lead inner members trail)
        = FrameAction.resize ⟨(((numbersOf .Rows members).getLast?.getD 0 : Nat) : Int),
            (((numbersOf .Cols members).getLast?.getD 0 : Nat) : Int)⟩) ∧
    (fitsUint16 members = false →
      inputFrame TextMessage (sizeObject lead inner members trail)
        = FrameAction.stdin (sizeObject lead inner members trail)) ∧
    inputFrame TextMessage (lead ++ (ascii "null" ++ trail)) = FrameAction.resize ⟨0, 0⟩ ∧
    (∀ rows cols : List Byte, isUintLiteral rows = true → isUintLiteral cols = true →
      literalValue rows < 65536 → literalValue cols < 65536 →
      inputFrame TextMessage (resizeMessage rows cols)
        = FrameAction.resize ⟨(literalValue rows : Int), (literalValue cols : Int)⟩) ∧
    (∀ (messageType : Nat) (p : List Byte), messageType ≠ TextMessage →
      inputFrame messageType p = FrameAction.stdin p) ∧
    (∀ p : List Byte, json.checkValid p = false →
      inputFrame TextMessage p = FrameAction.stdin p) ∧
    (∀ (messageType : Nat) (p : List Byte) (size : TTYSize),
      inputFrame messageType p = FrameAction.resize size ↔
        messageType = TextMessage ∧
          ∃ ws, json.Unmarshal p ⟨0, 0⟩ = some ws ∧ size = ⟨(ws.Rows : Int), (ws.Cols : Int)⟩) ∧
    (∀ (messageType : Nat) (p q : List Byte),
      inputFrame messageType p = FrameAction.stdin q → q = p) := by
  have hobj := Unmarshal_sizeObject lead inner trail members hlead hinner htrail hmembers
  refine ⟨?_, ?_, ?_, ?_, ?_, ?_, ?_, ?_⟩
  · intro hf
    unfold inputFrame
    rw [if_pos rfl, hobj]
    unfold sizeOf
    rw [if_pos hf]
  · intro hf
    unfold inputFrame
    rw [if_pos rfl, hobj]
    unfold sizeOf
    rw [hf]
    rfl
  · unfold inputFrame
    rw [if_pos rfl, Unmarshal_null lead trail hlead htrail]
    rfl
  · intro rows cols hr hc hrv hcv
    unfold inputFrame
    rw [if_pos rfl, Unmarshal_resizeMessage rows cols hr hc hrv hcv]
  · intro messageType p ht
    unfold inputFrame
    rw [if_neg ht]
  · intro p hp
    unfold inputFrame json.Unmarshal
    rw [if_pos rfl, hp]
    rfl
  · intro messageType p size
    unfold inputFrame
    by_cases ht : messageType = TextMessage
    · rw [if_pos ht]
      cases hu : json.Unmarshal p ⟨0, 0⟩ with
      | none => simp
      | some ws =>
        simp only [FrameAction.resize.injEq, ht, true_and, Option.some.injEq, exists_eq_left']
        exact eq_comm
    · rw [if_neg ht]
      simp [ht]
  · intro messageType p q
    unfold inputFrame
    by_cases ht : messageType = TextMessage
    · rw [if_pos ht]
      cases hu : json.Unmarshal p ⟨0, 0⟩ with
      | none =>
        intro h
        exact (FrameAction.stdin.inj h).symm
      | some ws =>
        intro h
        exact FrameAction.noConfusion h
    · rw [if_neg ht]
      intro h
      exact (FrameAction.stdin.inj h).symm

/-- Witness of C26 (amended): the text frame with "cols" 80, then "rows" `null`, "rows" 24 and
"rows" 30, with white space between the tokens, is a size object and is diverted as the size
30 by 80; the same object with "rows" 65536 for 30 is written to stdin. -/
theorem inputFrame_cases_witness :
    isWhite (ascii " ") = true ∧ isWhite (ascii "\r\n") = true ∧
    sizeObject (ascii " ") [] [⟨.Cols, .number (ascii "80"), ascii " ", ascii "\t", [], []⟩,
        ⟨.Rows, .null, [], [], ascii " ", []⟩, ⟨.Rows, .number (ascii "24"), [], [], [], []⟩,
        ⟨.Rows, .number (ascii "30"), [], [], [], ascii " "⟩] (ascii "\r\n")
      = ascii " \x7b \"cols\"\t:80,\"rows\": null,\"rows\":24,\"rows\":30 \x7d\r\n" ∧
    inputFrame TextMessage
        (ascii " \x7b \"cols\"\t:80,\"rows\": null,\"rows\":24,\"rows\":30 \x7d\r\n")
      = FrameAction.resize ⟨30, 80⟩ ∧
    inputFrame TextMessage
        (ascii " \x7b \"cols\"\t:80,\"rows\": null,\"rows\":24,\"rows\":65536 \x7d\r\n")
      = FrameAction.stdin
          (ascii " \x7b \"cols\"\t:80,\"rows\": null,\"rows\":24,\"rows\":65536 \x7d\r\n") :=
  ⟨by decide, by decide, by decide,
    (inputFrame_cases (ascii " ") [] (ascii "\r\n")
      [⟨.Cols, .number (ascii "80"), ascii " ", ascii "\t", [], []⟩,
        ⟨.Rows, .null, [], [], ascii " ", []⟩, ⟨.Rows, .number (ascii "24"), [], [], [], []⟩,
        ⟨.Rows, .number (ascii "30"), [], [], [], ascii " "⟩]
      (by decide) (by decide) (by decide) (by decide)).1 (by decide),
    (inputFrame_cases (ascii " ") [] (ascii "\r\n")
      [⟨.Cols, .number (ascii "80"), ascii " ", ascii "\t", [], []⟩,
        ⟨.Rows, .null, [], [], ascii " ", []⟩, ⟨.Rows, .number (ascii "24"), [], [], [], []⟩,
        ⟨.Rows, .number (ascii "65536"), [], [], [], ascii " "⟩]
      (by decide) (by decide) (by decide) (by decide)).2.1 (by decide)⟩

end Deck
